import Mathlib

/-!
# Metallo: distance metrics, bounded nearest-neighbour selection and pairwise export

A shallow embedding of the distance/ranking engine of `metallo.go`.

* The metrics and the selection (`mpair`, `manhattan`, `jensenShannon`,
  `maxIndexDistance`, `dataframe`, `calculateDistance`) are written once for
  every number type that has the operations the code uses (`0`, `+`, `-`, `*`,
  `<`, `!= 0`, decimal constants), and are read in two ways. With the type
  `float64 α` of this file the operations are those of Go's `float64`: NaN, the
  two infinities and overflow behave as in the program; only the rounding of
  finite results and the sign of zero are left out. With an arbitrary linearly
  ordered field `α` the arithmetic is exact (no rounding, no NaN, no
  infinities); the pairwise export, the topic ranking and the responses are
  written for such an `α` only. Every theorem shows in its statement which of
  the two it is about. `math.Log` is a parameter `log`: `float64.Log` over
  `Real.log` on `float64`, `Real.log` itself on the exact numbers.
* Go slices are lists; an index expression `s[i]` that would panic at run time
  makes the embedded function return `none`.
* Go `int` values are `Nat` where the code only counts upwards from zero and
  `Int` where a sign is possible (the shard capacity).
* The package-level variables `backend`, `distance`, `confvar.DivMax` and
  `confvar.FileLimit` are explicit arguments.
* Only the in-memory branches (`confvar.DB == false`) are embedded; the
  database, the HTTP plumbing and the log lines are left out. A call
  `writeCSV(data, filename)` is recorded as the pair `(filename, data)`, the
  records handed to the CSV writer of `writeIDMap` as a list of rows; write
  errors are not modelled. The response of `ViewTopic` is the list of entries
  it joins, the response of `JsonResponse` the value it returns; a field that
  holds a formatted number is kept as the call that formats it (`Rendered`).
* `sort.Sort`, `strconv.Itoa` and `math.Log` belong to the Go library: the
  first is embedded as the library's insertion sort over the methods of
  `dataframe`, the second as the decimal rendering of a natural number, the
  third is the parameter `log` (`float64.Log` on `float64`).
-/

namespace Metallo

/-! ## Data model -/

/-- The record type `theta` of the source: identifier, display text, weight vector. -/
structure theta (α : Type) where
  ID : String
  Text : String
  Vector : List α

/-- The zero value `theta{}` that `make([]theta, n)` fills a fresh slice with. -/
def theta.zero (α : Type) : theta α := ⟨"", "", []⟩

/-- The edge type `Divergence` of the source. -/
structure Divergence (α : Type) where
  SourceID : String
  TargetID : String
  JSDivergence : α

/-- The pair of parallel slices that `sort.Sort` is run on. -/
structure dataframe (α : Type) where
  Thetas : List (theta α)
  Distances : List α

/-! ## The number type `float64` -/

/-- The values of the Go type `float64`: the finite numbers, the two infinities
and NaN. A finite number is an element of `α`; the operations below compute
with the finite numbers exactly and pass to an infinity where the exact result
leaves the finite range. Rounding inside the range and the sign of zero are
left out. The derived equality is the operator `==` of Go as long as one
operand is not NaN; the program only compares with the constant `0`. -/
inductive float64 (α : Type) where
  | fin (x : α)
  | posInf
  | negInf
  | nan
deriving DecidableEq

section Float64

variable {α : Type} [LinearOrderedField α]

/-- The constant `math.MaxFloat64`, the largest finite value `2^1024 - 2^971`. -/
def MaxFloat64 (α : Type) [LinearOrderedField α] : α := 2 ^ 1024 - 2 ^ 971

/-- The `float64` value of an operation on finite numbers whose exact result is
`x`: `x` itself inside the finite range, the infinity of its sign outside
(overflow). -/
def float64.overflow (x : α) : float64 α :=
  if MaxFloat64 α < x then float64.posInf
  else if x < -MaxFloat64 α then float64.negInf
  else float64.fin x

/-- The operator `+` of `float64`: NaN is absorbing and the sum of the two
opposite infinities is NaN. -/
def float64.add : float64 α → float64 α → float64 α
  | .fin x, .fin y => float64.overflow (x + y)
  | .fin _, .posInf => .posInf
  | .fin _, .negInf => .negInf
  | .posInf, .fin _ => .posInf
  | .posInf, .posInf => .posInf
  | .posInf, .negInf => .nan
  | .negInf, .fin _ => .negInf
  | .negInf, .posInf => .nan
  | .negInf, .negInf => .negInf
  | .nan, _ => .nan
  | .fin _, .nan => .nan
  | .posInf, .nan => .nan
  | .negInf, .nan => .nan

/-- The operator `-` of `float64`: NaN is absorbing and the difference of two
equal infinities is NaN. -/
def float64.sub : float64 α → float64 α → float64 α
  | .fin x, .fin y => float64.overflow (x - y)
  | .fin _, .posInf => .negInf
  | .fin _, .negInf => .posInf
  | .posInf, .fin _ => .posInf
  | .posInf, .posInf => .nan
  | .posInf, .negInf => .posInf
  | .negInf, .fin _ => .negInf
  | .negInf, .posInf => .negInf
  | .negInf, .negInf => .nan
  | .nan, _ => .nan
  | .fin _, .nan => .nan
  | .posInf, .nan => .nan
  | .negInf, .nan => .nan

/-- The product of an infinity (`positive` tells which) with the finite
number `x`: NaN when `x` is zero, else the infinity of the sign of the product. -/
def float64.mulInf (positive : Bool) (x : α) : float64 α :=
  if x = 0 then .nan
  else if decide (0 < x) = positive then .posInf
  else .negInf

/-- The operator `*` of `float64`: NaN is absorbing and zero times an infinity
is NaN. -/
def float64.mul : float64 α → float64 α → float64 α
  | .fin x, .fin y => float64.overflow (x * y)
  | .fin x, .posInf => float64.mulInf true x
  | .fin x, .negInf => float64.mulInf false x
  | .posInf, .fin y => float64.mulInf true y
  | .negInf, .fin y => float64.mulInf false y
  | .posInf, .posInf => .posInf
  | .posInf, .negInf => .negInf
  | .negInf, .posInf => .negInf
  | .negInf, .negInf => .posInf
  | .nan, _ => .nan
  | .fin _, .nan => .nan
  | .posInf, .nan => .nan
  | .negInf, .nan => .nan

/-- The operator `<` of `float64`: false whenever an operand is NaN. -/
def float64.blt : float64 α → float64 α → Bool
  | .fin x, .fin y => decide (x < y)
  | .fin _, .posInf => true
  | .negInf, .fin _ => true
  | .negInf, .posInf => true
  | _, _ => false

/-- The operator `<=` of `float64`: false whenever an operand is NaN. -/
def float64.ble : float64 α → float64 α → Bool
  | .fin x, .fin y => decide (x ≤ y)
  | .fin _, .posInf => true
  | .negInf, .fin _ => true
  | .negInf, .posInf => true
  | .negInf, .negInf => true
  | .posInf, .posInf => true
  | _, _ => false

/-- The zero value of `float64`. -/
instance : Zero (float64 α) := ⟨float64.fin 0⟩

/-- A decimal constant of the program text. -/
instance : OfScientific (float64 α) :=
  ⟨fun m s e => float64.fin (OfScientific.ofScientific m s e)⟩

instance : Add (float64 α) := ⟨float64.add⟩

instance : Sub (float64 α) := ⟨float64.sub⟩

instance : Mul (float64 α) := ⟨float64.mul⟩

instance : LT (float64 α) := ⟨fun a b => float64.blt a b = true⟩

instance : LE (float64 α) := ⟨fun a b => float64.ble a b = true⟩

instance (a b : float64 α) : Decidable (a < b) :=
  inferInstanceAs (Decidable (float64.blt a b = true))

instance (a b : float64 α) : Decidable (a ≤ b) :=
  inferInstanceAs (Decidable (float64.ble a b = true))

/-- The library function `math.Log` on `float64`, over the logarithm `log` of
the positive finite numbers: NaN below zero and at NaN, minus infinity at
zero, plus infinity at plus infinity. -/
def float64.Log (log : α → α) : float64 α → float64 α
  | .fin x => if x < 0 then .nan else if x = 0 then .negInf else .fin (log x)
  | .posInf => .posInf
  | .negInf => .nan
  | .nan => .nan

end Float64

/-! ## Distance metrics -/

section Metrics

variable {α : Type} [Zero α] [Add α] [Sub α] [Mul α] [LT α] [∀ a b : α, Decidable (a < b)]
  [DecidableEq α] [OfScientific α]

/-- The function `mpair`: absolute difference by a three-way switch. -/
def mpair (x y : α) : α :=
  if y < x then x - y
  else if x < y then y - x
  else 0

/-- The loop `for i := range x` of `manhattan`, from index `i` with the
accumulator `result`; `y[i]` out of range is a panic (`none`). -/
def manhattanFrom (y : List α) : List α → Nat → α → Option α
  | [], _, result => some result
  | xi :: xs, i, result =>
    match y[i]? with
    | none => none
    | some yi => manhattanFrom y xs (i + 1) (result + mpair xi yi)

/-- The function `manhattan`. -/
def manhattan (x y : List α) : Option α :=
  manhattanFrom y x 0 0

/-- The loop `for i, v := range x` of `jensenShannon`, from index `i` with the
accumulator `result`; `y[i]` out of range is a panic (`none`). -/
def jensenShannonFrom (log : α → α) (y : List α) : List α → Nat → α → Option α
  | [], _, result => some result
  | v :: xs, i, result =>
    match y[i]? with
    | none => none
    | some yi =>
      let m := 0.5 * (v + yi)
      let result1 := if v ≠ 0 then result + 0.5 * v * (log v - log m) else result
      let result2 := if yi ≠ 0 then result1 + 0.5 * yi * (log yi - log m) else result1
      jensenShannonFrom log y xs (i + 1) result2

/-- The function `jensenShannon`. -/
def jensenShannon (log : α → α) (x y : List α) : Option α :=
  jensenShannonFrom log y x 0 0

/-- The `switch distance` of `calculateDistance`: `"jsd"` selects
`jensenShannon`, anything else `manhattan`. -/
def metric (distance : String) (log : α → α) (x y : List α) : Option α :=
  if distance = "jsd" then jensenShannon log x y else manhattan x y

end Metrics

/-! ## Bounded nearest-neighbour selection -/

section TopK

variable {α : Type} [Zero α] [Add α] [Sub α] [Mul α] [LT α] [∀ a b : α, Decidable (a < b)]
  [DecidableEq α] [OfScientific α]

/-- The loop of `maxIndexDistance` from index `i`, carrying `(index, floatvalue)`. -/
def maxIndexDistanceFrom : List α → Nat → Nat × α → Nat × α
  | [], _, acc => acc
  | d :: ds, i, acc =>
    if d > acc.2 then maxIndexDistanceFrom ds (i + 1) (i, d)
    else maxIndexDistanceFrom ds (i + 1) acc

/-- The function `maxIndexDistance`; reading `distances[0]` of an empty slice
is a panic (`none`). -/
def maxIndexDistance (distances : List α) : Option (Nat × α) :=
  match distances with
  | [] => none
  | d0 :: _ => some (maxIndexDistanceFrom distances 0 (0, d0))

/-- The method `dataframe.Len`. -/
def dataframe.Len (m : dataframe α) : Nat := m.Distances.length

/-- The method `dataframe.Less`; the sort only calls it in range. -/
def dataframe.Less (m : dataframe α) (i j : Nat) : Bool :=
  match m.Distances[i]?, m.Distances[j]? with
  | some a, some b => decide (a < b)
  | _, _ => false

/-- The parallel assignment `s[i], s[j] = s[j], s[i]` on one slice. -/
def swapAt {β : Type} (s : List β) (i j : Nat) : List β :=
  match s[i]?, s[j]? with
  | some a, some b => (s.set i b).set j a
  | _, _ => s

/-- The method `dataframe.Swap`: both slices are swapped at the same places. -/
def dataframe.Swap (m : dataframe α) (i j : Nat) : dataframe α :=
  ⟨swapAt m.Thetas i j, swapAt m.Distances i j⟩

/-- The inner loop `for j := i; j > 0 && data.Less(j, j-1); j-- { data.Swap(j, j-1) }`
of the insertion sort of Go's `sort` package. -/
def insertionSortInner (m : dataframe α) : Nat → dataframe α
  | 0 => m
  | j + 1 => if m.Less (j + 1) j then insertionSortInner (m.Swap (j + 1) j) j else m

/-- The library call `sort.Sort(data)`, as the insertion sort of Go's `sort`
package (`for i := 1; i < n; i++` around `insertionSortInner`), which is what
`sort.Sort` runs on short inputs; on longer inputs the library reaches the
same `Len`, `Less` and `Swap` methods through a quicksort. -/
def sortSort (m : dataframe α) : dataframe α :=
  (List.range' 1 (m.Len - 1)).foldl insertionSortInner m

/-- The loop state of `calculateDistance`. -/
structure SelectState (α : Type) where
  thetas : List (theta α)
  distances : List α
  indexcount : Nat

/-- One iteration of `for _, v := range backend` in the in-memory branch of
`calculateDistance`. -/
def calculateDistanceStep (distance : String) (log : α → α) (query : theta α) (count : Nat)
    (st : SelectState α) (v : theta α) : Option (SelectState α) :=
  let newtheta := v
  if st.indexcount ≤ count then
    match metric distance log query.Vector newtheta.Vector with
    | none => none
    | some d =>
      some ⟨st.thetas.set st.indexcount newtheta, st.distances.set st.indexcount d,
        st.indexcount + 1⟩
  else
    match maxIndexDistance st.distances with
    | none => none
    | some (maxindex, maxfloat) =>
      match metric distance log query.Vector newtheta.Vector with
      | none => none
      | some newdistance =>
        if newdistance < maxfloat then
          some ⟨st.thetas.set maxindex newtheta, st.distances.set maxindex newdistance,
            st.indexcount⟩
        else some st

/-- The in-memory branch (`confvar.DB == false`) of `calculateDistance`:
two buffers of `count+1` zero values, one pass over `backend`, then
`sort.Sort`. -/
def calculateDistance (distance : String) (log : α → α) (backend : List (theta α))
    (query : theta α) (count : Nat) : Option (List (theta α) × List α) :=
  let thetas := List.replicate (count + 1) (theta.zero α)
  let distances := List.replicate (count + 1) (0 : α)
  match backend.foldlM (calculateDistanceStep distance log query count)
      ⟨thetas, distances, 0⟩ with
  | none => none
  | some st =>
    let m := sortSort ⟨st.thetas, st.distances⟩
    some (m.Thetas, m.Distances)

end TopK

/-! ## Pairwise divergence: synchronous listing and sharded export -/

section Pairwise

variable {α : Type} [LinearOrderedField α]

/-- The library call `strconv.Itoa` on a non-negative integer (also the verb
`%d` of `fmt.Sprintf`): the decimal rendering. -/
def Itoa (n : Nat) : String := Nat.repr n

/-- The slice expression `s[lo:hi]` of a slice without spare capacity; out of
range is a panic (`none`). -/
def slice {β : Type} (s : List β) (lo hi : Nat) : Option (List β) :=
  if lo ≤ hi ∧ hi ≤ s.length then some ((s.take hi).drop lo) else none

/-- The body of the loop `for j := startIter; j < len(backend); j++` of
`DivergenceJS`, for the source row `v`. -/
def DivergenceJSInner (log : α → α) (backend : List (theta α)) (DivMax : α) (v : theta α)
    (resultJS : List (Divergence α)) (j : Nat) : Option (List (Divergence α)) :=
  match backend[j]? with
  | none => none
  | some w =>
    match jensenShannon log v.Vector w.Vector with
    | none => none
    | some newfloat =>
      if newfloat < DivMax then some (resultJS ++ [⟨v.ID, w.ID, newfloat⟩])
      else some resultJS

/-- The loop `for i, v := range backend` of `DivergenceJS`, from row `i`,
with its `break` at the last row. -/
def DivergenceJSOuter (log : α → α) (backend : List (theta α)) (DivMax : α) :
    List (theta α) → Nat → List (Divergence α) → Option (List (Divergence α))
  | [], _, resultJS => some resultJS
  | v :: rest, i, resultJS =>
    let startIter := i + 1
    if startIter = backend.length then some resultJS
    else
      match (List.range' startIter (backend.length - startIter)).foldlM
          (DivergenceJSInner log backend DivMax v) resultJS with
      | none => none
      | some r => DivergenceJSOuter log backend DivMax rest (i + 1) r

/-- The function `DivergenceJS`: the edge list that is marshalled into the
response. -/
def DivergenceJS (log : α → α) (backend : List (theta α)) (DivMax : α) :
    Option (List (Divergence α)) :=
  DivergenceJSOuter log backend DivMax backend 0 []

/-- The loop state of `prepareCSVs`; `written` is the sequence of calls
`writeCSV(data, filename)` made so far, as `(filename, data)`. -/
structure ShardState (α : Type) where
  resultCSV : List (Divergence α)
  count : Nat
  startString : String
  written : List (String × List (Divergence α))

/-- The body of the loop `for j := startInd + 1; j < len(backend); j++` of
`prepareCSVs`, for the slice row `i` holding `v` (the progress log is left
out). -/
def prepareCSVsInner (log : α → α) (backend : List (theta α)) (DivMax : α) (csvlength : Int)
    (startInd index i : Nat) (v : theta α) (st : ShardState α) (j : Nat) :
    Option (ShardState α) :=
  let startIter := i + 1
  match backend[j]? with
  | none => none
  | some w =>
    if v.ID = w.ID then some st
    else
      match jensenShannon log v.Vector w.Vector with
      | none => none
      | some newfloat =>
        if newfloat < DivMax then
          let resultCSV := st.resultCSV ++ [⟨Itoa (startInd + startIter), Itoa (j + 1), newfloat⟩]
          let count := st.count + 1
          if (count : Int) ≥ csvlength then
            let filename := st.startString ++
              ("Row" ++ Itoa (index + i + 1) ++ "Col" ++ Itoa (j + 1) ++ ".csv")
            some ⟨[], 0, "fromRow" ++ Itoa (index + i + 1) ++ "Col" ++ Itoa (j + 1) ++ "To",
              st.written ++ [(filename, resultCSV)]⟩
          else some ⟨resultCSV, count, st.startString, st.written⟩
        else some st

/-- The loop `for i, v := range temptheta` of `prepareCSVs`, from slice row
`i`, with its `break` at the last row of the slice (`n` is `len(temptheta)`);
the loop also carries `endString`. -/
def prepareCSVsOuter (log : α → α) (backend : List (theta α)) (DivMax : α) (csvlength : Int)
    (startInd n : Nat) :
    List (theta α) → Nat → ShardState α → String → Option (ShardState α × String)
  | [], _, st, endString => some (st, endString)
  | v :: rest, i, st, endString =>
    let startIter := i + 1
    if startIter ≥ n then some (st, endString)
    else
      match (List.range' (startInd + 1) (backend.length - (startInd + 1))).foldlM
          (prepareCSVsInner log backend DivMax csvlength startInd startInd i v) st with
      | none => none
      | some st1 =>
        prepareCSVsOuter log backend DivMax csvlength startInd n rest (i + 1) st1
          ("Row" ++ Itoa (startInd + i + 1) ++ "End.csv")

/-- The function `prepareCSVs`: the sequence of shards `(filename, rows)` it
hands to `writeCSV`, in write order. -/
def prepareCSVs (log : α → α) (backend : List (theta α)) (DivMax : α) (FileLimit : Int)
    (temptheta : List (theta α)) (startInd : Nat) :
    Option (List (String × List (Divergence α))) :=
  let csvlength : Int := (backend.length : Int) * FileLimit
  let startString := "fromRow" ++ Itoa (startInd + 1) ++ "Col" ++ Itoa 1 ++ "To"
  match prepareCSVsOuter log backend DivMax csvlength startInd temptheta.length temptheta 0
      ⟨[], 0, startString, []⟩ "" with
  | none => none
  | some (st, endString) => some (st.written ++ [(st.startString ++ endString, st.resultCSV)])

/-- The loop `for i, v := range backend` of `writeIDMap`, from row `i`. -/
def writeIDMapFrom : List (theta α) → Nat → List (List String) → List (List String)
  | [], _, lines => lines
  | v :: rest, i, lines => writeIDMapFrom rest (i + 1) (lines ++ [[Itoa (i + 1), v.ID]])

/-- The function `writeIDMap`: the records handed to the CSV writer. -/
def writeIDMap (backend : List (theta α)) : List (List String) :=
  writeIDMapFrom backend 0 [["MetalloID", "OriginalID"]]

/-- The local variable `chunkSize` of `DivergenceCSV`: `len(backend)` over
`numCPU`, rounded up. -/
def chunkSize (n numCPU : Nat) : Nat := (n + numCPU - 1) / numCPU

/-- The slice bounds `(idx, end)` that the loop `for i := 0; i < numCPU; i++`
of `DivergenceCSV` gives to its workers; `backend[idx:]` has `end = len(backend)`.
`n` is `len(backend)` and `numCPU` the worker count after the adjustment of a
zero to one. -/
def DivergenceCSVBounds (n numCPU : Nat) : List (Nat × Nat) :=
  (List.range numCPU).map fun i =>
    let idx := i * chunkSize n numCPU
    if i ≥ numCPU - 1 then (idx, n)
    else (idx, i * chunkSize n numCPU + chunkSize n numCPU + 1)

/-- The workers started by `DivergenceCSV`: each slices `backend` and runs
`prepareCSVs` on its slice; a worker that panics is `none`. -/
def DivergenceCSV (log : α → α) (backend : List (theta α)) (DivMax : α) (FileLimit : Int)
    (numCPU : Nat) : List (Option (List (String × List (Divergence α)))) :=
  (DivergenceCSVBounds backend.length numCPU).map fun b =>
    match slice backend b.1 b.2 with
    | none => none
    | some temptheta => prepareCSVs log backend DivMax FileLimit temptheta b.1

end Pairwise


/-! ## Topic ranking and the JSON response -/

/-- The record type `ptopic` of the source. -/
structure ptopic (α : Type) where
  ID : String
  Text : String
  Value : α

/-- The zero value `ptopic{}` that `make([]ptopic, n)` fills a fresh slice with. -/
def ptopic.zero (α : Type) [Zero α] : ptopic α := ⟨"", "", 0⟩

/-- A string field of a response, kept as the expression that produces it:
a string literal, or the library call `strconv.FormatFloat(x, 'f', prec, 64)`,
the fixed-point decimal rendering of `x` with `prec` fractional digits. -/
inductive Rendered (α : Type) where
  | literal (s : String)
  | FormatFloat (x : α) (prec : Nat)

/-- One entry `resultstring2` of the list that `ViewTopic` joins into its
response: the rank line, the identifier, the percentage and the text. -/
structure topicLine (α : Type) where
  Rank : Nat
  ID : String
  Percentage : Rendered α
  Text : String

/-- The type `relatedItem` of the source. -/
structure relatedItem (α : Type) where
  Id : String
  Rank : Nat
  Distance : Rendered α
  Text : String

/-- The type `PassageJsonResponse` of the source. -/
structure PassageJsonResponse (α : Type) where
  URN : String
  Text : String
  Items : List (relatedItem α)

section TopicAndJson

variable {α : Type} [LinearOrderedField α]

/-- The index expression `s[i]` for a signed index; out of range is a panic
(`none`). -/
def indexInt {β : Type} (s : List β) (i : Int) : Option β :=
  if i < 0 then none else s[i.toNat]?

/-- The loop of `minIndexTheta` from index `i`, carrying `(index, floatvalue)`. -/
def minIndexThetaFrom (topic : Int) : List (theta α) → Nat → Nat × α → Option (Nat × α)
  | [], _, acc => some acc
  | e :: rest, i, acc =>
    match indexInt e.Vector topic with
    | none => none
    | some x =>
      if x < acc.2 then minIndexThetaFrom topic rest (i + 1) (i, x)
      else minIndexThetaFrom topic rest (i + 1) acc

/-- The function `minIndexTheta`. -/
def minIndexTheta (thetas : List (theta α)) (topic : Int) : Option (Nat × α) :=
  match thetas with
  | [] => none
  | t0 :: _ =>
    match indexInt t0.Vector topic with
    | none => none
    | some x0 => minIndexThetaFrom topic thetas 0 (0, x0)

/-- The loop of `maxIndexTheta` from index `i`, carrying `(index, floatvalue)`. -/
def maxIndexThetaFrom : List (ptopic α) → Nat → Nat × α → Nat × α
  | [], _, acc => acc
  | v :: rest, i, acc =>
    if v.Value > acc.2 then maxIndexThetaFrom rest (i + 1) (i, v.Value)
    else maxIndexThetaFrom rest (i + 1) acc

/-- The function `maxIndexTheta`. -/
def maxIndexTheta (resultsorted : List (ptopic α)) : Option (Nat × α) :=
  match resultsorted with
  | [] => none
  | p0 :: _ => some (maxIndexThetaFrom resultsorted 0 (0, p0.Value))

/-- One iteration of `for _, v := range backend` in the in-memory branch of
`ViewTopic`, on the state `(thetas, indexcount)`. -/
def ViewTopicStep (topic : Int) (count : Nat) (st : List (theta α) × Nat) (v : theta α) :
    Option (List (theta α) × Nat) :=
  let newtheta := v
  if st.2 < count then some (st.1.set st.2 newtheta, st.2 + 1)
  else
    match minIndexTheta st.1 topic with
    | none => none
    | some (minindex, minfloat) =>
      match indexInt newtheta.Vector topic with
      | none => none
      | some x => if x > minfloat then some (st.1.set minindex newtheta, st.2) else some st

/-- The loop `for _, v := range thetas` of `ViewTopic`, which appends one
`ptopic` per buffered record to `resultsorted`. -/
def ViewTopicCollect (topic : Int) : List (theta α) → List (ptopic α) → Option (List (ptopic α))
  | [], resultsorted => some resultsorted
  | v :: rest, resultsorted =>
    match indexInt v.Vector topic with
    | none => none
    | some x => ViewTopicCollect topic rest (resultsorted ++ [⟨v.ID, v.Text, x⟩])

/-- One iteration of `for i := range resultsorted` of `ViewTopic`, on the
state `(resultsorted, results)`: the entry with the largest value is listed
and its value is set to zero. -/
def ViewTopicRank (DimWeight : α) (st : List (ptopic α) × List (topicLine α)) (i : Nat) :
    Option (List (ptopic α) × List (topicLine α)) :=
  match maxIndexTheta st.1 with
  | none => none
  | some (maxindex, maxfloat) =>
    let percfloat := maxfloat * DimWeight
    match st.1[maxindex]? with
    | none => none
    | some p =>
      some (st.1.set maxindex ⟨p.ID, p.Text, 0⟩,
        st.2 ++ [⟨i + 1, p.ID, Rendered.FormatFloat percfloat 3, p.Text⟩])

/-- The in-memory branch of `ViewTopic`: the list `results` whose entries are
joined into the response. `topic` is the number in the request, one more than
the coordinate index. -/
def ViewTopic (backend : List (theta α)) (DimWeight : α) (topic : Int) (count : Nat) :
    Option (List (topicLine α)) :=
  let thetas := List.replicate count (theta.zero α)
  let resultsorted := List.replicate count (ptopic.zero α)
  let topic := topic - 1
  match backend.foldlM (ViewTopicStep topic count) (thetas, 0) with
  | none => none
  | some st =>
    match ViewTopicCollect topic st.1 resultsorted with
    | none => none
    | some resultsorted =>
      match (List.range resultsorted.length).foldlM (ViewTopicRank DimWeight)
          (resultsorted, []) with
      | none => none
      | some st2 => some st2.2

/-- The loop `for _, v := range backend` of `JsonResponse` that looks the
requested record up, with its `break`; `query` is returned when no record has
the identifier. -/
def JsonResponseQuery (urn : String) : List (theta α) → theta α → theta α
  | [], query => query
  | v :: rest, query => if v.ID = urn then v else JsonResponseQuery urn rest query

/-- One iteration of `for i := range thetas` of `JsonResponse`, on the state
`(ids, manhattans, txts, text)`. -/
def JsonResponseStep (thetas : List (theta α)) (distances : List α)
    (st : List String × List (Rendered α) × List String × String) (i : Nat) :
    Option (List String × List (Rendered α) × List String × String) :=
  match thetas[i]? with
  | none => none
  | some t =>
    if i = 0 then
      some (st.1 ++ [t.ID], st.2.1 ++ [Rendered.literal "0"], st.2.2.1 ++ [t.Text], t.Text)
    else
      match distances[i]? with
      | none => none
      | some d =>
        let mannormed := d * 100
        let mandist := Rendered.FormatFloat mannormed 2
        some (st.1 ++ [t.ID], st.2.1 ++ [mandist], st.2.2.1 ++ [t.Text], st.2.2.2)

/-- One iteration of `for i := range ids` of `JsonResponse`, which appends
one `relatedItem`. -/
def JsonResponseItem (ids : List String) (manhattans : List (Rendered α)) (txts : List String)
    (relatedItems : List (relatedItem α)) (i : Nat) : Option (List (relatedItem α)) :=
  match ids[i]?, manhattans[i]?, txts[i]? with
  | some id, some m, some t => some (relatedItems ++ [⟨id, i, m, t⟩])
  | _, _, _ => none

/-- The in-memory branch of `JsonResponse`. -/
def JsonResponse (distance : String) (log : α → α) (backend : List (theta α)) (urn : String)
    (count : Nat) : Option (PassageJsonResponse α) :=
  let query := JsonResponseQuery urn backend (theta.zero α)
  match calculateDistance distance log backend query count with
  | none => none
  | some (thetas, distances) =>
    match (List.range thetas.length).foldlM (JsonResponseStep thetas distances)
        ([], [], [], "") with
    | none => none
    | some (ids, manhattans, txts, text) =>
      match (List.range ids.length).foldlM (JsonResponseItem ids manhattans txts) [] with
      | none => none
      | some relatedItems => some ⟨"test", text, relatedItems⟩

end TopicAndJson

/-! ## Specification-side definitions

Closed forms and invariants the theorems are stated with. -/

section SpecSide

variable {α : Type} [LinearOrderedField α]

/-- The amount one iteration of the loop of `jensenShannon` adds to `result`. -/
def jsTerm (log : α → α) (v yi : α) : α :=
  (if v ≠ 0 then 0.5 * v * (log v - log (0.5 * (v + yi))) else 0) +
  (if yi ≠ 0 then 0.5 * yi * (log yi - log (0.5 * (v + yi))) else 0)

/-- The invariant of the replacement phase of `calculateDistance`, after the
distances `seen` have been met: the buffers are full, every buffered record is
a corpus record paired with its distance, and the buffered distances are the
smallest of `seen` (the rest `R` is bounded below by every buffered one). -/
structure SelectInv {α : Type} [Zero α] [Add α] [Sub α] [Mul α] [LT α] [LE α]
    [∀ a b : α, Decidable (a < b)] [DecidableEq α] [OfScientific α]
    (distance : String) (log : α → α) (query : theta α) (count : Nat)
    (backend : List (theta α)) (seen : List α) (st : SelectState α) : Prop where
  index : count < st.indexcount
  size : st.distances.length = count + 1
  paired : List.Forall₂
    (fun v d => v ∈ backend ∧ metric distance log query.Vector v.Vector = some d)
    st.thetas st.distances
  smallest : ∃ R, (st.distances ++ R).Perm seen ∧ ∀ b ∈ st.distances, ∀ r ∈ R, b ≤ r

/-- The edge `prepareCSVs` computes for the slice row `i` holding `v` and the
corpus row `j`, when it passes the identifier test and the threshold. -/
def edgeCSV (log : α → α) (backend : List (theta α)) (DivMax : α) (startInd i : Nat)
    (v : theta α) (j : Nat) : Option (Divergence α) :=
  match backend[j]? with
  | none => none
  | some w =>
    if v.ID = w.ID then none
    else
      match jensenShannon log v.Vector w.Vector with
      | none => none
      | some d => if d < DivMax then some ⟨Itoa (startInd + (i + 1)), Itoa (j + 1), d⟩ else none

/-- The edges that pass the threshold, in the order `prepareCSVs` computes
them: slice rows but the last, each against the corpus rows after `startInd`. -/
def prepareCSVsEdges (log : α → α) (backend : List (theta α)) (DivMax : α)
    (temptheta : List (theta α)) (startInd : Nat) : List (Divergence α) :=
  (temptheta.dropLast.enum).flatMap fun p =>
    (List.range' (startInd + 1) (backend.length - (startInd + 1))).filterMap
      (edgeCSV log backend DivMax startInd p.1 p.2)

/-- The rows written so far followed by the rows still buffered. -/
def ShardState.rows (st : ShardState α) : List (Divergence α) :=
  st.written.flatMap (fun p => p.2) ++ st.resultCSV

/-- The edge of a pair of records in the synchronous listing, when its score
is below the threshold. -/
def edgeJS (log : α → α) (DivMax : α) (v w : theta α) : Option (Divergence α) :=
  match jensenShannon log v.Vector w.Vector with
  | none => none
  | some d => if d < DivMax then some ⟨v.ID, w.ID, d⟩ else none

/-- The edge of the rows `i` and `j` of the corpus, when its score is below the
threshold. -/
def pairEdge (log : α → α) (backend : List (theta α)) (DivMax : α) (i j : Nat) :
    Option (Divergence α) :=
  match backend[i]?, backend[j]? with
  | some v, some w => edgeJS log DivMax v w
  | _, _ => none

/-- The pairs `(i, j)` with `i < j < n`, in lexicographic order. -/
def trianglePairs (n : Nat) : List (Nat × Nat) :=
  (List.product (List.range n) (List.range n)).filter fun p => p.1 < p.2

/-- The edge list the claim describes: the pairs `i < j` in lexicographic
order, each with its score, those below the threshold kept. -/
def DivergenceJSSpec (log : α → α) (backend : List (theta α)) (DivMax : α) :
    List (Divergence α) :=
  (trianglePairs backend.length).filterMap fun p => pairEdge log backend DivMax p.1 p.2

/-- The item `JsonResponse` builds at position `i` from the record and the
distance that `calculateDistance` returned there. -/
def itemAt (i : Nat) (t : theta α) (d : α) : relatedItem α :=
  ⟨t.ID, i, if i = 0 then Rendered.literal "0" else Rendered.FormatFloat (d * 100) 2, t.Text⟩

end SpecSide

/-! ## Example data -/

/-- The four records of the scenario of the specification. -/
def exampleCorpus : List (theta ℚ) :=
  [⟨"a", "", [1/2, 1/2]⟩, ⟨"b", "", [3/10, 7/10]⟩, ⟨"c", "", [9/10, 1/10]⟩,
    ⟨"d", "", [1/4, 3/4]⟩]

/-- The query of the scenario: the record `a`. -/
def exampleQuery : theta ℚ := ⟨"a", "", [1/2, 1/2]⟩

/-- Four records with distinct identifiers and all-zero vectors, for which
`jensenShannon` never calls the logarithm and every score is zero. -/
def zeroCorpus : List (theta ℚ) :=
  [⟨"a", "", [0, 0]⟩, ⟨"b", "", [0, 0]⟩, ⟨"c", "", [0, 0]⟩, ⟨"d", "", [0, 0]⟩]

/-- Four records with whole-number weights (the scenario of the specification
in percent). -/
def weightCorpus : List (theta ℚ) :=
  [⟨"a", "", [50, 50]⟩, ⟨"b", "", [30, 70]⟩, ⟨"c", "", [90, 10]⟩, ⟨"d", "", [25, 75]⟩]

/-- Two records with the same vector. -/
def twinCorpus : List (theta ℚ) := [⟨"b", "", [1 / 2, 1 / 2]⟩, ⟨"a", "", [1 / 2, 1 / 2]⟩]

/-- A record with a one-entry vector of `float64`. -/
def point (α : Type) [LinearOrderedField α] (ID : String) (x : α) : theta (float64 α) :=
  ⟨ID, "", [float64.fin x]⟩

/-- The scenario of the specification as `float64` values, the corpus in the
order `d`, `c`, `b`, `a`. -/
def shuffledCorpus (α : Type) [LinearOrderedField α] : List (theta (float64 α)) :=
  [⟨"d", "", [.fin (1/4), .fin (3/4)]⟩, ⟨"c", "", [.fin (9/10), .fin (1/10)]⟩,
    ⟨"b", "", [.fin (3/10), .fin (7/10)]⟩, ⟨"a", "", [.fin (1/2), .fin (1/2)]⟩]

/-- The query of the scenario as `float64` values. -/
def shuffledQuery (α : Type) [LinearOrderedField α] : theta (float64 α) :=
  ⟨"a", "", [.fin (1/2), .fin (1/2)]⟩

/-! ## Lemmas for every number type

Facts that use no property of the arithmetic or of the comparison: they hold
for the exact numbers and for `float64` alike. -/

section Generic

variable {α : Type} [Zero α] [Add α] [Sub α] [Mul α] [LT α] [∀ a b : α, Decidable (a < b)]
  [DecidableEq α] [OfScientific α]

set_option linter.unusedSectionVars false

/-! ### The metrics return when the second vector is long enough -/

theorem manhattanFrom_returns (y : List α) : ∀ (xs : List α) (i : Nat) (r : α),
    i + xs.length ≤ y.length → ∃ d, manhattanFrom y xs i r = some d
  | [], _, r, _ => ⟨r, rfl⟩
  | x :: xs, i, r, h => by
    have hi : i < y.length := by simp at h; omega
    simp only [manhattanFrom, List.getElem?_eq_getElem hi]
    exact manhattanFrom_returns y xs (i + 1) _ (by simp at h; omega)

theorem jensenShannonFrom_returns (log : α → α) (y : List α) : ∀ (xs : List α) (i : Nat) (r : α),
    i + xs.length ≤ y.length → ∃ d, jensenShannonFrom log y xs i r = some d
  | [], _, r, _ => ⟨r, rfl⟩
  | x :: xs, i, r, h => by
    have hi : i < y.length := by simp at h; omega
    simp only [jensenShannonFrom, List.getElem?_eq_getElem hi]
    exact jensenShannonFrom_returns log y xs (i + 1) _ (by simp at h; omega)

theorem metric_returns (distance : String) (log : α → α) (x y : List α)
    (h : x.length ≤ y.length) : ∃ d, metric distance log x y = some d := by
  unfold metric
  split_ifs
  · exact jensenShannonFrom_returns log y x 0 0 (by simpa using h)
  · exact manhattanFrom_returns y x 0 0 (by simpa using h)

/-! ### The sort keeps every record with its distance -/

theorem swapAt_cons_succ {β : Type} (p : β) (l : List β) (i j : Nat) :
    swapAt (p :: l) (i + 1) (j + 1) = p :: swapAt l i j := by
  unfold swapAt
  simp only [List.getElem?_cons_succ]
  split <;> simp_all

theorem swapAt_adjacent {β : Type} (a x : β) (rest : List β) :
    ∀ pre : List β, swapAt (pre ++ a :: x :: rest) (pre.length + 1) pre.length
      = pre ++ x :: a :: rest
  | [] => by simp [swapAt]
  | p :: pre => by
    simp only [List.cons_append, List.length_cons]
    rw [swapAt_cons_succ, swapAt_adjacent a x rest pre]

theorem swapAt_length {β : Type} (l : List β) (i j : Nat) :
    (swapAt l i j).length = l.length := by
  unfold swapAt
  split <;> simp

theorem swapAt_adjacent_perm {β : Type} : ∀ (l : List β) (j : Nat),
    (swapAt l (j + 1) j).Perm l
  | [], j => by simp [swapAt]
  | [a], 0 => by simp [swapAt]
  | a :: x :: rest, 0 => by
    simpa [swapAt] using List.Perm.swap a x rest
  | p :: l, j + 1 => by
    rw [swapAt_cons_succ]
    exact (swapAt_adjacent_perm l j).cons p

theorem swapAt_adjacent_zip {β γ : Type} : ∀ (l1 : List β) (l2 : List γ) (j : Nat),
    l1.length = l2.length →
    List.zip (swapAt l1 (j + 1) j) (swapAt l2 (j + 1) j) = swapAt (List.zip l1 l2) (j + 1) j
  | [], [], j, _ => by simp [swapAt]
  | [], _ :: _, _, h => by simp at h
  | _ :: _, [], _, h => by simp at h
  | [a], [b], 0, _ => by simp [swapAt]
  | [a], b :: c :: r, 0, h => by simp at h
  | a :: c :: r, [b], 0, h => by simp at h
  | a :: x :: r1, b :: y :: r2, 0, _ => by simp [swapAt]
  | p :: l1, q :: l2, j + 1, h => by
    rw [List.zip_cons_cons, swapAt_cons_succ, swapAt_cons_succ, swapAt_cons_succ,
      List.zip_cons_cons, swapAt_adjacent_zip l1 l2 j (by simpa using h)]

/-- What `insertionSortInner` preserves: the lengths and the pairs. -/
theorem insertionSortInner_zip : ∀ (j : Nat) (m : dataframe α),
    m.Thetas.length = m.Distances.length →
    (insertionSortInner m j).Thetas.length = (insertionSortInner m j).Distances.length ∧
    (insertionSortInner m j).Distances.length = m.Distances.length ∧
    (List.zip (insertionSortInner m j).Thetas (insertionSortInner m j).Distances).Perm
      (List.zip m.Thetas m.Distances)
  | 0, m, h => by simp [insertionSortInner, h]
  | j + 1, m, h => by
    unfold insertionSortInner
    split_ifs with hl
    · have ih := insertionSortInner_zip j (m.Swap (j + 1) j)
        (by simp [dataframe.Swap, swapAt_length, h])
      refine ⟨ih.1, ?_, ?_⟩
      · rw [ih.2.1]; simp [dataframe.Swap, swapAt_length]
      · refine ih.2.2.trans ?_
        simp only [dataframe.Swap]
        rw [swapAt_adjacent_zip _ _ _ h]
        exact swapAt_adjacent_perm _ _
    · exact ⟨h, rfl, List.Perm.refl _⟩

theorem foldl_insertionSortInner_zip : ∀ (is : List Nat) (m : dataframe α),
    m.Thetas.length = m.Distances.length →
    (is.foldl insertionSortInner m).Thetas.length = (is.foldl insertionSortInner m).Distances.length ∧
    (is.foldl insertionSortInner m).Distances.length = m.Distances.length ∧
    (List.zip (is.foldl insertionSortInner m).Thetas (is.foldl insertionSortInner m).Distances).Perm
      (List.zip m.Thetas m.Distances)
  | [], m, h => by simp [h]
  | i :: is, m, h => by
    have h1 := insertionSortInner_zip i m h
    have h2 := foldl_insertionSortInner_zip is (insertionSortInner m i) h1.1
    simp only [List.foldl_cons]
    exact ⟨h2.1, h2.2.1.trans h1.2.1, h2.2.2.trans h1.2.2⟩

theorem sortSort_zip (m : dataframe α) (h : m.Thetas.length = m.Distances.length) :
    (sortSort m).Thetas.length = (sortSort m).Distances.length ∧
    (sortSort m).Distances.length = m.Distances.length ∧
    (List.zip (sortSort m).Thetas (sortSort m).Distances).Perm (List.zip m.Thetas m.Distances) :=
  foldl_insertionSortInner_zip _ m h

/-! ### The selection loop returns, and its filling phase -/

theorem forall₂_set {β γ : Type} {R : β → γ → Prop} : ∀ {l1 : List β} {l2 : List γ} (i : Nat)
    {a : β} {b : γ}, List.Forall₂ R l1 l2 → R a b → List.Forall₂ R (l1.set i a) (l2.set i b)
  | _, _, _, _, _, List.Forall₂.nil, _ => by simp
  | _, _, 0, _, _, List.Forall₂.cons _ ht, hab => by
    simpa using List.Forall₂.cons hab ht
  | _, _, i + 1, _, _, List.Forall₂.cons hh ht, hab => by
    simpa using List.Forall₂.cons hh (forall₂_set i ht hab)

theorem set_append_perm {β : Type} [DecidableEq β] (l R : List β) (i : Nat) (d m : β) (h : l[i]? = some m) :
    ((l.set i d) ++ m :: R).Perm (d :: (l ++ R)) := by
  have hi : i < l.length := by
    by_contra hc
    rw [List.getElem?_eq_none (by omega)] at h
    cases h
  have hm : l[i] = m := by
    rw [List.getElem?_eq_getElem hi] at h
    exact Option.some.inj h
  have e1 : l.set i d = l.take i ++ d :: l.drop (i + 1) := by
    rw [List.set_eq_take_append_cons_drop, if_pos hi]
  have e2 : l = l.take i ++ m :: l.drop (i + 1) := by
    conv_lhs => rw [← List.take_append_drop i l, List.drop_eq_getElem_cons hi, hm]
  rw [e1]
  conv_rhs => rw [e2]
  rw [List.perm_iff_count]
  intro a
  simp only [List.count_append, List.count_cons]
  split_ifs <;> omega

theorem exists_forall₂ {β γ : Type} {P : β → γ → Prop} : ∀ (l : List β),
    (∀ v ∈ l, ∃ d, P v d) → ∃ ds, List.Forall₂ P l ds
  | [], _ => ⟨[], List.Forall₂.nil⟩
  | v :: l, h => by
    obtain ⟨d, hd⟩ := h v (by simp)
    obtain ⟨ds, hds⟩ := exists_forall₂ l (fun w hw => h w (by simp [hw]))
    exact ⟨d :: ds, List.Forall₂.cons hd hds⟩

theorem forall₂_of_zip_perm {β γ : Type} {R : β → γ → Prop} {l1 l1' : List β} {l2 l2' : List γ}
    (hl : l1'.length = l2'.length) (hp : (List.zip l1' l2').Perm (List.zip l1 l2))
    (h : List.Forall₂ R l1 l2) : List.Forall₂ R l1' l2' := by
  rw [List.forall₂_iff_zip] at h ⊢
  refine ⟨hl, ?_⟩
  intro a b hab
  exact h.2 (hp.subset hab)

theorem forall₂_mem_right {β γ : Type} {R : β → γ → Prop} : ∀ {l1 : List β} {l2 : List γ},
    List.Forall₂ R l1 l2 → ∀ b ∈ l2, ∃ a ∈ l1, R a b
  | _, _, List.Forall₂.nil, _, hb => by simp at hb
  | _, _, List.Forall₂.cons hh ht, b, hb => by
    rcases List.mem_cons.mp hb with rfl | hb
    · exact ⟨_, by simp, hh⟩
    · obtain ⟨a, ha, hr⟩ := forall₂_mem_right ht b hb
      exact ⟨a, by simp [ha], hr⟩

theorem foldlM_total (distance : String) (log : α → α) (query : theta α) (count : Nat) :
    ∀ (backend : List (theta α)) (st : SelectState α),
    (∀ v ∈ backend, query.Vector.length ≤ v.Vector.length) →
    st.thetas.length = count + 1 → st.distances.length = count + 1 →
    ∃ st', backend.foldlM (calculateDistanceStep distance log query count) st = some st' ∧
      st'.thetas.length = count + 1 ∧ st'.distances.length = count + 1
  | [], st, _, h1, h2 => ⟨st, by simp, h1, h2⟩
  | v :: backend, st, hvec, h1, h2 => by
    obtain ⟨d, hd⟩ := metric_returns distance log query.Vector v.Vector (hvec v (by simp))
    obtain ⟨r, hmax⟩ : ∃ r, maxIndexDistance st.distances = some r := by
      cases hD : st.distances with
      | nil => rw [hD] at h2; simp at h2
      | cons d0 rest => exact ⟨_, rfl⟩
    have hstep : ∃ st1, calculateDistanceStep distance log query count st v = some st1 ∧
        st1.thetas.length = count + 1 ∧ st1.distances.length = count + 1 := by
      simp only [calculateDistanceStep, hd, hmax]
      split_ifs
      · exact ⟨_, rfl, by simpa using h1, by simpa using h2⟩
      · exact ⟨_, rfl, by simpa using h1, by simpa using h2⟩
      · exact ⟨_, rfl, h1, h2⟩
    obtain ⟨st1, e1, a1, a2⟩ := hstep
    obtain ⟨st2, e2, b1, b2⟩ := foldlM_total distance log query count backend st1
      (fun w hw => hvec w (by simp [hw])) a1 a2
    exact ⟨st2, by simp [List.foldlM_cons, e1, e2], b1, b2⟩

section Filling

variable (distance : String) (log : α → α) (query : theta α) (count : Nat)

/-- The filling phase: the first `count+1` records of the corpus go into the
buffers in corpus order, each with its distance. -/
theorem foldlM_fill : ∀ (todo done : List (theta α)) (tds dds : List α),
    List.Forall₂ (fun v d => metric distance log query.Vector v.Vector = some d) todo tds →
    done.length = dds.length → done.length + todo.length = count + 1 →
    todo.foldlM (calculateDistanceStep distance log query count)
      ⟨done ++ List.replicate todo.length (theta.zero α),
        dds ++ List.replicate todo.length (0 : α), done.length⟩
      = some ⟨done ++ todo, dds ++ tds, count + 1⟩
  | _, done, _, dds, List.Forall₂.nil, _, h2 => by
    simp at h2
    simp [h2]
  | _, done, _, dds, @List.Forall₂.cons _ _ _ v d todo tds hv ht, h1, h2 => by
    have hle : done.length ≤ count := by simp at h2; omega
    have ih := foldlM_fill todo (done ++ [v]) tds (dds ++ [d]) ht (by simp [h1])
      (by simp at h2 ⊢; omega)
    simp only [List.foldlM_cons, calculateDistanceStep, if_pos hle, hv, List.length_cons,
      List.replicate_succ]
    rw [List.set_append_right _ _ (le_refl _)]
    conv_lhs => rw [h1, List.set_append_right _ _ (le_refl _)]
    simp only [Nat.sub_self, List.set_cons_zero, Option.some_bind, Option.bind_eq_bind]
    simpa [h1] using ih

end Filling

/-! ### When the selection returns -/

theorem manhattanFrom_length (y : List α) : ∀ (xs : List α) (i : Nat) (r d : α),
    manhattanFrom y xs i r = some d → xs = [] ∨ i + xs.length ≤ y.length
  | [], _, _, _, _ => Or.inl rfl
  | xi :: xs, i, r, d, h => by
    right
    unfold manhattanFrom at h
    cases hy : y[i]? with
    | none => simp [hy] at h
    | some yi =>
      simp only [hy] at h
      have hi : i < y.length := by
        by_contra hc
        rw [List.getElem?_eq_none (by omega)] at hy
        cases hy
      rcases manhattanFrom_length y xs (i + 1) _ d h with hnil | hlen
      · simp [hnil]; omega
      · simp; omega

theorem jensenShannonFrom_length (log : α → α) (y : List α) : ∀ (xs : List α) (i : Nat) (r d : α),
    jensenShannonFrom log y xs i r = some d → xs = [] ∨ i + xs.length ≤ y.length
  | [], _, _, _, _ => Or.inl rfl
  | v :: xs, i, r, d, h => by
    right
    unfold jensenShannonFrom at h
    cases hy : y[i]? with
    | none => simp [hy] at h
    | some yi =>
      simp only [hy] at h
      have hi : i < y.length := by
        by_contra hc
        rw [List.getElem?_eq_none (by omega)] at hy
        cases hy
      rcases jensenShannonFrom_length log y xs (i + 1) _ d h with hnil | hlen
      · simp [hnil]; omega
      · simp; omega

/-- A metric call returns only if the second vector is at least as long as
the first. -/
theorem metric_length (distance : String) (log : α → α) (x y : List α) (d : α)
    (h : metric distance log x y = some d) : x.length ≤ y.length := by
  unfold metric at h
  split_ifs at h
  · rcases jensenShannonFrom_length log y x 0 0 d h with hnil | hlen
    · simp [hnil]
    · omega
  · rcases manhattanFrom_length y x 0 0 d h with hnil | hlen
    · simp [hnil]
    · omega

theorem calculateDistanceStep_length (distance : String) (log : α → α) (query : theta α)
    (count : Nat) (st st' : SelectState α) (v : theta α)
    (h : calculateDistanceStep distance log query count st v = some st') :
    query.Vector.length ≤ v.Vector.length := by
  cases hm : metric distance log query.Vector v.Vector with
  | some d => exact metric_length distance log _ _ d hm
  | none =>
    exfalso
    unfold calculateDistanceStep at h
    simp only [hm] at h
    split_ifs at h
    cases hmax : maxIndexDistance st.distances with
    | none => simp [hmax] at h
    | some p => simp [hmax] at h

theorem foldlM_length (distance : String) (log : α → α) (query : theta α) (count : Nat) :
    ∀ (backend : List (theta α)) (st st' : SelectState α),
    backend.foldlM (calculateDistanceStep distance log query count) st = some st' →
    ∀ v ∈ backend, query.Vector.length ≤ v.Vector.length
  | [], _, _, _ => by simp
  | w :: backend, st, st', h => by
    rw [List.foldlM_cons] at h
    cases hs : calculateDistanceStep distance log query count st w with
    | none => simp [hs] at h
    | some st1 =>
      simp only [hs, Option.some_bind, Option.bind_eq_bind] at h
      intro v hv
      rcases List.mem_cons.mp hv with rfl | hv
      · exact calculateDistanceStep_length distance log query count st st1 _ hs
      · exact foldlM_length distance log query count backend st1 st' h v hv

/-- The in-memory branch of `calculateDistance` returns only if every corpus
vector is at least as long as the query's: otherwise a metric call indexes out
of range. -/
theorem calculateDistance_returns_only_if (distance : String) (log : α → α)
    (backend : List (theta α)) (query : theta α) (count : Nat) (r : List (theta α) × List α)
    (h : calculateDistance distance log backend query count = some r) :
    ∀ v ∈ backend, query.Vector.length ≤ v.Vector.length := by
  unfold calculateDistance at h
  cases hf : backend.foldlM (calculateDistanceStep distance log query count)
      ⟨List.replicate (count + 1) (theta.zero α), List.replicate (count + 1) (0 : α), 0⟩ with
  | none => simp [hf] at h
  | some st => exact foldlM_length distance log query count backend _ st hf

end Generic

/-! ## Lemmas for exact numbers -/

section Lemmas

variable {α : Type} [LinearOrderedField α]

set_option linter.unusedSectionVars false

/-! ### The metrics as sums over the dimensions -/

theorem mpair_comm (x y : α) : mpair x y = mpair y x := by
  unfold mpair
  split_ifs with h1 h2 <;> first | rfl | (exfalso; exact lt_asymm h1 h2)

theorem mpair_nonneg (x y : α) : 0 ≤ mpair x y := by
  unfold mpair
  split_ifs with h1 h2
  · exact (sub_pos.mpr h1).le
  · exact (sub_pos.mpr h2).le
  · exact le_rfl

theorem manhattanFrom_eq (y : List α) : ∀ (xs : List α) (i : Nat) (r : α),
    i + xs.length ≤ y.length →
    manhattanFrom y xs i r = some (r + (List.zipWith mpair xs (y.drop i)).sum)
  | [], i, r, _ => by simp [manhattanFrom]
  | xi :: xs, i, r, h => by
    have hi : i < y.length := by simp at h; omega
    have hd : y.drop i = y[i] :: y.drop (i + 1) := List.drop_eq_getElem_cons hi
    simp only [manhattanFrom, List.getElem?_eq_getElem hi]
    rw [manhattanFrom_eq y xs (i + 1) _ (by simp at h; omega), hd]
    simp only [List.zipWith_cons_cons, List.sum_cons, add_assoc]

theorem jensenShannonFrom_eq (log : α → α) (y : List α) : ∀ (xs : List α) (i : Nat) (r : α),
    i + xs.length ≤ y.length →
    jensenShannonFrom log y xs i r = some (r + (List.zipWith (jsTerm log) xs (y.drop i)).sum)
  | [], i, r, _ => by simp [jensenShannonFrom]
  | v :: xs, i, r, h => by
    have hi : i < y.length := by simp at h; omega
    have hd : y.drop i = y[i] :: y.drop (i + 1) := List.drop_eq_getElem_cons hi
    simp only [jensenShannonFrom, List.getElem?_eq_getElem hi]
    rw [jensenShannonFrom_eq log y xs (i + 1) _ (by simp at h; omega), hd]
    simp only [List.zipWith_cons_cons, List.sum_cons, jsTerm]
    congr 1
    split_ifs <;> ring

theorem manhattan_eq (x y : List α) (h : x.length ≤ y.length) :
    manhattan x y = some (List.zipWith mpair x y).sum := by
  simpa [manhattan] using manhattanFrom_eq y x 0 0 (by simpa using h)

theorem jensenShannon_eq (log : α → α) (x y : List α) (h : x.length ≤ y.length) :
    jensenShannon log x y = some (List.zipWith (jsTerm log) x y).sum := by
  simpa [jensenShannon] using jensenShannonFrom_eq log y x 0 0 (by simpa using h)

theorem jensenShannon_isSome (log : α → α) (x y : List α) (h : x.length ≤ y.length) :
    ∃ d, jensenShannon log x y = some d := ⟨_, jensenShannon_eq log x y h⟩

theorem metric_isSome (distance : String) (log : α → α) (x y : List α) (h : x.length ≤ y.length) :
    ∃ d, metric distance log x y = some d := by
  unfold metric
  split_ifs
  · exact ⟨_, jensenShannon_eq log x y h⟩
  · exact ⟨_, manhattan_eq x y h⟩

theorem jsTerm_comm (log : α → α) (v w : α) : jsTerm log v w = jsTerm log w v := by
  unfold jsTerm
  rw [add_comm v w, add_comm]

theorem zipWith_comm_of (f : α → α → α) (hf : ∀ a b, f a b = f b a) :
    ∀ x y : List α, List.zipWith f x y = List.zipWith f y x
  | [], [] => rfl
  | [], _ :: _ => rfl
  | _ :: _, [] => rfl
  | a :: x, b :: y => by simp [hf a b, zipWith_comm_of f hf x y]

theorem zipWith_forall {β : Type} (f : β → β → β) (P : β → Prop) : ∀ (x y : List β),
    (∀ a ∈ x, ∀ b ∈ y, P (f a b)) → ∀ c ∈ List.zipWith f x y, P c
  | [], _, _ => by simp
  | _ :: _, [], _ => by simp
  | a :: x, b :: y, h => by
    intro c hc
    rw [List.zipWith_cons_cons, List.mem_cons] at hc
    rcases hc with rfl | hc
    · exact h a (by simp) b (by simp)
    · exact zipWith_forall f P x y (fun a' ha b' hb => h a' (by simp [ha]) b' (by simp [hb])) c hc

theorem log_key (a m : ℝ) (ha : 0 < a) (hm : 0 < m) :
    a - m ≤ a * (Real.log a - Real.log m) := by
  have h := Real.log_le_sub_one_of_pos (div_pos hm ha)
  rw [Real.log_div hm.ne' ha.ne'] at h
  have h2 := mul_le_mul_of_nonneg_left h ha.le
  have h3 : a * (m / a - 1) = m - a := by field_simp
  rw [h3] at h2
  linarith

theorem jsTerm_nonneg (v w : ℝ) (hv : 0 ≤ v) (hw : 0 ≤ w) : 0 ≤ jsTerm Real.log v w := by
  unfold jsTerm
  have e : (0.5 : ℝ) = 1 / 2 := by norm_num
  rw [e]
  rcases hv.eq_or_lt with hv0 | hvp <;> rcases hw.eq_or_lt with hw0 | hwp
  · simp [← hv0, ← hw0]
  · have := log_key w (1 / 2 * (v + w)) hwp (by positivity)
    simp only [← hv0, ne_eq, not_true_eq_false, if_false, hwp.ne', not_false_eq_true, if_true] at this ⊢
    nlinarith
  · have := log_key v (1 / 2 * (v + w)) hvp (by positivity)
    simp only [← hw0, ne_eq, not_true_eq_false, if_false, hvp.ne', not_false_eq_true, if_true] at this ⊢
    nlinarith
  · have h1 := log_key v (1 / 2 * (v + w)) hvp (by positivity)
    have h2 := log_key w (1 / 2 * (v + w)) hwp (by positivity)
    simp only [ne_eq, hvp.ne', hwp.ne', not_false_eq_true, if_true]
    nlinarith

/-! ### The sort: pairs are kept and the distances end up sorted -/

theorem sorted_snoc_cons {pre mid : List α} {a x : α}
    (hs : List.Sorted (· ≤ ·) ((pre ++ [a]) ++ mid)) (hax : a ≤ x) (hx : ∀ y ∈ mid, x ≤ y) :
    List.Sorted (· ≤ ·) ((pre ++ [a]) ++ x :: mid) := by
  unfold List.Sorted at hs ⊢
  rw [List.pairwise_append] at hs ⊢
  obtain ⟨h1, h2, h3⟩ := hs
  refine ⟨h1, ?_, ?_⟩
  · exact List.pairwise_cons.mpr ⟨hx, h2⟩
  · intro p hp q hq
    rcases List.mem_cons.mp hq with rfl | hq
    · have : p ≤ a := by
        rw [List.pairwise_append] at h1
        rcases List.mem_append.mp hp with hp | hp
        · exact h1.2.2 p hp a (by simp)
        · simp at hp; exact hp.le
      exact this.trans hax
    · exact h3 p hp q hq

/-- What `insertionSortInner` does to the distances: it sinks the entry at
position `j` into the sorted prefix before it. -/
theorem insertionSortInner_sorted : ∀ (j : Nat) (m : dataframe α) (pre : List α) (x : α)
    (mid post : List α),
    m.Distances = pre ++ x :: (mid ++ post) → pre.length = j →
    List.Sorted (· ≤ ·) (pre ++ mid) → (∀ y ∈ mid, x ≤ y) →
    ∃ S, (insertionSortInner m j).Distances = S ++ post ∧ List.Sorted (· ≤ ·) S ∧
      S.length = j + 1 + mid.length
  | 0, m, pre, x, mid, post, hD, hlen, hs, hx => by
    have : pre = [] := List.length_eq_zero.mp hlen
    subst this
    refine ⟨x :: mid, by simpa [insertionSortInner] using hD, ?_, by simp; omega⟩
    exact List.sorted_cons.mpr ⟨hx, by simpa using hs⟩
  | j + 1, m, pre, x, mid, post, hD, hlen, hs, hx => by
    obtain ⟨pre', a, rfl⟩ : ∃ pre' a, pre = pre' ++ [a] := by
      rcases List.eq_nil_or_concat pre with h | ⟨l, b, h⟩
      · simp [h] at hlen
      · exact ⟨l, b, by simpa using h⟩
    have hlen' : pre'.length = j := by simpa using hlen
    have hD' : m.Distances = pre' ++ a :: x :: (mid ++ post) := by simpa using hD
    have e1 : (pre' ++ a :: x :: (mid ++ post))[pre'.length + 1]? = some x := by
      rw [List.getElem?_append_right (by omega)]; simp
    have e0 : (pre' ++ a :: x :: (mid ++ post))[pre'.length]? = some a := by
      rw [List.getElem?_append_right (le_refl _)]; simp
    have hless : m.Less (j + 1) j = decide (x < a) := by
      simp only [dataframe.Less, hD', ← hlen', e1, e0]
    unfold insertionSortInner
    rw [hless]
    by_cases hxa : x < a
    · simp only [hxa, decide_True, if_true]
      have hsw : (m.Swap (j + 1) j).Distances = pre' ++ x :: ((a :: mid) ++ post) := by
        simp only [dataframe.Swap, hD', ← hlen']
        rw [swapAt_adjacent]; simp
      obtain ⟨S, h1, h2, h3⟩ := insertionSortInner_sorted j (m.Swap (j + 1) j) pre' x (a :: mid) post
        hsw hlen' (by simpa using hs) (by
          intro y hy
          rcases List.mem_cons.mp hy with rfl | hy
          · exact hxa.le
          · exact hx y hy)
      exact ⟨S, h1, h2, by simp at h3 ⊢; omega⟩
    · simp only [hxa, decide_False, Bool.false_eq_true, if_false]
      refine ⟨(pre' ++ [a]) ++ x :: mid, by simp [hD'], ?_, by simp [hlen']; omega⟩
      exact sorted_snoc_cons hs (not_lt.mp hxa) hx

theorem foldl_insertionSortInner_sorted : ∀ (k i : Nat) (m : dataframe α) (S post : List α),
    m.Distances = S ++ post → S.length = i → post.length = k → List.Sorted (· ≤ ·) S →
    List.Sorted (· ≤ ·) ((List.range' i k).foldl insertionSortInner m).Distances
  | 0, i, m, S, post, hD, _, hk, hs => by
    have : post = [] := List.length_eq_zero.mp hk
    simpa [hD, this] using hs
  | k + 1, i, m, S, post, hD, hi, hk, hs => by
    obtain ⟨x, post', rfl⟩ : ∃ x post', post = x :: post' := by
      cases post with
      | nil => simp at hk
      | cons x p => exact ⟨x, p, rfl⟩
    obtain ⟨S', h1, h2, h3⟩ := insertionSortInner_sorted i m S x [] post' (by simpa using hD) hi
      (by simpa using hs) (by simp)
    simp only [List.range'_succ, List.foldl_cons]
    exact foldl_insertionSortInner_sorted k (i + 1) _ S' post' h1 (by simpa using h3)
      (by simpa using hk) h2

theorem sortSort_sorted (m : dataframe α) : List.Sorted (· ≤ ·) (sortSort m).Distances := by
  unfold sortSort dataframe.Len
  cases hD : m.Distances with
  | nil => simp [hD]
  | cons d rest =>
    exact foldl_insertionSortInner_sorted _ 1 m [d] rest (by simp [hD]) rfl (by simp) (by simp)

/-! ### The selection loop -/

theorem maxIndexDistanceFrom_spec : ∀ (ds : List α) (i : Nat) (acc : Nat × α),
    acc.2 ≤ (maxIndexDistanceFrom ds i acc).2 ∧
    (∀ d ∈ ds, d ≤ (maxIndexDistanceFrom ds i acc).2) ∧
    (maxIndexDistanceFrom ds i acc = acc ∨
      ∃ k, k < ds.length ∧ (maxIndexDistanceFrom ds i acc).1 = i + k ∧
        ds[k]? = some (maxIndexDistanceFrom ds i acc).2)
  | [], i, acc => by simp [maxIndexDistanceFrom]
  | d :: ds, i, acc => by
    unfold maxIndexDistanceFrom
    split_ifs with h
    · obtain ⟨h1, h2, h3⟩ := maxIndexDistanceFrom_spec ds (i + 1) (i, d)
      refine ⟨(le_of_lt h).trans h1, ?_, ?_⟩
      · intro e he
        rcases List.mem_cons.mp he with rfl | he
        · exact h1
        · exact h2 e he
      · right
        rcases h3 with h3 | ⟨k, hk, hk1, hk2⟩
        · exact ⟨0, by simp, by simp [h3], by simp [h3]⟩
        · exact ⟨k + 1, by simpa using hk, by rw [hk1]; omega, by simpa using hk2⟩
    · obtain ⟨h1, h2, h3⟩ := maxIndexDistanceFrom_spec ds (i + 1) acc
      refine ⟨h1, ?_, ?_⟩
      · intro e he
        rcases List.mem_cons.mp he with rfl | he
        · exact (not_lt.mp h).trans h1
        · exact h2 e he
      · rcases h3 with h3 | ⟨k, hk, hk1, hk2⟩
        · left; exact h3
        · right; exact ⟨k + 1, by simpa using hk, by rw [hk1]; omega, by simpa using hk2⟩

/-- The result of `maxIndexDistance` is an index of the slice, the value there,
and an upper bound of every entry. -/
theorem maxIndexDistance_spec (distances : List α) (h : distances ≠ []) :
    ∃ maxindex maxfloat, maxIndexDistance distances = some (maxindex, maxfloat) ∧
      distances[maxindex]? = some maxfloat ∧ ∀ d ∈ distances, d ≤ maxfloat := by
  cases distances with
  | nil => exact absurd rfl h
  | cons d0 rest =>
    obtain ⟨_, h2, h3⟩ := maxIndexDistanceFrom_spec (d0 :: rest) 0 (0, d0)
    generalize hr : maxIndexDistanceFrom (d0 :: rest) 0 (0, d0) = r at h2 h3
    refine ⟨r.1, r.2, by simp [maxIndexDistance, hr], ?_, h2⟩
    rcases h3 with h3 | ⟨k, _, hk1, hk2⟩
    · rw [h3]; simp
    · rw [hk1]; simp [hk2]

/-- For every corpus whose vectors are at least as long as the query's,
`calculateDistance` returns: the buffers of `count+1` entries, sorted by
distance, holding the same (record, distance) pairs as the selection loop left. -/
theorem calculateDistance_total (distance : String) (log : α → α) (backend : List (theta α))
    (query : theta α) (count : Nat)
    (hvec : ∀ v ∈ backend, query.Vector.length ≤ v.Vector.length) :
    ∃ st ts ds,
      backend.foldlM (calculateDistanceStep distance log query count)
        ⟨List.replicate (count + 1) (theta.zero α), List.replicate (count + 1) (0 : α), 0⟩
        = some st ∧
      calculateDistance distance log backend query count = some (ts, ds) ∧
      ts.length = count + 1 ∧ ds.length = count + 1 ∧
      List.Sorted (· ≤ ·) ds ∧
      (List.zip ts ds).Perm (List.zip st.thetas st.distances) := by
  obtain ⟨st, hst, h1, h2⟩ := foldlM_total distance log query count backend
    ⟨List.replicate (count + 1) (theta.zero α), List.replicate (count + 1) (0 : α), 0⟩ hvec
    (by simp) (by simp)
  obtain ⟨z1, z2, z3⟩ := sortSort_zip ⟨st.thetas, st.distances⟩ (h1.trans h2.symm)
  refine ⟨st, _, _, hst, by simp [calculateDistance, hst], ?_, ?_,
    sortSort_sorted (⟨st.thetas, st.distances⟩ : dataframe α), z3⟩
  · rw [z1, z2]; exact h2
  · rw [z2]; exact h2

section Selection

variable (distance : String) (log : α → α) (query : theta α) (count : Nat)

theorem calculateDistanceStep_inv (backend : List (theta α)) (seen : List α) (st : SelectState α)
    (v : theta α) (d : α) (hv : v ∈ backend)
    (hd : metric distance log query.Vector v.Vector = some d)
    (inv : SelectInv distance log query count backend seen st) :
    ∃ st', calculateDistanceStep distance log query count st v = some st' ∧
      SelectInv distance log query count backend (d :: seen) st' := by
  obtain ⟨hidx, hsize, hpair, R, hperm, hle⟩ := inv
  have hne : st.distances ≠ [] := by
    intro h; rw [h] at hsize; simp at hsize
  obtain ⟨maxindex, maxfloat, hmax, hget, hub⟩ := maxIndexDistance_spec st.distances hne
  simp only [calculateDistanceStep, if_neg (not_le.mpr hidx), hmax, hd]
  by_cases hlt : d < maxfloat
  · rw [if_pos hlt]
    refine ⟨_, rfl, ⟨hidx, by simpa using hsize, forall₂_set _ hpair ⟨hv, hd⟩,
      maxfloat :: R, ?_, ?_⟩⟩
    · exact (set_append_perm _ _ _ _ _ hget).trans (hperm.cons d)
    · intro b hb r hr
      have hb' : b ∈ st.distances ∨ b = d := List.mem_or_eq_of_mem_set hb
      rcases List.mem_cons.mp hr with rfl | hr
      · rcases hb' with hb' | rfl
        · exact hub b hb'
        · exact hlt.le
      · have hmem : maxfloat ∈ st.distances := List.getElem?_mem hget
        rcases hb' with hb' | rfl
        · exact hle b hb' r hr
        · exact hlt.le.trans (hle _ hmem r hr)
  · rw [if_neg hlt]
    refine ⟨st, rfl, ⟨hidx, hsize, hpair, d :: R, ?_, ?_⟩⟩
    · exact List.perm_middle.trans (hperm.cons d)
    · intro b hb r hr
      rcases List.mem_cons.mp hr with rfl | hr
      · exact (hub b hb).trans (not_lt.mp hlt)
      · exact hle b hb r hr

theorem foldlM_replace (backend : List (theta α)) : ∀ (todo : List (theta α)) (tds seen : List α)
    (st : SelectState α),
    List.Forall₂ (fun v d => metric distance log query.Vector v.Vector = some d) todo tds →
    (∀ v ∈ todo, v ∈ backend) →
    SelectInv distance log query count backend seen st →
    ∃ st', todo.foldlM (calculateDistanceStep distance log query count) st = some st' ∧
      SelectInv distance log query count backend (tds.reverse ++ seen) st'
  | _, _, seen, st, List.Forall₂.nil, _, inv => ⟨st, by simp, by simpa using inv⟩
  | _, _, seen, st, @List.Forall₂.cons _ _ _ v d todo tds hv ht, hmem, inv => by
    obtain ⟨st1, h1, inv1⟩ := calculateDistanceStep_inv distance log query count backend seen st v d
      (hmem v (by simp)) hv inv
    obtain ⟨st2, h2, inv2⟩ := foldlM_replace backend todo tds (d :: seen) st1 ht
      (fun w hw => hmem w (by simp [hw])) inv1
    exact ⟨st2, by simp [List.foldlM_cons, h1, h2], by simpa using inv2⟩

/-- The selection loop followed by the sort, for a corpus of at least
`count+1` records whose distances to the query are `all`. -/
theorem calculateDistance_run (backend : List (theta α)) (all : List α)
    (hall : List.Forall₂ (fun v d => metric distance log query.Vector v.Vector = some d)
      backend all)
    (hN : count + 1 ≤ backend.length) :
    ∃ st ts ds,
      backend.foldlM (calculateDistanceStep distance log query count)
        ⟨List.replicate (count + 1) (theta.zero α), List.replicate (count + 1) (0 : α), 0⟩
        = some st ∧
      calculateDistance distance log backend query count = some (ts, ds) ∧
      ts.length = count + 1 ∧ ds.length = count + 1 ∧
      List.Sorted (· ≤ ·) ds ∧
      (List.zip ts ds).Perm (List.zip st.thetas st.distances) ∧
      List.Forall₂ (fun v d => v ∈ backend ∧ metric distance log query.Vector v.Vector = some d)
        ts ds ∧
      ds = (List.insertionSort (· ≤ ·) all).take (count + 1) := by
  have hlen : backend.length = all.length := hall.length_eq
  -- the filling phase
  have hfill := foldlM_fill distance log query count (backend.take (count + 1)) []
    (all.take (count + 1)) [] (List.forall₂_take _ hall) rfl (by simp; omega)
  have htl : (backend.take (count + 1)).length = count + 1 := by simp; omega
  rw [htl] at hfill
  simp only [List.nil_append, List.length_nil] at hfill
  -- the replacement phase
  have inv0 : SelectInv distance log query count backend (all.take (count + 1))
      ⟨backend.take (count + 1), all.take (count + 1), count + 1⟩ := by
    refine ⟨Nat.lt_succ_self _, by simp; omega, ?_, [], by simp, by simp⟩
    have := List.forall₂_take (count + 1) hall
    rw [List.forall₂_iff_zip] at this ⊢
    refine ⟨this.1, fun {a b} hab => ⟨?_, this.2 hab⟩⟩
    exact List.mem_of_mem_take (List.of_mem_zip hab).1
  obtain ⟨st, hst, inv⟩ := foldlM_replace distance log query count backend
    (backend.drop (count + 1)) (all.drop (count + 1)) _ _ (List.forall₂_drop _ hall)
    (fun v hv => List.mem_of_mem_drop hv) inv0
  have hrun : backend.foldlM (calculateDistanceStep distance log query count)
      ⟨List.replicate (count + 1) (theta.zero α), List.replicate (count + 1) (0 : α), 0⟩
      = some st := by
    conv_lhs => rw [← List.take_append_drop (count + 1) backend, List.foldlM_append, hfill]
    simpa using hst
  obtain ⟨hidx, hsize, hpair, R, hperm, hle⟩ := inv
  have hlen2 : st.thetas.length = st.distances.length := hpair.length_eq
  obtain ⟨z1, z2, z3⟩ := sortSort_zip ⟨st.thetas, st.distances⟩ hlen2
  have hsorted := sortSort_sorted (⟨st.thetas, st.distances⟩ : dataframe α)
  refine ⟨st, _, _, hrun, by simp [calculateDistance, hrun], ?_, ?_, hsorted, z3,
    forall₂_of_zip_perm z1 z3 hpair, ?_⟩
  · rw [z1, z2]; exact hsize
  · rw [z2]; exact hsize
  · -- the sorted buffer followed by the sorted rest is the sorted list of all distances
    have hds : (sortSort ⟨st.thetas, st.distances⟩).Distances.Perm st.distances := by
      have := z3.map Prod.snd
      rwa [List.map_snd_zip _ _ (le_of_eq z1.symm), List.map_snd_zip _ _ (le_of_eq hlen2.symm)]
        at this
    have hall' : (st.distances ++ R).Perm all := by
      refine hperm.trans ?_
      have : ((all.drop (count + 1)).reverse ++ all.take (count + 1)).Perm
          (all.take (count + 1) ++ all.drop (count + 1)) :=
        List.perm_append_comm.trans ((List.reverse_perm _).append_left _)
      simpa using this
    have hcat : (sortSort ⟨st.thetas, st.distances⟩).Distances ++ List.insertionSort (· ≤ ·) R
        = List.insertionSort (· ≤ ·) all := by
      apply List.eq_of_perm_of_sorted (r := (· ≤ ·))
      · exact ((hds.append (List.perm_insertionSort _ R)).trans hall').trans
          (List.perm_insertionSort _ all).symm
      · unfold List.Sorted
        rw [List.pairwise_append]
        refine ⟨hsorted, List.sorted_insertionSort _ R, ?_⟩
        intro a ha b hb
        exact hle a (hds.subset ha) b ((List.perm_insertionSort _ R).subset hb)
      · exact List.sorted_insertionSort _ all
    rw [← hcat, List.take_left']
    rw [z2]; exact hsize

end Selection

/-! ### The shard writer -/

theorem foldlM_rows {σ ι β : Type} (f : σ → ι → Option σ) (rows : σ → List β)
    (g : ι → Option β) : ∀ (l : List ι) (s : σ),
    (∀ s i, i ∈ l → ∃ s', f s i = some s' ∧ rows s' = rows s ++ (g i).toList) →
    ∃ s', l.foldlM f s = some s' ∧ rows s' = rows s ++ l.filterMap g
  | [], s, _ => ⟨s, by simp⟩
  | i :: l, s, h => by
    obtain ⟨s1, h1, e1⟩ := h s i (by simp)
    obtain ⟨s2, h2, e2⟩ := foldlM_rows f rows g l s1 (fun s j hj => h s j (by simp [hj]))
    refine ⟨s2, by simp [List.foldlM_cons, h1, h2], ?_⟩
    rw [e2, e1, List.filterMap_cons]
    cases g i <;> simp

theorem prepareCSVsInner_rows (log : α → α) (backend : List (theta α)) (DivMax : α)
    (csvlength : Int) (startInd i : Nat) (v : theta α)
    (hv : ∀ w ∈ backend, v.Vector.length ≤ w.Vector.length)
    (st : ShardState α) (j : Nat) (hj : j < backend.length) :
    ∃ st', prepareCSVsInner log backend DivMax csvlength startInd startInd i v st j = some st' ∧
      st'.rows = st.rows ++ (edgeCSV log backend DivMax startInd i v j).toList := by
  unfold prepareCSVsInner edgeCSV
  rw [List.getElem?_eq_getElem hj]
  obtain ⟨d, hd⟩ := jensenShannon_isSome log v.Vector backend[j].Vector
    (hv _ (List.getElem_mem hj))
  simp only [hd]
  by_cases hid : v.ID = backend[j].ID
  · simp [hid]
  · by_cases hlt : d < DivMax
    · simp only [hid, hlt, if_true, if_false]
      split_ifs
      · exact ⟨_, rfl, by simp [ShardState.rows]⟩
      · exact ⟨_, rfl, by simp [ShardState.rows]⟩
    · simp [hid, hlt]

theorem prepareCSVsOuter_rows (log : α → α) (backend : List (theta α)) (DivMax : α)
    (csvlength : Int) (startInd n : Nat) : ∀ (rest : List (theta α)) (i : Nat)
    (st : ShardState α) (endString : String),
    (∀ v ∈ rest, ∀ w ∈ backend, v.Vector.length ≤ w.Vector.length) →
    i + rest.length = n →
    ∃ st' e', prepareCSVsOuter log backend DivMax csvlength startInd n rest i st endString
        = some (st', e') ∧
      st'.rows = st.rows ++ (rest.dropLast.enumFrom i).flatMap fun p =>
        (List.range' (startInd + 1) (backend.length - (startInd + 1))).filterMap
          (edgeCSV log backend DivMax startInd p.1 p.2)
  | [], i, st, e, _, _ => ⟨st, e, by simp [prepareCSVsOuter]⟩
  | v :: rest, i, st, e, hvec, hn => by
    unfold prepareCSVsOuter
    by_cases hbreak : i + 1 ≥ n
    · have : rest = [] := by
        apply List.length_eq_zero.mp
        simp at hn; omega
      subst this
      exact ⟨st, e, by simp [hbreak], by simp⟩
    · have hne : rest ≠ [] := by
        intro h; subst h; simp at hn; omega
      obtain ⟨st1, h1, e1⟩ := foldlM_rows
        (prepareCSVsInner log backend DivMax csvlength startInd startInd i v) ShardState.rows
        (edgeCSV log backend DivMax startInd i v)
        (List.range' (startInd + 1) (backend.length - (startInd + 1))) st
        (fun s j hj => prepareCSVsInner_rows log backend DivMax csvlength startInd i v
          (hvec v (by simp)) s j (by rw [List.mem_range'_1] at hj; omega))
      obtain ⟨st2, e2, h2, e3⟩ := prepareCSVsOuter_rows log backend DivMax csvlength startInd n
        rest (i + 1) st1 ("Row" ++ Itoa (startInd + i + 1) ++ "End.csv")
        (fun w hw => hvec w (by simp [hw])) (by simp at hn; omega)
      refine ⟨st2, e2, by simp [hbreak, h1, h2], ?_⟩
      rw [e3, e1, List.dropLast_cons_of_ne_nil hne]
      simp [List.enumFrom_cons]

/-- The shards of a worker, concatenated, are the surviving edges in the order
they were computed; the last shard is the final write. -/
theorem prepareCSVs_rows (log : α → α) (backend : List (theta α)) (DivMax : α)
    (FileLimit : Int) (temptheta : List (theta α)) (startInd : Nat)
    (hvec : ∀ v ∈ temptheta, ∀ w ∈ backend, v.Vector.length ≤ w.Vector.length) :
    ∃ shards, prepareCSVs log backend DivMax FileLimit temptheta startInd = some shards ∧
      shards ≠ [] ∧
      shards.flatMap (fun p => p.2) = prepareCSVsEdges log backend DivMax temptheta startInd := by
  obtain ⟨st, e, h1, h2⟩ := prepareCSVsOuter_rows log backend DivMax
    ((backend.length : Int) * FileLimit) startInd temptheta.length temptheta 0
    ⟨[], 0, "fromRow" ++ Itoa (startInd + 1) ++ "Col" ++ Itoa 1 ++ "To", []⟩ "" hvec (by simp)
  refine ⟨st.written ++ [(st.startString ++ e, st.resultCSV)], by simp [prepareCSVs, h1],
    by simp, ?_⟩
  simp only [ShardState.rows, List.flatMap_nil, List.nil_append] at h2
  simp [prepareCSVsEdges, List.enum, ← h2]

theorem writeIDMapFrom_eq : ∀ (rest : List (theta α)) (i : Nat) (lines : List (List String)),
    writeIDMapFrom rest i lines
      = lines ++ (rest.enumFrom i).map (fun p => [Itoa (p.1 + 1), p.2.ID])
  | [], i, lines => by simp [writeIDMapFrom]
  | v :: rest, i, lines => by
    simp [writeIDMapFrom, writeIDMapFrom_eq rest (i + 1), List.enumFrom_cons]

/-- The ID map is the header followed by one record per corpus row, the
`k`-th being `(k, ID of row k)` counted from one. -/
theorem writeIDMap_rows (backend : List (theta α)) :
    (writeIDMap backend).length = backend.length + 1 ∧
    (writeIDMap backend)[0]? = some ["MetalloID", "OriginalID"] ∧
    ∀ k v, backend[k]? = some v → (writeIDMap backend)[k + 1]? = some [Itoa (k + 1), v.ID] := by
  unfold writeIDMap
  rw [writeIDMapFrom_eq]
  refine ⟨by simp [add_comm], by simp, ?_⟩
  intro k v hk
  simp [List.getElem?_enumFrom, hk]

theorem slice_getElem? {β : Type} (s t : List β) (lo hi i : Nat) (x : β)
    (h : slice s lo hi = some t) (hx : t[i]? = some x) :
    s[lo + i]? = some x ∧ lo + i < hi ∧ hi ≤ s.length := by
  unfold slice at h
  split_ifs at h with hb
  have ht : t = (s.take hi).drop lo := (Option.some.inj h).symm
  subst ht
  rw [List.getElem?_drop] at hx
  have hlt : lo + i < hi := by
    by_contra hc
    rw [List.getElem?_eq_none (by simp; omega)] at hx
    cases hx
  rw [List.getElem?_take_of_lt hlt] at hx
  exact ⟨hx, hlt, hb.2⟩

theorem mem_prepareCSVsEdges (log : α → α) (backend : List (theta α)) (DivMax : α)
    (temptheta : List (theta α)) (startInd : Nat) (edge : Divergence α)
    (h : edge ∈ prepareCSVsEdges log backend DivMax temptheta startInd) :
    ∃ i j v w, temptheta[i]? = some v ∧ backend[j]? = some w ∧
      jensenShannon log v.Vector w.Vector = some edge.JSDivergence ∧
      edge.SourceID = Itoa (startInd + (i + 1)) ∧ edge.TargetID = Itoa (j + 1) := by
  unfold prepareCSVsEdges at h
  rw [List.mem_flatMap] at h
  obtain ⟨⟨i, v⟩, hp, he⟩ := h
  rw [List.mem_filterMap] at he
  obtain ⟨j, _, hj⟩ := he
  have hv : temptheta[i]? = some v := by
    have h1 : temptheta.dropLast[i]? = some v := List.mk_mem_enum_iff_getElem?.mp hp
    rw [List.dropLast_eq_take] at h1
    have hlt : i < temptheta.length - 1 := by
      by_contra hc
      rw [List.getElem?_eq_none (by simp; omega)] at h1
      cases h1
    rwa [List.getElem?_take_of_lt hlt] at h1
  unfold edgeCSV at hj
  cases hw : backend[j]? with
  | none => simp [hw] at hj
  | some w =>
    simp only [hw] at hj
    split_ifs at hj with hid
    cases hd : jensenShannon log v.Vector w.Vector with
    | none => simp [hd] at hj
    | some d =>
      simp only [hd] at hj
      split_ifs at hj with hlt
      have := Option.some.inj hj
      subst this
      exact ⟨i, j, v, w, hv, hw, hd, rfl, rfl⟩

/-! ### The triangular enumeration -/

theorem filter_lt_range (i : Nat) : ∀ n : Nat,
    (List.range n).filter (fun j => decide (i < j)) = List.range' (i + 1) (n - (i + 1))
  | 0 => by simp
  | n + 1 => by
    rw [List.range_succ, List.filter_append, filter_lt_range i n]
    by_cases h : i < n
    · have e : n + 1 - (i + 1) = (n - (i + 1)) + 1 := by omega
      rw [e, List.range'_concat]
      simp [h]
      omega
    · have e1 : n - (i + 1) = 0 := by omega
      have e2 : n + 1 - (i + 1) = 0 := by omega
      simp [h, e1, e2]

theorem trianglePairs_eq (n : Nat) :
    trianglePairs n = (List.range n).flatMap fun i =>
      (List.range' (i + 1) (n - (i + 1))).map (Prod.mk i) := by
  unfold trianglePairs List.product
  rw [List.filter_flatMap]
  congr 1
  funext i
  rw [List.filter_map, ← filter_lt_range i n]
  rfl

theorem mem_trianglePairs (n i j : Nat) : (i, j) ∈ trianglePairs n ↔ i < j ∧ j < n := by
  unfold trianglePairs
  simp
  omega

/-- The list `trianglePairs n` is strictly increasing in the lexicographic
order of pairs. -/
theorem sorted_trianglePairs (n : Nat) :
    List.Sorted (Prod.Lex (· < ·) (· < ·)) (trianglePairs n) := by
  unfold trianglePairs List.product List.Sorted
  apply List.Pairwise.filter
  rw [List.pairwise_flatMap]
  constructor
  · intro a _
    rw [List.pairwise_map]
    exact (List.pairwise_lt_range n).imp (fun h => Prod.Lex.right a h)
  · refine (List.pairwise_lt_range n).imp ?_
    intro a b hab x hx y hy
    obtain ⟨c, _, rfl⟩ := List.mem_map.mp hx
    obtain ⟨d, _, rfl⟩ := List.mem_map.mp hy
    exact Prod.Lex.left c d hab

theorem sum_triangle : ∀ n : Nat,
    2 * ((List.range n).map (fun i => n - (i + 1))).sum = n * (n - 1)
  | 0 => by simp
  | n + 1 => by
    rw [List.range_succ_eq_map, List.map_cons, List.sum_cons, List.map_map]
    have e : ((fun i => n + 1 - (i + 1)) ∘ Nat.succ) = fun i => n - (i + 1) := by
      funext i; simp
    rw [e, Nat.mul_add, sum_triangle n]
    cases n with
    | zero => simp
    | succ k => simp; ring

theorem length_trianglePairs (n : Nat) : (trianglePairs n).length = n * (n - 1) / 2 := by
  rw [trianglePairs_eq, List.length_flatMap]
  have : (List.map (List.length ∘ fun i => List.map (Prod.mk i)
      (List.range' (i + 1) (n - (i + 1)))) (List.range n))
      = (List.range n).map (fun i => n - (i + 1)) := by
    apply List.map_congr_left
    intro i _
    simp
  rw [this]
  have := sum_triangle n
  omega

theorem filterMap_flatMap {β γ δ : Type} (f : γ → Option δ) (g : β → List γ) : ∀ l : List β,
    (l.flatMap g).filterMap f = l.flatMap fun b => (g b).filterMap f
  | [] => by simp
  | b :: l => by simp [List.flatMap_cons, List.filterMap_append, filterMap_flatMap f g l]

theorem length_filterMap_of_isSome {β γ : Type} (f : β → Option γ) : ∀ l : List β,
    (∀ b ∈ l, ∃ c, f b = some c) → (l.filterMap f).length = l.length
  | [], _ => by simp
  | b :: l, h => by
    obtain ⟨c, hc⟩ := h b (by simp)
    simp [List.filterMap_cons, hc, length_filterMap_of_isSome f l (fun x hx => h x (by simp [hx]))]

theorem DivergenceJSInner_rows (log : α → α) (backend : List (theta α)) (DivMax : α)
    (i : Nat) (v : theta α) (hi : backend[i]? = some v)
    (hvec : ∀ w ∈ backend, v.Vector.length ≤ w.Vector.length)
    (r : List (Divergence α)) (j : Nat) (hj : j < backend.length) :
    ∃ r', DivergenceJSInner log backend DivMax v r j = some r' ∧
      r' = r ++ (pairEdge log backend DivMax i j).toList := by
  unfold DivergenceJSInner pairEdge edgeJS
  rw [hi, List.getElem?_eq_getElem hj]
  obtain ⟨d, hd⟩ := jensenShannon_isSome log v.Vector backend[j].Vector
    (hvec _ (List.getElem_mem hj))
  simp only [hd]
  split_ifs <;> simp

theorem DivergenceJSOuter_rows (log : α → α) (backend : List (theta α)) (DivMax : α)
    (hvec : ∀ v ∈ backend, ∀ w ∈ backend, v.Vector.length ≤ w.Vector.length) :
    ∀ (rest : List (theta α)) (i : Nat) (r : List (Divergence α)),
    rest = backend.drop i →
    ∃ r', DivergenceJSOuter log backend DivMax rest i r = some r' ∧
      r' = r ++ (List.range' i rest.length).flatMap fun i =>
        (List.range' (i + 1) (backend.length - (i + 1))).filterMap (pairEdge log backend DivMax i)
  | [], i, r, _ => ⟨r, by simp [DivergenceJSOuter]⟩
  | v :: rest, i, r, h => by
    have hi : i < backend.length := by
      by_contra hc
      rw [List.drop_eq_nil_of_le (by omega)] at h
      cases h
    rw [List.drop_eq_getElem_cons hi] at h
    have hv : backend[i]? = some v := by
      rw [List.getElem?_eq_getElem hi]; exact congrArg some (List.cons.inj h).1.symm
    have hrest : rest = backend.drop (i + 1) := (List.cons.inj h).2
    unfold DivergenceJSOuter
    by_cases hbreak : i + 1 = backend.length
    · have : rest = [] := by rw [hrest, List.drop_eq_nil_of_le (by omega)]
      subst this
      have e : backend.length - (i + 1) = 0 := by omega
      exact ⟨r, by simp [hbreak], by simp [e, List.range'_succ]⟩
    · obtain ⟨r1, h1, e1⟩ := foldlM_rows (DivergenceJSInner log backend DivMax v) id
        (pairEdge log backend DivMax i)
        (List.range' (i + 1) (backend.length - (i + 1))) r
        (fun s j hj => DivergenceJSInner_rows log backend DivMax i v hv
          (hvec v (List.getElem?_mem hv)) s j (by rw [List.mem_range'_1] at hj; omega))
      obtain ⟨r2, h2, e2⟩ := DivergenceJSOuter_rows log backend DivMax hvec rest (i + 1) r1 hrest
      refine ⟨r2, by simp [hbreak, h1, h2], ?_⟩
      simp only [id] at e1
      rw [e2, e1]
      simp [List.range'_succ]

theorem DivergenceJS_eq_spec (log : α → α) (backend : List (theta α)) (DivMax : α)
    (hvec : ∀ v ∈ backend, ∀ w ∈ backend, v.Vector.length ≤ w.Vector.length) :
    DivergenceJS log backend DivMax = some (DivergenceJSSpec log backend DivMax) := by
  obtain ⟨r, h1, e1⟩ := DivergenceJSOuter_rows log backend DivMax hvec backend 0 [] (by simp)
  rw [DivergenceJS, h1, e1, DivergenceJSSpec, trianglePairs_eq, filterMap_flatMap]
  simp [List.range_eq_range', List.filterMap_map, Function.comp_def]

/-! ### The partition bounds -/

theorem bounds_eq (n numCPU : Nat) : DivergenceCSVBounds n numCPU =
    (List.range numCPU).map fun i =>
      if i ≥ numCPU - 1 then (i * chunkSize n numCPU, n)
      else (i * chunkSize n numCPU, i * chunkSize n numCPU + chunkSize n numCPU + 1) := rfl

theorem chunkSize_ceil (n numCPU : Nat) (hW : 1 ≤ numCPU) :
    n ≤ chunkSize n numCPU * numCPU ∧ chunkSize n numCPU * numCPU < n + numCPU := by
  unfold chunkSize
  have h1 := Nat.div_add_mod (n + numCPU - 1) numCPU
  have h2 := Nat.mod_lt (n + numCPU - 1) (show numCPU > 0 by omega)
  rw [Nat.mul_comm] at h1
  constructor <;> omega

/-! ### The scenario of the specification -/

theorem calculateDistance_scenario :
    (calculateDistance "manhattan" (fun _ => 0) exampleCorpus exampleQuery 2).map
        (fun r => (r.1.map (fun t => t.ID), r.2))
      = some (["a", "b", "d"], [0, 2 / 5, 1 / 2]) := by
  have hr : List.range' 1 2 = [1, 2] := rfl
  simp [calculateDistance, calculateDistanceStep, metric, manhattan, manhattanFrom, mpair,
    maxIndexDistance, maxIndexDistanceFrom, sortSort, insertionSortInner, dataframe.Less,
    dataframe.Swap, dataframe.Len, swapAt, exampleCorpus, exampleQuery, List.replicate, hr]
  norm_num
  simp [hr, insertionSortInner, dataframe.Less, dataframe.Swap, swapAt]
  norm_num

/-! ### The distance of a vector to itself -/

theorem mpair_self (x : α) : mpair x x = 0 := by
  simp [mpair]

theorem jsTerm_self (log : α → α) (v : α) : jsTerm log v v = 0 := by
  have e : (0.5 : α) * (v + v) = v := by norm_num; ring
  unfold jsTerm
  rw [e]
  simp

theorem zipWith_self_sum (f : α → α → α) (hf : ∀ a, f a a = 0) : ∀ x : List α,
    (List.zipWith f x x).sum = 0
  | [] => by simp
  | a :: x => by
    simp only [List.zipWith_cons_cons, List.sum_cons, hf a, zipWith_self_sum f hf x, add_zero]

theorem metric_self (distance : String) (log : α → α) (x : List α) :
    metric distance log x x = some 0 := by
  unfold metric
  split_ifs
  · rw [jensenShannon_eq log x x le_rfl, zipWith_self_sum (jsTerm log) (jsTerm_self log)]
  · rw [manhattan_eq x x le_rfl, zipWith_self_sum mpair mpair_self]

/-! ### The JSON response -/

theorem JsonResponseStep_fold (thetas : List (theta α)) (distances : List α) :
    ∀ (l : List Nat) (st : List String × List (Rendered α) × List String × String),
    (∀ i ∈ l, i < thetas.length ∧ i < distances.length) →
    ∃ text, l.foldlM (JsonResponseStep thetas distances) st
      = some (st.1 ++ l.map (fun i => (itemAt i (thetas[i]?.getD (theta.zero α))
              (distances[i]?.getD 0)).Id),
          st.2.1 ++ l.map (fun i => (itemAt i (thetas[i]?.getD (theta.zero α))
              (distances[i]?.getD 0)).Distance),
          st.2.2.1 ++ l.map (fun i => (itemAt i (thetas[i]?.getD (theta.zero α))
              (distances[i]?.getD 0)).Text), text)
  | [], (ids, ms, txts, text), _ => ⟨text, by simp⟩
  | i :: l, (ids, ms, txts, text), h => by
    obtain ⟨h1, h2⟩ := h i (by simp)
    have step : ∃ text', JsonResponseStep thetas distances (ids, ms, txts, text) i
        = some (ids ++ [(itemAt i thetas[i] distances[i]).Id],
            ms ++ [(itemAt i thetas[i] distances[i]).Distance],
            txts ++ [(itemAt i thetas[i] distances[i]).Text], text') := by
      unfold JsonResponseStep itemAt
      simp only [List.getElem?_eq_getElem h1, List.getElem?_eq_getElem h2]
      split_ifs with h0
      · exact ⟨_, rfl⟩
      · exact ⟨_, rfl⟩
    obtain ⟨text', hstep⟩ := step
    obtain ⟨text2, ih⟩ := JsonResponseStep_fold thetas distances l
      (ids ++ [(itemAt i thetas[i] distances[i]).Id],
        ms ++ [(itemAt i thetas[i] distances[i]).Distance],
        txts ++ [(itemAt i thetas[i] distances[i]).Text], text')
      (fun j hj => h j (by simp [hj]))
    refine ⟨text2, ?_⟩
    rw [List.foldlM_cons, hstep]
    simp only [Option.some_bind, Option.bind_eq_bind]
    rw [ih]
    simp [List.getElem?_eq_getElem h1, List.getElem?_eq_getElem h2]

theorem JsonResponseItem_fold (ids : List String) (ms : List (Rendered α)) (txts : List String) :
    ∀ (l : List Nat) (acc : List (relatedItem α)),
    (∀ i ∈ l, i < ids.length ∧ i < ms.length ∧ i < txts.length) →
    l.foldlM (JsonResponseItem ids ms txts) acc
      = some (acc ++ l.map (fun i => ⟨ids[i]?.getD "", i, ms[i]?.getD (Rendered.literal ""),
          txts[i]?.getD ""⟩))
  | [], acc, _ => by simp
  | i :: l, acc, h => by
    obtain ⟨h1, h2, h3⟩ := h i (by simp)
    rw [List.foldlM_cons]
    have step : JsonResponseItem ids ms txts acc i = some (acc ++ [⟨ids[i], i, ms[i], txts[i]⟩]) := by
      unfold JsonResponseItem
      simp only [List.getElem?_eq_getElem h1, List.getElem?_eq_getElem h2,
        List.getElem?_eq_getElem h3]
    rw [step]
    simp only [Option.some_bind, Option.bind_eq_bind]
    rw [JsonResponseItem_fold ids ms txts l _ (fun j hj => h j (by simp [hj]))]
    simp [List.getElem?_eq_getElem h1, List.getElem?_eq_getElem h2, List.getElem?_eq_getElem h3]

theorem JsonResponseStep_range (thetas : List (theta α)) (distances : List α)
    (hlen : thetas.length = distances.length) :
    ∃ ids ms txts text,
      (List.range thetas.length).foldlM (JsonResponseStep thetas distances) ([], [], [], "")
        = some (ids, ms, txts, text) ∧
      ids.length = thetas.length ∧ ms.length = thetas.length ∧ txts.length = thetas.length ∧
      ∀ i t d, thetas[i]? = some t → distances[i]? = some d →
        ids[i]? = some t.ID ∧ ms[i]? = some (itemAt i t d).Distance ∧ txts[i]? = some t.Text := by
  obtain ⟨text, h1⟩ := JsonResponseStep_fold thetas distances (List.range thetas.length)
    ([], [], [], "") (fun i hi => by rw [List.mem_range] at hi; omega)
  refine ⟨_, _, _, text, h1, by simp, by simp, by simp, ?_⟩
  intro i t d ht hd
  have hi : i < thetas.length := by
    by_contra hc
    rw [List.getElem?_eq_none (by omega)] at ht
    cases ht
  simp [List.getElem?_range hi, hi, ht, hd, itemAt]

theorem JsonResponseItem_range (ids : List String) (ms : List (Rendered α)) (txts : List String)
    (h1 : ms.length = ids.length) (h2 : txts.length = ids.length) :
    ∃ items, (List.range ids.length).foldlM (JsonResponseItem ids ms txts) [] = some items ∧
      items.length = ids.length ∧
      ∀ i id m t, ids[i]? = some id → ms[i]? = some m → txts[i]? = some t →
        items[i]? = some (⟨id, i, m, t⟩ : relatedItem α) := by
  refine ⟨_, JsonResponseItem_fold ids ms txts (List.range ids.length) []
    (fun i hi => by rw [List.mem_range] at hi; omega), by simp, ?_⟩
  intro i id m t hid hm ht
  have hi : i < ids.length := by
    by_contra hc
    rw [List.getElem?_eq_none (by omega)] at hid
    cases hid
  simp [List.getElem?_range hi, hi, hid, hm, ht]

/-- The response of `JsonResponse` in terms of what `calculateDistance`
returned: one item per position, built by `itemAt`. -/
theorem JsonResponse_items (distance : String) (log : α → α) (backend : List (theta α))
    (urn : String) (count : Nat) (ts : List (theta α)) (ds : List α)
    (hcd : calculateDistance distance log backend
      (JsonResponseQuery urn backend (theta.zero α)) count = some (ts, ds))
    (hlen : ts.length = ds.length) :
    ∃ resp, JsonResponse distance log backend urn count = some resp ∧
      resp.Items.length = ts.length ∧
      ∀ i t d, ts[i]? = some t → ds[i]? = some d → resp.Items[i]? = some (itemAt i t d) := by
  obtain ⟨ids, ms, txts, text, h1, l1, l2, l3, hget⟩ := JsonResponseStep_range ts ds hlen
  obtain ⟨items, h2, l4, hitem⟩ := JsonResponseItem_range ids ms txts (l2.trans l1.symm)
    (l3.trans l1.symm)
  refine ⟨⟨"test", text, items⟩, by simp only [JsonResponse, hcd, h1, h2], l4.trans l1, ?_⟩
  intro i t d ht hd
  obtain ⟨a, b, c⟩ := hget i t d ht hd
  exact hitem i _ _ _ a b c

theorem JsonResponseQuery_mem (urn : String) : ∀ (backend : List (theta α)) (query : theta α),
    (∃ v ∈ backend, v.ID = urn) →
    JsonResponseQuery urn backend query ∈ backend ∧ (JsonResponseQuery urn backend query).ID = urn
  | [], _, h => by simp at h
  | v :: rest, query, h => by
    unfold JsonResponseQuery
    split_ifs with hid
    · exact ⟨by simp, hid⟩
    · obtain ⟨w, hw, hwid⟩ := h
      rcases List.mem_cons.mp hw with rfl | hw
      · exact absurd hwid hid
      · obtain ⟨h1, h2⟩ := JsonResponseQuery_mem urn rest query ⟨w, hw, hwid⟩
        exact ⟨List.mem_cons_of_mem _ h1, h2⟩

theorem forall₂_mem_left {β γ : Type} {R : β → γ → Prop} : ∀ {l1 : List β} {l2 : List γ},
    List.Forall₂ R l1 l2 → ∀ a ∈ l1, ∃ b ∈ l2, R a b
  | _, _, List.Forall₂.nil, a, ha => by simp at ha
  | _, _, List.Forall₂.cons hh ht, a, ha => by
    rcases List.mem_cons.mp ha with rfl | ha
    · exact ⟨_, by simp, hh⟩
    · obtain ⟨b, hb, hr⟩ := forall₂_mem_left ht a ha
      exact ⟨b, List.mem_cons_of_mem _ hb, hr⟩

/-- When the query is a corpus record and every record with another
identifier is at a positive distance from it, `calculateDistance` returns a
record with the query's identifier first. -/
theorem calculateDistance_first (distance : String) (log : α → α) (backend : List (theta α))
    (query : theta α) (count : Nat) (ts : List (theta α)) (ds : List α)
    (hN : count + 1 ≤ backend.length)
    (hvec : ∀ v ∈ backend, query.Vector.length ≤ v.Vector.length)
    (hq : query ∈ backend)
    (hpos : ∀ v ∈ backend, v.ID ≠ query.ID → ∀ d,
      metric distance log query.Vector v.Vector = some d → 0 < d)
    (hcd : calculateDistance distance log backend query count = some (ts, ds)) :
    ∃ t, ts[0]? = some t ∧ t.ID = query.ID := by
  obtain ⟨all, hall⟩ := exists_forall₂ (P := fun (v : theta α) d =>
    metric distance log query.Vector v.Vector = some d) backend
    (fun v hv => metric_isSome distance log _ _ (hvec v hv))
  obtain ⟨st, ts', ds', _, h2, h3, h4, _, _, h7, h8⟩ :=
    calculateDistance_run distance log query count backend all hall hN
  rw [hcd] at h2
  obtain ⟨rfl, rfl⟩ := Prod.mk.inj (Option.some.inj h2)
  -- zero is among the distances to all records
  obtain ⟨z, hz, hzq⟩ := forall₂_mem_left hall query hq
  rw [metric_self] at hzq
  have hz0 : (0 : α) ∈ all := by rw [Option.some.inj hzq]; exact hz
  cases ts with
  | nil => simp at h3
  | cons t ts =>
    cases ds with
    | nil => simp at h4
    | cons d ds =>
      refine ⟨t, by simp, ?_⟩
      by_contra hne
      have hp := List.forall₂_cons.mp h7
      have hdpos : 0 < d := hpos t hp.1.1 hne d hp.1.2
      -- the first returned distance is the least of all distances
      have hsorted := List.sorted_insertionSort (· ≤ ·) all
      have hz' : (0 : α) ∈ List.insertionSort (· ≤ ·) all :=
        (List.perm_insertionSort (· ≤ ·) all).symm.subset hz0
      cases hs : List.insertionSort (· ≤ ·) all with
      | nil => rw [hs] at hz'; simp at hz'
      | cons a rest =>
        rw [hs] at h8 hz' hsorted
        have had : d = a := by
          simp [List.take_succ_cons] at h8
          exact h8.1
        have hle : a ≤ 0 := by
          rcases List.mem_cons.mp hz' with h0 | h0
          · exact le_of_eq h0.symm
          · exact List.rel_of_sorted_cons hsorted 0 h0
        rw [had] at hdpos
        exact absurd hdpos (not_lt.mpr hle)

theorem exampleQuery_found :
    JsonResponseQuery "a" exampleCorpus (theta.zero ℚ) = exampleQuery := by
  simp [JsonResponseQuery, exampleCorpus, exampleQuery]

theorem calculateDistance_scenario_distances :
    ∃ ts, calculateDistance "manhattan" (fun _ => 0) exampleCorpus exampleQuery 2
      = some (ts, [0, 2 / 5, 1 / 2]) := by
  have h := calculateDistance_scenario
  cases hcd : calculateDistance "manhattan" (fun _ => 0) exampleCorpus exampleQuery 2 with
  | none => rw [hcd] at h; simp at h
  | some r =>
    rw [hcd] at h
    simp only [Option.map_some', Option.some.injEq, Prod.mk.injEq] at h
    exact ⟨r.1, by rw [← h.2]⟩

/-! ### The topic ranking -/

theorem ViewTopicStep_length (topic : Int) (count : Nat) (st st' : List (theta α) × Nat)
    (v : theta α) (h : ViewTopicStep topic count st v = some st') :
    st'.1.length = st.1.length := by
  unfold ViewTopicStep at h
  split_ifs at h with hc
  · rw [← Option.some.inj h]; simp
  · cases hm : minIndexTheta st.1 topic with
    | none => simp [hm] at h
    | some p =>
      cases hx : indexInt v.Vector topic with
      | none => simp [hm, hx] at h
      | some x =>
        simp only [hm, hx] at h
        split_ifs at h
        · rw [← Option.some.inj h]; simp
        · rw [← Option.some.inj h]

theorem ViewTopicStep_fold_length (topic : Int) (count : Nat) :
    ∀ (backend : List (theta α)) (st st' : List (theta α) × Nat),
    backend.foldlM (ViewTopicStep topic count) st = some st' → st'.1.length = st.1.length
  | [], st, st', h => by
    simp at h
    rw [h]
  | v :: backend, st, st', h => by
    rw [List.foldlM_cons] at h
    cases hs : ViewTopicStep topic count st v with
    | none => simp [hs] at h
    | some st1 =>
      simp only [hs, Option.some_bind, Option.bind_eq_bind] at h
      rw [ViewTopicStep_fold_length topic count backend st1 st' h,
        ViewTopicStep_length topic count st st1 v hs]

theorem ViewTopicCollect_length (topic : Int) :
    ∀ (thetas : List (theta α)) (resultsorted r : List (ptopic α)),
    ViewTopicCollect topic thetas resultsorted = some r →
    r.length = resultsorted.length + thetas.length
  | [], resultsorted, r, h => by
    simp [ViewTopicCollect] at h
    simp [h]
  | v :: thetas, resultsorted, r, h => by
    unfold ViewTopicCollect at h
    cases hx : indexInt v.Vector topic with
    | none => simp [hx] at h
    | some x =>
      simp only [hx] at h
      rw [ViewTopicCollect_length topic thetas _ r h]
      simp
      omega

theorem ViewTopicRank_fold_length (DimWeight : α) :
    ∀ (l : List Nat) (st st' : List (ptopic α) × List (topicLine α)),
    l.foldlM (ViewTopicRank DimWeight) st = some st' → st'.2.length = st.2.length + l.length
  | [], st, st', h => by
    simp at h
    simp [h]
  | i :: l, st, st', h => by
    rw [List.foldlM_cons] at h
    cases hs : ViewTopicRank DimWeight st i with
    | none => simp [hs] at h
    | some st1 =>
      simp only [hs, Option.some_bind, Option.bind_eq_bind] at h
      rw [ViewTopicRank_fold_length DimWeight l st1 st' h]
      have h1 : st1.2.length = st.2.length + 1 := by
        unfold ViewTopicRank at hs
        cases hm : maxIndexTheta st.1 with
        | none => simp [hm] at hs
        | some p =>
          cases hp : st.1[p.1]? with
          | none => simp [hm, hp] at hs
          | some q =>
            simp only [hm, hp] at hs
            rw [← Option.some.inj hs]
            simp
      simp [h1]
      omega

/-- Whatever the corpus, the coordinate and `count`, a list that `ViewTopic`
returns has `2 * count` entries: `resultsorted` starts with `count` zero
values and receives `count` more. -/
theorem ViewTopic_length (backend : List (theta α)) (DimWeight : α) (topic : Int) (count : Nat)
    (results : List (topicLine α)) (h : ViewTopic backend DimWeight topic count = some results) :
    results.length = 2 * count := by
  unfold ViewTopic at h
  cases h1 : backend.foldlM (ViewTopicStep (topic - 1) count)
      (List.replicate count (theta.zero α), 0) with
  | none => simp [h1] at h
  | some st =>
    cases h2 : ViewTopicCollect (topic - 1) st.1 (List.replicate count (ptopic.zero α)) with
    | none => simp [h1, h2] at h
    | some rs =>
      cases h3 : (List.range rs.length).foldlM (ViewTopicRank DimWeight) (rs, []) with
      | none => simp [h1, h2, h3] at h
      | some st2 =>
        simp only [h1, h2, h3, Option.some.injEq] at h
        rw [← h, ViewTopicRank_fold_length DimWeight _ _ _ h3,
          ViewTopicCollect_length _ _ _ _ h2, ViewTopicStep_fold_length _ _ _ _ _ h1]
        simp
        omega

end Lemmas

/-! ## Lemmas for `float64` -/

section Float64Lemmas

variable {α : Type} [LinearOrderedField α]

set_option linter.unusedSectionVars false

/-! ### The comparisons of `float64` -/

theorem float64.lt_iff (a b : float64 α) : a < b ↔ float64.blt a b = true := Iff.rfl

theorem float64.le_iff (a b : float64 α) : a ≤ b ↔ float64.ble a b = true := Iff.rfl

theorem float64.not_lt_nan (a : float64 α) : ¬ a < float64.nan := by
  cases a <;> simp [float64.lt_iff, float64.blt]

theorem float64.not_nan_lt (a : float64 α) : ¬ float64.nan < a := by
  cases a <;> simp [float64.lt_iff, float64.blt]

theorem float64.not_le_nan (a : float64 α) : ¬ a ≤ float64.nan := by
  cases a <;> simp [float64.le_iff, float64.ble]

theorem float64.not_nan_le (a : float64 α) : ¬ float64.nan ≤ a := by
  cases a <;> simp [float64.le_iff, float64.ble]

theorem float64.not_lt_self (a : float64 α) : ¬ a < a := by
  cases a <;> simp [float64.lt_iff, float64.blt]

theorem float64.le_of_lt {a b : float64 α} (h : a < b) : a ≤ b := by
  cases a <;> cases b <;> simp_all [float64.lt_iff, float64.le_iff, float64.blt, float64.ble]
  exact h.le

theorem float64.le_trans {a b c : float64 α} (h1 : a ≤ b) (h2 : b ≤ c) : a ≤ c := by
  cases a <;> cases b <;> cases c <;>
    simp_all [float64.le_iff, float64.ble]
  exact h1.trans h2

theorem float64.le_antisymm {a b : float64 α} (h1 : a ≤ b) (h2 : b ≤ a) : a = b := by
  cases a <;> cases b <;> simp_all [float64.le_iff, float64.ble]
  exact h1.antisymm h2

theorem float64.le_refl {a : float64 α} (h : a ≠ float64.nan) : a ≤ a := by
  cases a <;> simp_all [float64.le_iff, float64.ble]

theorem float64.le_of_not_lt {a b : float64 α} (ha : a ≠ float64.nan) (hb : b ≠ float64.nan)
    (h : ¬ a < b) : b ≤ a := by
  cases a <;> cases b <;> simp_all [float64.lt_iff, float64.le_iff, float64.blt, float64.ble]

theorem float64.ne_nan_of_le {a b : float64 α} (h : a ≤ b) :
    a ≠ float64.nan ∧ b ≠ float64.nan := by
  cases a <;> cases b <;> simp_all [float64.le_iff, float64.ble]

theorem float64.le_total {a b : float64 α} (ha : a ≠ float64.nan) (hb : b ≠ float64.nan) :
    a ≤ b ∨ b ≤ a := by
  cases a <;> cases b <;> simp_all [float64.le_iff, float64.ble]
  exact LinearOrder.le_total _ _

theorem float64.zero_ne_nan : (0 : float64 α) ≠ float64.nan := by
  show float64.fin 0 ≠ float64.nan
  simp

/-! ### The arithmetic of `float64` -/

theorem float64.zero_def : (0 : float64 α) = float64.fin 0 := rfl

theorem float64.ofScientific_def (m : Nat) (s : Bool) (e : Nat) :
    (OfScientific.ofScientific m s e : float64 α) = float64.fin (OfScientific.ofScientific m s e) :=
  rfl

theorem float64.add_def (a b : float64 α) : a + b = float64.add a b := rfl

theorem float64.sub_def (a b : float64 α) : a - b = float64.sub a b := rfl

theorem float64.mul_def (a b : float64 α) : a * b = float64.mul a b := rfl

theorem MaxFloat64_pos : 0 < MaxFloat64 α := by
  unfold MaxFloat64
  have h : (2 : α) ^ 971 < 2 ^ 1024 := pow_lt_pow_right₀ (by norm_num) (by norm_num)
  exact sub_pos.mpr h

theorem float64.overflow_of_le {x : α} (h1 : -MaxFloat64 α ≤ x) (h2 : x ≤ MaxFloat64 α) :
    float64.overflow x = float64.fin x := by
  unfold float64.overflow
  rw [if_neg (not_lt.mpr h2), if_neg (not_lt.mpr h1)]

theorem float64.overflow_of_nonneg {x : α} (h1 : 0 ≤ x) (h2 : x ≤ MaxFloat64 α) :
    float64.overflow x = float64.fin x :=
  float64.overflow_of_le ((neg_nonpos.mpr MaxFloat64_pos.le).trans h1) h2

theorem float64.overflow_zero : float64.overflow (0 : α) = float64.fin 0 :=
  float64.overflow_of_nonneg le_rfl MaxFloat64_pos.le

theorem float64.zero_le_overflow {x : α} (h : 0 ≤ x) : (0 : float64 α) ≤ float64.overflow x := by
  unfold float64.overflow
  split_ifs with h1 h2
  · simp [float64.le_iff, float64.zero_def, float64.ble]
  · exact absurd (h.trans_lt h2) (not_lt.mpr (neg_nonpos.mpr MaxFloat64_pos.le))
  · simpa [float64.le_iff, float64.zero_def, float64.ble] using h

theorem float64.zero_add_zero : (0 : float64 α) + 0 = 0 := by
  simp [float64.add_def, float64.zero_def, float64.add, float64.overflow_zero]

theorem float64.add_nonneg {a b : float64 α} (ha : 0 ≤ a) (hb : 0 ≤ b) : 0 ≤ a + b := by
  cases a <;> cases b <;>
    simp_all [float64.le_iff, float64.zero_def, float64.ble, float64.add_def, float64.add]
  exact float64.zero_le_overflow (α := α) (by positivity)

theorem float64.sub_nonneg_of_lt {a b : float64 α} (h : b < a) : 0 ≤ a - b := by
  cases a <;> cases b <;>
    simp_all [float64.le_iff, float64.lt_iff, float64.zero_def, float64.ble, float64.blt,
      float64.sub_def, float64.sub]
  exact float64.zero_le_overflow (α := α) (by linarith)

/-! ### `manhattan` on `float64`: never negative, never NaN -/

theorem mpair_nonneg_float64 (a b : float64 α) : 0 ≤ mpair a b := by
  unfold mpair
  split_ifs with h1 h2
  · exact float64.sub_nonneg_of_lt h1
  · exact float64.sub_nonneg_of_lt h2
  · exact float64.le_refl float64.zero_ne_nan

theorem manhattanFrom_nonneg_float64 (y : List (float64 α)) :
    ∀ (xs : List (float64 α)) (i : Nat) (r d : float64 α),
    0 ≤ r → manhattanFrom y xs i r = some d → 0 ≤ d
  | [], _, r, d, hr, h => by
    simp [manhattanFrom] at h
    rw [← h]; exact hr
  | x :: xs, i, r, d, hr, h => by
    unfold manhattanFrom at h
    cases hy : y[i]? with
    | none => rw [hy] at h; simp at h
    | some yi =>
      rw [hy] at h
      exact manhattanFrom_nonneg_float64 y xs (i + 1) _ d
        (float64.add_nonneg hr (mpair_nonneg_float64 x yi)) h

/-- Whatever the entries of the two vectors, NaN and the infinities included,
`manhattan` returns a value that is not below zero, hence not NaN. -/
theorem manhattan_nonneg_float64 (x y : List (float64 α)) (d : float64 α)
    (h : manhattan x y = some d) : 0 ≤ d :=
  manhattanFrom_nonneg_float64 y x 0 0 d (float64.le_refl float64.zero_ne_nan) h

/-- Under every configured metric but `"jsd"` no distance is NaN. -/
theorem metric_ne_nan (distance : String) (log : float64 α → float64 α)
    (x y : List (float64 α)) (d : float64 α) (hd : distance ≠ "jsd")
    (h : metric distance log x y = some d) : d ≠ float64.nan := by
  unfold metric at h
  rw [if_neg hd] at h
  exact (float64.ne_nan_of_le (manhattan_nonneg_float64 x y d h)).2

/-! ### The distance of a `float64` vector to itself -/

theorem mpair_self_float64 (a : float64 α) : mpair a a = 0 := by
  simp [mpair, float64.not_lt_self]

theorem manhattanFrom_self_float64 : ∀ (xs pre : List (float64 α)),
    manhattanFrom (pre ++ xs) xs pre.length 0 = some 0
  | [], _ => rfl
  | x :: xs, pre => by
    have e : (pre ++ x :: xs)[pre.length]? = some x := by
      rw [List.getElem?_append_right (le_refl _)]; simp
    unfold manhattanFrom
    rw [e]
    simp only [mpair_self_float64, float64.zero_add_zero]
    have := manhattanFrom_self_float64 xs (pre ++ [x])
    simpa using this

theorem jensenShannon_term_self (log : α → α) (t : α) (h0 : 0 < t)
    (hM : t + t ≤ MaxFloat64 α) :
    (0.5 : float64 α) * float64.fin t *
      (float64.Log log (float64.fin t) -
        float64.Log log (0.5 * (float64.fin t + float64.fin t))) = 0 := by
  have e : (0.5 : α) * (t + t) = t := by norm_num; ring
  have hh : (0 : α) ≤ 0.5 * t := by positivity
  have hh2 : (0.5 : α) * t ≤ MaxFloat64 α := by
    have : (0.5 : α) * t ≤ t + t := by norm_num; linarith
    exact this.trans hM
  have ht : t ≤ MaxFloat64 α := by linarith
  have hm : (0.5 : float64 α) * (float64.fin t + float64.fin t) = float64.fin t := by
    have e0 : (0.5 : float64 α) = float64.fin 0.5 := rfl
    rw [e0]
    simp only [float64.add_def, float64.mul_def, float64.add, float64.mul]
    rw [float64.overflow_of_nonneg (by linarith) hM]
    simp only [float64.mul]
    rw [e, float64.overflow_of_nonneg h0.le ht]
  have e0 : (0.5 : float64 α) = float64.fin 0.5 := rfl
  rw [hm, e0]
  simp only [float64.Log, if_neg (not_lt.mpr h0.le), if_neg (ne_of_gt h0), float64.sub_def,
    float64.sub, sub_self, float64.overflow_zero, float64.mul_def, float64.mul]
  rw [float64.overflow_of_nonneg hh hh2]
  simp only [float64.mul, mul_zero, float64.overflow_zero]
  rfl

theorem jensenShannonFrom_self_float64 (log : α → α) : ∀ (xs pre : List (float64 α)),
    (∀ v ∈ xs, ∃ t, v = float64.fin t ∧ 0 ≤ t ∧ t + t ≤ MaxFloat64 α) →
    jensenShannonFrom (float64.Log log) (pre ++ xs) xs pre.length 0 = some 0
  | [], _, _ => rfl
  | x :: xs, pre, h => by
    obtain ⟨t, rfl, h0, hM⟩ := h x (by simp)
    have e : (pre ++ float64.fin t :: xs)[pre.length]? = some (float64.fin t) := by
      rw [List.getElem?_append_right (le_refl _)]; simp
    unfold jensenShannonFrom
    rw [e]
    have hstep : ∀ r : float64 α, r = 0 →
        (if float64.fin t ≠ 0 then r + 0.5 * float64.fin t *
          (float64.Log log (float64.fin t) -
            float64.Log log (0.5 * (float64.fin t + float64.fin t))) else r) = 0 := by
      intro r hr
      split_ifs with hne
      · have ht : 0 < t := lt_of_le_of_ne h0 (fun h => hne (by rw [← h]; rfl))
        rw [jensenShannon_term_self log t ht hM, hr, float64.zero_add_zero]
      · exact hr
    simp only []
    rw [hstep _ (hstep 0 rfl)]
    have := jensenShannonFrom_self_float64 log xs (pre ++ [float64.fin t])
      (fun v hv => h v (by simp [hv]))
    simpa using this

/-! ### `jensenShannon` on `float64` weights of ordinary size -/

theorem float64.overflow_ne_nan {α : Type} [LinearOrderedField α] (x : α) :
    float64.overflow x ≠ float64.nan := by
  unfold float64.overflow
  split_ifs <;> simp

theorem float64.add_fin_ne_nan {α : Type} [LinearOrderedField α] {r : float64 α}
    (h : r ≠ float64.nan) (t : α) : r + float64.fin t ≠ float64.nan := by
  cases r <;> simp_all [float64.add_def, float64.add, float64.overflow_ne_nan]

theorem log_bound (t : ℝ) (h1 : (2 : ℝ) ^ (-1075 : ℤ) ≤ t) (h2 : t ≤ 2 ^ 1001) :
    |Real.log t| ≤ 1075 := by
  have hpos : (0 : ℝ) < 2 ^ (-1075 : ℤ) := by positivity
  have ht : 0 < t := lt_of_lt_of_le hpos h1
  have hl2 : Real.log 2 ≤ 1 := by
    have := Real.log_two_lt_d9
    linarith
  have hl0 : 0 ≤ Real.log 2 := Real.log_nonneg (by norm_num)
  have hu : Real.log t ≤ 1001 * Real.log 2 := by
    have := Real.log_le_log ht h2
    rwa [Real.log_pow] at this
  have hd : -(1075 * Real.log 2) ≤ Real.log t := by
    have := Real.log_le_log hpos h1
    rw [Real.log_zpow] at this
    push_cast at this
    linarith
  rw [abs_le]
  constructor <;> nlinarith

/-- One term of `jensenShannon` is a finite number when the two weights are not
negative and at most `2^1000` and the weight under the logarithm is at least
the least positive `float64` value `2^-1074`. -/
theorem jensenShannon_term_fin (a v yi : ℝ) (ha : (2 : ℝ) ^ (-1074 : ℤ) ≤ a) (hav : a ≤ v + yi)
    (hv : v ≤ 2 ^ 1000) (hy : yi ≤ 2 ^ 1000) :
    ∃ τ, (0.5 : float64 ℝ) * float64.fin a *
      (float64.Log Real.log (float64.fin a) -
        float64.Log Real.log (0.5 * (float64.fin v + float64.fin yi))) = float64.fin τ := by
  have hM : MaxFloat64 ℝ = 2 ^ 1024 - 2 ^ 971 := rfl
  have hapos : (0 : ℝ) < a := lt_of_lt_of_le (by positivity) ha
  have ha2 : a ≤ 2 ^ 1001 := by
    have : (2 : ℝ) ^ 1001 = 2 ^ 1000 + 2 ^ 1000 := by norm_num
    linarith
  have hs0 : 0 ≤ v + yi := hapos.le.trans hav
  have hs1 : v + yi ≤ MaxFloat64 ℝ := by
    rw [hM]
    have : (2 : ℝ) ^ 1000 + 2 ^ 1000 ≤ 2 ^ 1024 - 2 ^ 971 := by norm_num
    linarith
  have hm0 : (2 : ℝ) ^ (-1075 : ℤ) ≤ 0.5 * (v + yi) := by
    have e : (2 : ℝ) ^ (-1075 : ℤ) = 0.5 * 2 ^ (-1074 : ℤ) := by
      rw [show (-1075 : ℤ) = -1074 - 1 by norm_num, zpow_sub₀ (by norm_num)]
      norm_num
    rw [e]
    exact mul_le_mul_of_nonneg_left (ha.trans hav) (by norm_num)
  have hmpos : (0 : ℝ) < 0.5 * (v + yi) := lt_of_lt_of_le (by positivity) hm0
  have hm1 : (0.5 : ℝ) * (v + yi) ≤ 2 ^ 1001 := by
    have : (2 : ℝ) ^ 1001 = 2 ^ 1000 + 2 ^ 1000 := by norm_num
    norm_num
    linarith
  have hm2 : (0.5 : ℝ) * (v + yi) ≤ MaxFloat64 ℝ := by
    have : (0.5 : ℝ) * (v + yi) ≤ v + yi := by norm_num; linarith
    exact this.trans hs1
  have ha0 : (2 : ℝ) ^ (-1075 : ℤ) ≤ a := by
    have : (2 : ℝ) ^ (-1075 : ℤ) ≤ 2 ^ (-1074 : ℤ) :=
      zpow_le_zpow_right₀ (by norm_num) (by norm_num)
    exact this.trans ha
  have hla := abs_le.mp (log_bound a ha0 ha2)
  have hlm := abs_le.mp (log_bound (0.5 * (v + yi)) hm0 hm1)
  have hδ : |Real.log a - Real.log (0.5 * (v + yi))| ≤ 2150 := by
    rw [abs_le]
    constructor <;> linarith [hla.1, hla.2, hlm.1, hlm.2]
  have hδ' := abs_le.mp hδ
  have hd1 : -MaxFloat64 ℝ ≤ Real.log a - Real.log (0.5 * (v + yi)) := by
    rw [hM]
    have : -((2 : ℝ) ^ 1024 - 2 ^ 971) ≤ -2150 := by norm_num
    linarith [hδ'.1]
  have hd2 : Real.log a - Real.log (0.5 * (v + yi)) ≤ MaxFloat64 ℝ := by
    rw [hM]
    have : (2150 : ℝ) ≤ 2 ^ 1024 - 2 ^ 971 := by norm_num
    linarith [hδ'.2]
  have hh0 : (0 : ℝ) ≤ 0.5 * a := by positivity
  have hh1 : (0.5 : ℝ) * a ≤ 2 ^ 1000 := by
    have : (2 : ℝ) ^ 1001 = 2 ^ 1000 + 2 ^ 1000 := by norm_num
    norm_num
    linarith
  have hh2 : (0.5 : ℝ) * a ≤ MaxFloat64 ℝ := by
    rw [hM]
    have : (2 : ℝ) ^ 1000 ≤ 2 ^ 1024 - 2 ^ 971 := by norm_num
    linarith
  have hp : |0.5 * a * (Real.log a - Real.log (0.5 * (v + yi)))| ≤ 2 ^ 1000 * 2150 := by
    rw [abs_mul, abs_of_nonneg hh0]
    exact mul_le_mul hh1 hδ (abs_nonneg _) (by positivity)
  have hp' := abs_le.mp hp
  have hp1 : -MaxFloat64 ℝ ≤ 0.5 * a * (Real.log a - Real.log (0.5 * (v + yi))) := by
    rw [hM]
    have : -((2 : ℝ) ^ 1024 - 2 ^ 971) ≤ -(2 ^ 1000 * 2150) := by norm_num
    linarith [hp'.1]
  have hp2 : 0.5 * a * (Real.log a - Real.log (0.5 * (v + yi))) ≤ MaxFloat64 ℝ := by
    rw [hM]
    have : (2 : ℝ) ^ 1000 * 2150 ≤ 2 ^ 1024 - 2 ^ 971 := by norm_num
    linarith [hp'.2]
  refine ⟨0.5 * a * (Real.log a - Real.log (0.5 * (v + yi))), ?_⟩
  have e0 : (0.5 : float64 ℝ) = float64.fin 0.5 := rfl
  rw [e0]
  simp only [float64.add_def, float64.mul_def, float64.sub_def, float64.add, float64.mul]
  rw [float64.overflow_of_nonneg hs0 hs1]
  simp only [float64.mul]
  rw [float64.overflow_of_nonneg hmpos.le hm2, float64.overflow_of_nonneg hh0 hh2]
  simp only [float64.Log, if_neg (not_lt.mpr hapos.le), if_neg (ne_of_gt hapos),
    if_neg (not_lt.mpr hmpos.le), if_neg (ne_of_gt hmpos), float64.sub]
  rw [float64.overflow_of_le hd1 hd2]
  simp only [float64.mul]
  rw [float64.overflow_of_le hp1 hp2]

theorem jensenShannon_step_ne_nan (c a b : ℝ) (r : float64 ℝ) (hr : r ≠ float64.nan)
    (hc : c = 0 ∨ ((2 : ℝ) ^ (-1074 : ℤ) ≤ c ∧ c ≤ 2 ^ 1000)) (hca : c ≤ a + b)
    (ha : a ≤ 2 ^ 1000) (hb : b ≤ 2 ^ 1000) :
    (if float64.fin c ≠ 0 then r + 0.5 * float64.fin c *
      (float64.Log Real.log (float64.fin c) -
        float64.Log Real.log (0.5 * (float64.fin a + float64.fin b))) else r)
      ≠ float64.nan := by
  split_ifs with hne
  · have hcne : c ≠ 0 := fun h0 => hne (by rw [h0]; rfl)
    obtain ⟨τ, hτ⟩ := jensenShannon_term_fin c a b (hc.resolve_left hcne).1 hca ha hb
    rw [hτ]
    exact float64.add_fin_ne_nan hr τ
  · exact hr

theorem jensenShannonFrom_ne_nan (y : List (float64 ℝ))
    (hy : ∀ w ∈ y, ∃ t, w = float64.fin t ∧
      (t = 0 ∨ ((2 : ℝ) ^ (-1074 : ℤ) ≤ t ∧ t ≤ 2 ^ 1000))) :
    ∀ (xs : List (float64 ℝ)) (i : Nat) (r d : float64 ℝ),
    (∀ w ∈ xs, ∃ t, w = float64.fin t ∧
      (t = 0 ∨ ((2 : ℝ) ^ (-1074 : ℤ) ≤ t ∧ t ≤ 2 ^ 1000))) →
    r ≠ float64.nan → jensenShannonFrom (float64.Log Real.log) y xs i r = some d →
    d ≠ float64.nan
  | [], _, r, d, _, hr, h => by
    simp [jensenShannonFrom] at h
    rw [← h]; exact hr
  | x :: xs, i, r, d, hx, hr, h => by
    unfold jensenShannonFrom at h
    cases hyi : y[i]? with
    | none => rw [hyi] at h; simp at h
    | some yi =>
      rw [hyi] at h
      simp only [] at h
      obtain ⟨a, rfl, ha⟩ := hx x (by simp)
      obtain ⟨b, rfl, hb⟩ := hy yi (List.getElem?_mem hyi)
      have ha0 : 0 ≤ a := by
        rcases ha with rfl | ⟨h1, _⟩
        · exact le_rfl
        · exact le_trans (by positivity) h1
      have hb0 : 0 ≤ b := by
        rcases hb with rfl | ⟨h1, _⟩
        · exact le_rfl
        · exact le_trans (by positivity) h1
      have ha1 : a ≤ 2 ^ 1000 := by
        rcases ha with rfl | ⟨_, h2⟩
        · positivity
        · exact h2
      have hb1 : b ≤ 2 ^ 1000 := by
        rcases hb with rfl | ⟨_, h2⟩
        · positivity
        · exact h2
      exact jensenShannonFrom_ne_nan y hy xs (i + 1) _ d (fun w hw => hx w (by simp [hw]))
        (jensenShannon_step_ne_nan b a b _
          (jensenShannon_step_ne_nan a a b r hr ha (by linarith) ha1 hb1)
          hb (by linarith) ha1 hb1) h

/-- With the natural logarithm, no distance is NaN, under `"jsd"` too, when
every weight of the two vectors is zero or lies between the least positive
`float64` value `2^-1074` and `2^1000`. -/
theorem metric_ne_nan_of_weights (distance : String) (x y : List (float64 ℝ)) (d : float64 ℝ)
    (hx : ∀ w ∈ x, ∃ t, w = float64.fin t ∧
      (t = 0 ∨ ((2 : ℝ) ^ (-1074 : ℤ) ≤ t ∧ t ≤ 2 ^ 1000)))
    (hy : ∀ w ∈ y, ∃ t, w = float64.fin t ∧
      (t = 0 ∨ ((2 : ℝ) ^ (-1074 : ℤ) ≤ t ∧ t ≤ 2 ^ 1000)))
    (h : metric distance (float64.Log Real.log) x y = some d) : d ≠ float64.nan := by
  by_cases hd : distance = "jsd"
  · unfold metric at h
    rw [if_pos hd] at h
    exact jensenShannonFrom_ne_nan y hy x 0 0 d hx float64.zero_ne_nan h
  · exact metric_ne_nan distance _ x y d hd h

/-! ### The sort on distances without NaN -/

theorem sorted_snoc_cons_float64 {pre mid : List (float64 α)} {a x : float64 α}
    (hs : List.Sorted (· ≤ ·) ((pre ++ [a]) ++ mid)) (hax : a ≤ x) (hx : ∀ y ∈ mid, x ≤ y) :
    List.Sorted (· ≤ ·) ((pre ++ [a]) ++ x :: mid) := by
  unfold List.Sorted at hs ⊢
  rw [List.pairwise_append] at hs ⊢
  obtain ⟨h1, h2, h3⟩ := hs
  refine ⟨h1, ?_, ?_⟩
  · exact List.pairwise_cons.mpr ⟨hx, h2⟩
  · intro p hp q hq
    rcases List.mem_cons.mp hq with rfl | hq
    · have : p ≤ a := by
        rw [List.pairwise_append] at h1
        rcases List.mem_append.mp hp with hp | hp
        · exact h1.2.2 p hp a (by simp)
        · simp at hp
          rw [hp]
          exact float64.le_refl (float64.ne_nan_of_le hax).1
      exact float64.le_trans this hax
    · exact h3 p hp q hq

/-- What `insertionSortInner` does to distances without NaN: it sinks the entry
at position `j` into the sorted prefix before it. -/
theorem insertionSortInner_sorted_float64 : ∀ (j : Nat) (m : dataframe (float64 α))
    (pre : List (float64 α)) (x : float64 α) (mid post : List (float64 α)),
    m.Distances = pre ++ x :: (mid ++ post) → pre.length = j →
    x ≠ float64.nan → (∀ y ∈ pre, y ≠ float64.nan) →
    List.Sorted (· ≤ ·) (pre ++ mid) → (∀ y ∈ mid, x ≤ y) →
    ∃ S, (insertionSortInner m j).Distances = S ++ post ∧ List.Sorted (· ≤ ·) S ∧
      S.length = j + 1 + mid.length ∧ ∀ y ∈ S, y ≠ float64.nan
  | 0, m, pre, x, mid, post, hD, hlen, hxn, _, hs, hx => by
    have : pre = [] := List.length_eq_zero.mp hlen
    subst this
    refine ⟨x :: mid, by simpa [insertionSortInner] using hD, ?_, by simp; omega, ?_⟩
    · exact List.sorted_cons.mpr ⟨hx, by simpa using hs⟩
    · intro y hy
      rcases List.mem_cons.mp hy with rfl | hy
      · exact hxn
      · exact (float64.ne_nan_of_le (hx y hy)).2
  | j + 1, m, pre, x, mid, post, hD, hlen, hxn, hpn, hs, hx => by
    obtain ⟨pre', a, rfl⟩ : ∃ pre' a, pre = pre' ++ [a] := by
      rcases List.eq_nil_or_concat pre with h | ⟨l, b, h⟩
      · simp [h] at hlen
      · exact ⟨l, b, by simpa using h⟩
    have hlen' : pre'.length = j := by simpa using hlen
    have han : a ≠ float64.nan := hpn a (by simp)
    have hD' : m.Distances = pre' ++ a :: x :: (mid ++ post) := by simpa using hD
    have e1 : (pre' ++ a :: x :: (mid ++ post))[pre'.length + 1]? = some x := by
      rw [List.getElem?_append_right (by omega)]; simp
    have e0 : (pre' ++ a :: x :: (mid ++ post))[pre'.length]? = some a := by
      rw [List.getElem?_append_right (le_refl _)]; simp
    have hless : m.Less (j + 1) j = decide (x < a) := by
      simp only [dataframe.Less, hD', ← hlen', e1, e0]
    unfold insertionSortInner
    rw [hless]
    by_cases hxa : x < a
    · simp only [hxa, decide_True, if_true]
      have hsw : (m.Swap (j + 1) j).Distances = pre' ++ x :: ((a :: mid) ++ post) := by
        simp only [dataframe.Swap, hD', ← hlen']
        rw [swapAt_adjacent]; simp
      obtain ⟨S, h1, h2, h3, h4⟩ := insertionSortInner_sorted_float64 j (m.Swap (j + 1) j) pre' x
        (a :: mid) post hsw hlen' hxn (fun y hy => hpn y (by simp [hy])) (by simpa using hs) (by
          intro y hy
          rcases List.mem_cons.mp hy with rfl | hy
          · exact float64.le_of_lt hxa
          · exact hx y hy)
      exact ⟨S, h1, h2, by simp at h3 ⊢; omega, h4⟩
    · simp only [hxa, decide_False, Bool.false_eq_true, if_false]
      refine ⟨(pre' ++ [a]) ++ x :: mid, by simp [hD'], ?_, by simp [hlen']; omega, ?_⟩
      · exact sorted_snoc_cons_float64 hs (float64.le_of_not_lt hxn han hxa) hx
      · intro y hy
        rcases List.mem_append.mp hy with hy | hy
        · exact hpn y hy
        · rcases List.mem_cons.mp hy with rfl | hy
          · exact hxn
          · exact (float64.ne_nan_of_le (hx y hy)).2

theorem foldl_insertionSortInner_sorted_float64 : ∀ (k i : Nat) (m : dataframe (float64 α))
    (S post : List (float64 α)),
    m.Distances = S ++ post → S.length = i → post.length = k →
    (∀ y ∈ S, y ≠ float64.nan) → (∀ y ∈ post, y ≠ float64.nan) → List.Sorted (· ≤ ·) S →
    List.Sorted (· ≤ ·) ((List.range' i k).foldl insertionSortInner m).Distances
  | 0, i, m, S, post, hD, _, hk, _, _, hs => by
    have : post = [] := List.length_eq_zero.mp hk
    simpa [hD, this] using hs
  | k + 1, i, m, S, post, hD, hi, hk, hSn, hpn, hs => by
    obtain ⟨x, post', rfl⟩ : ∃ x post', post = x :: post' := by
      cases post with
      | nil => simp at hk
      | cons x p => exact ⟨x, p, rfl⟩
    obtain ⟨S', h1, h2, h3, h4⟩ := insertionSortInner_sorted_float64 i m S x [] post'
      (by simpa using hD) hi (hpn x (by simp)) hSn (by simpa using hs) (by simp)
    simp only [List.range'_succ, List.foldl_cons]
    exact foldl_insertionSortInner_sorted_float64 k (i + 1) _ S' post' h1 (by simpa using h3)
      (by simpa using hk) h4 (fun y hy => hpn y (by simp [hy])) h2

/-- On distances without NaN the sort leaves them sorted. -/
theorem sortSort_sorted_float64 (m : dataframe (float64 α))
    (h : ∀ d ∈ m.Distances, d ≠ float64.nan) :
    List.Sorted (· ≤ ·) (sortSort m).Distances := by
  unfold sortSort dataframe.Len
  cases hD : m.Distances with
  | nil => simp [hD]
  | cons d rest =>
    rw [hD] at h
    exact foldl_insertionSortInner_sorted_float64 _ 1 m [d] rest (by simp [hD]) rfl (by simp)
      (fun y hy => h y (by simp at hy; simp [hy])) (fun y hy => h y (by simp [hy])) (by simp)

theorem orderedInsert_sorted_float64 (a : float64 α) (ha : a ≠ float64.nan) :
    ∀ l : List (float64 α), (∀ x ∈ l, x ≠ float64.nan) → List.Sorted (· ≤ ·) l →
    List.Sorted (· ≤ ·) (List.orderedInsert (· ≤ ·) a l)
  | [], _, _ => by simp
  | b :: l, hn, hs => by
    have hb : b ≠ float64.nan := hn b (by simp)
    rw [List.orderedInsert]
    split_ifs with hab
    · refine List.sorted_cons.mpr ⟨?_, hs⟩
      intro x hx
      rcases List.mem_cons.mp hx with rfl | hx
      · exact hab
      · exact float64.le_trans hab (List.rel_of_sorted_cons hs x hx)
    · have hba : b ≤ a := (float64.le_total ha hb).resolve_left hab
      refine List.sorted_cons.mpr ⟨?_, orderedInsert_sorted_float64 a ha l
        (fun x hx => hn x (by simp [hx])) (List.sorted_cons.mp hs).2⟩
      intro x hx
      rcases (List.mem_orderedInsert (· ≤ ·)).mp hx with rfl | hx
      · exact hba
      · exact List.rel_of_sorted_cons hs x hx

/-- A list of distances without NaN, put in order. -/
theorem insertionSort_sorted_float64 : ∀ l : List (float64 α), (∀ x ∈ l, x ≠ float64.nan) →
    List.Sorted (· ≤ ·) (List.insertionSort (· ≤ ·) l)
  | [], _ => by simp
  | a :: l, hn => by
    rw [List.insertionSort]
    refine orderedInsert_sorted_float64 a (hn a (by simp)) _ ?_
      (insertionSort_sorted_float64 l (fun x hx => hn x (by simp [hx])))
    intro x hx
    exact hn x (by simp [((List.perm_insertionSort (· ≤ ·) l).mem_iff).mp hx])

/-! ### The selection loop on distances without NaN -/

theorem maxIndexDistanceFrom_spec_float64 : ∀ (ds : List (float64 α)) (i : Nat)
    (acc : Nat × float64 α), acc.2 ≠ float64.nan → (∀ d ∈ ds, d ≠ float64.nan) →
    acc.2 ≤ (maxIndexDistanceFrom ds i acc).2 ∧
    (∀ d ∈ ds, d ≤ (maxIndexDistanceFrom ds i acc).2) ∧
    (maxIndexDistanceFrom ds i acc = acc ∨
      ∃ k, k < ds.length ∧ (maxIndexDistanceFrom ds i acc).1 = i + k ∧
        ds[k]? = some (maxIndexDistanceFrom ds i acc).2)
  | [], i, acc, ha, _ => by simpa [maxIndexDistanceFrom] using float64.le_refl ha
  | d :: ds, i, acc, ha, hn => by
    have hd : d ≠ float64.nan := hn d (by simp)
    have hn' : ∀ e ∈ ds, e ≠ float64.nan := fun e he => hn e (by simp [he])
    unfold maxIndexDistanceFrom
    split_ifs with h
    · obtain ⟨h1, h2, h3⟩ := maxIndexDistanceFrom_spec_float64 ds (i + 1) (i, d) hd hn'
      refine ⟨float64.le_trans (float64.le_of_lt h) h1, ?_, ?_⟩
      · intro e he
        rcases List.mem_cons.mp he with rfl | he
        · exact h1
        · exact h2 e he
      · right
        rcases h3 with h3 | ⟨k, hk, hk1, hk2⟩
        · exact ⟨0, by simp, by simp [h3], by simp [h3]⟩
        · exact ⟨k + 1, by simpa using hk, by rw [hk1]; omega, by simpa using hk2⟩
    · obtain ⟨h1, h2, h3⟩ := maxIndexDistanceFrom_spec_float64 ds (i + 1) acc ha hn'
      refine ⟨h1, ?_, ?_⟩
      · intro e he
        rcases List.mem_cons.mp he with rfl | he
        · exact float64.le_trans (float64.le_of_not_lt ha hd h) h1
        · exact h2 e he
      · rcases h3 with h3 | ⟨k, hk, hk1, hk2⟩
        · left; exact h3
        · right; exact ⟨k + 1, by simpa using hk, by rw [hk1]; omega, by simpa using hk2⟩

/-- On distances without NaN the result of `maxIndexDistance` is an index of the
slice, the value there, and an upper bound of every entry. -/
theorem maxIndexDistance_spec_float64 (distances : List (float64 α)) (h : distances ≠ [])
    (hn : ∀ d ∈ distances, d ≠ float64.nan) :
    ∃ maxindex maxfloat, maxIndexDistance distances = some (maxindex, maxfloat) ∧
      distances[maxindex]? = some maxfloat ∧ ∀ d ∈ distances, d ≤ maxfloat := by
  cases distances with
  | nil => exact absurd rfl h
  | cons d0 rest =>
    obtain ⟨_, h2, h3⟩ := maxIndexDistanceFrom_spec_float64 (d0 :: rest) 0 (0, d0)
      (hn d0 (by simp)) hn
    generalize hr : maxIndexDistanceFrom (d0 :: rest) 0 (0, d0) = r at h2 h3
    refine ⟨r.1, r.2, by simp [maxIndexDistance, hr], ?_, h2⟩
    rcases h3 with h3 | ⟨k, _, hk1, hk2⟩
    · rw [h3]; simp
    · rw [hk1]; simp [hk2]

section SelectionFloat64

variable (distance : String) (log : float64 α → float64 α) (query : theta (float64 α))
  (count : Nat)

theorem calculateDistanceStep_inv_float64 (backend : List (theta (float64 α)))
    (seen : List (float64 α)) (st : SelectState (float64 α)) (v : theta (float64 α))
    (d : float64 α) (hv : v ∈ backend)
    (hd : metric distance log query.Vector v.Vector = some d)
    (hdn : d ≠ float64.nan) (hseen : ∀ s ∈ seen, s ≠ float64.nan)
    (inv : SelectInv distance log query count backend seen st) :
    ∃ st', calculateDistanceStep distance log query count st v = some st' ∧
      SelectInv distance log query count backend (d :: seen) st' := by
  obtain ⟨hidx, hsize, hpair, R, hperm, hle⟩ := inv
  have hne : st.distances ≠ [] := by
    intro h; rw [h] at hsize; simp at hsize
  have hbn : ∀ b ∈ st.distances, b ≠ float64.nan := fun b hb =>
    hseen b (hperm.subset (by simp [hb]))
  have hRn : ∀ r ∈ R, r ≠ float64.nan := fun r hr =>
    hseen r (hperm.subset (by simp [hr]))
  obtain ⟨maxindex, maxfloat, hmax, hget, hub⟩ :=
    maxIndexDistance_spec_float64 st.distances hne hbn
  have hmem : maxfloat ∈ st.distances := List.getElem?_mem hget
  simp only [calculateDistanceStep, if_neg (not_le.mpr hidx), hmax, hd]
  by_cases hlt : d < maxfloat
  · rw [if_pos hlt]
    refine ⟨_, rfl, ⟨hidx, by simpa using hsize, forall₂_set _ hpair ⟨hv, hd⟩,
      maxfloat :: R, ?_, ?_⟩⟩
    · exact (set_append_perm _ _ _ _ _ hget).trans (hperm.cons d)
    · intro b hb r hr
      have hb' : b ∈ st.distances ∨ b = d := List.mem_or_eq_of_mem_set hb
      rcases List.mem_cons.mp hr with rfl | hr
      · rcases hb' with hb' | rfl
        · exact hub b hb'
        · exact float64.le_of_lt hlt
      · rcases hb' with hb' | rfl
        · exact hle b hb' r hr
        · exact float64.le_trans (float64.le_of_lt hlt) (hle _ hmem r hr)
  · rw [if_neg hlt]
    refine ⟨st, rfl, ⟨hidx, hsize, hpair, d :: R, ?_, ?_⟩⟩
    · exact List.perm_middle.trans (hperm.cons d)
    · intro b hb r hr
      rcases List.mem_cons.mp hr with rfl | hr
      · exact float64.le_trans (hub b hb) (float64.le_of_not_lt hdn (hbn _ hmem) hlt)
      · exact hle b hb r hr

theorem foldlM_replace_float64 (backend : List (theta (float64 α))) :
    ∀ (todo : List (theta (float64 α))) (tds seen : List (float64 α))
    (st : SelectState (float64 α)),
    List.Forall₂ (fun v d => metric distance log query.Vector v.Vector = some d) todo tds →
    (∀ v ∈ todo, v ∈ backend) →
    (∀ d ∈ tds, d ≠ float64.nan) → (∀ s ∈ seen, s ≠ float64.nan) →
    SelectInv distance log query count backend seen st →
    ∃ st', todo.foldlM (calculateDistanceStep distance log query count) st = some st' ∧
      SelectInv distance log query count backend (tds.reverse ++ seen) st'
  | _, _, seen, st, List.Forall₂.nil, _, _, _, inv => ⟨st, by simp, by simpa using inv⟩
  | _, _, seen, st, @List.Forall₂.cons _ _ _ v d todo tds hv ht, hmem, htn, hsn, inv => by
    have hdn : d ≠ float64.nan := htn d (by simp)
    obtain ⟨st1, h1, inv1⟩ := calculateDistanceStep_inv_float64 distance log query count backend
      seen st v d (hmem v (by simp)) hv hdn hsn inv
    obtain ⟨st2, h2, inv2⟩ := foldlM_replace_float64 backend todo tds (d :: seen) st1 ht
      (fun w hw => hmem w (by simp [hw])) (fun e he => htn e (by simp [he]))
      (by
        intro s hs
        rcases List.mem_cons.mp hs with rfl | hs
        · exact hdn
        · exact hsn s hs) inv1
    exact ⟨st2, by simp [List.foldlM_cons, h1, h2], by simpa using inv2⟩

/-- The selection loop followed by the sort, for a corpus of at least
`count+1` records whose distances to the query are `all`, none of them NaN. -/
theorem calculateDistance_run_float64 (backend : List (theta (float64 α)))
    (all : List (float64 α))
    (hall : List.Forall₂ (fun v d => metric distance log query.Vector v.Vector = some d)
      backend all)
    (hnan : ∀ d ∈ all, d ≠ float64.nan)
    (hN : count + 1 ≤ backend.length) :
    ∃ st ts ds,
      backend.foldlM (calculateDistanceStep distance log query count)
        ⟨List.replicate (count + 1) (theta.zero (float64 α)),
          List.replicate (count + 1) (0 : float64 α), 0⟩ = some st ∧
      calculateDistance distance log backend query count = some (ts, ds) ∧
      ts.length = count + 1 ∧ ds.length = count + 1 ∧
      List.Sorted (· ≤ ·) ds ∧
      (List.zip ts ds).Perm (List.zip st.thetas st.distances) ∧
      List.Forall₂ (fun v d => v ∈ backend ∧ metric distance log query.Vector v.Vector = some d)
        ts ds ∧
      (∃ rest, (ds ++ rest).Perm all ∧ ∀ a ∈ ds, ∀ b ∈ rest, a ≤ b) ∧
      ds = (List.insertionSort (· ≤ ·) all).take (count + 1) := by
  have hlen : backend.length = all.length := hall.length_eq
  -- the filling phase
  have hfill := foldlM_fill distance log query count (backend.take (count + 1)) []
    (all.take (count + 1)) [] (List.forall₂_take _ hall) rfl (by simp; omega)
  have htl : (backend.take (count + 1)).length = count + 1 := by simp; omega
  rw [htl] at hfill
  simp only [List.nil_append, List.length_nil] at hfill
  -- the replacement phase
  have inv0 : SelectInv distance log query count backend (all.take (count + 1))
      ⟨backend.take (count + 1), all.take (count + 1), count + 1⟩ := by
    refine ⟨Nat.lt_succ_self _, by simp; omega, ?_, [], by simp, by simp⟩
    have := List.forall₂_take (count + 1) hall
    rw [List.forall₂_iff_zip] at this ⊢
    refine ⟨this.1, fun {a b} hab => ⟨?_, this.2 hab⟩⟩
    exact List.mem_of_mem_take (List.of_mem_zip hab).1
  obtain ⟨st, hst, inv⟩ := foldlM_replace_float64 distance log query count backend
    (backend.drop (count + 1)) (all.drop (count + 1)) _ _ (List.forall₂_drop _ hall)
    (fun v hv => List.mem_of_mem_drop hv) (fun d hd => hnan d (List.mem_of_mem_drop hd))
    (fun d hd => hnan d (List.mem_of_mem_take hd)) inv0
  have hrun : backend.foldlM (calculateDistanceStep distance log query count)
      ⟨List.replicate (count + 1) (theta.zero (float64 α)),
        List.replicate (count + 1) (0 : float64 α), 0⟩ = some st := by
    conv_lhs => rw [← List.take_append_drop (count + 1) backend, List.foldlM_append, hfill]
    simpa using hst
  obtain ⟨hidx, hsize, hpair, R, hperm, hle⟩ := inv
  have hlen2 : st.thetas.length = st.distances.length := hpair.length_eq
  obtain ⟨z1, z2, z3⟩ := sortSort_zip ⟨st.thetas, st.distances⟩ hlen2
  have hall' : (st.distances ++ R).Perm all := by
    refine hperm.trans ?_
    have : ((all.drop (count + 1)).reverse ++ all.take (count + 1)).Perm
        (all.take (count + 1) ++ all.drop (count + 1)) :=
      List.perm_append_comm.trans ((List.reverse_perm _).append_left _)
    simpa using this
  have hbn : ∀ b ∈ st.distances, b ≠ float64.nan := fun b hb =>
    hnan b (hall'.subset (by simp [hb]))
  have hRn : ∀ r ∈ R, r ≠ float64.nan := fun r hr =>
    hnan r (hall'.subset (by simp [hr]))
  have hsorted := sortSort_sorted_float64 (⟨st.thetas, st.distances⟩ : dataframe (float64 α)) hbn
  have hds : (sortSort ⟨st.thetas, st.distances⟩).Distances.Perm st.distances := by
    have := z3.map Prod.snd
    rwa [List.map_snd_zip _ _ (le_of_eq z1.symm), List.map_snd_zip _ _ (le_of_eq hlen2.symm)]
      at this
  refine ⟨st, _, _, hrun, by simp [calculateDistance, hrun], ?_, ?_, hsorted, z3,
    forall₂_of_zip_perm z1 z3 hpair, ⟨R, (hds.append_right R).trans hall', ?_⟩, ?_⟩
  · rw [z1, z2]; exact hsize
  · rw [z2]; exact hsize
  · intro a ha b hb
    exact hle a (hds.subset ha) b hb
  · -- the sorted buffer followed by the sorted rest is the sorted list of all distances
    haveI : IsAntisymm (float64 α) (· ≤ ·) := ⟨fun _ _ h1 h2 => float64.le_antisymm h1 h2⟩
    have hcat : (sortSort ⟨st.thetas, st.distances⟩).Distances ++ List.insertionSort (· ≤ ·) R
        = List.insertionSort (· ≤ ·) all := by
      apply List.eq_of_perm_of_sorted (r := (· ≤ ·))
      · exact ((hds.append (List.perm_insertionSort _ R)).trans hall').trans
          (List.perm_insertionSort _ all).symm
      · unfold List.Sorted
        rw [List.pairwise_append]
        refine ⟨hsorted, insertionSort_sorted_float64 R hRn, ?_⟩
        intro a ha b hb
        exact hle a (hds.subset ha) b ((List.perm_insertionSort _ R).subset hb)
      · exact insertionSort_sorted_float64 all hnan
    rw [← hcat, List.take_left']
    rw [z2]; exact hsize

/-- Every distance the selection loop leaves in its buffer is the zero the
buffer was made with or the distance of a corpus record. -/
theorem foldlM_distances (Q : float64 α → Prop) :
    ∀ (backend : List (theta (float64 α))) (st st' : SelectState (float64 α)),
    (∀ v ∈ backend, ∀ d, metric distance log query.Vector v.Vector = some d → Q d) →
    (∀ d ∈ st.distances, Q d) →
    backend.foldlM (calculateDistanceStep distance log query count) st = some st' →
    ∀ d ∈ st'.distances, Q d
  | [], st, st', _, h0, hrun => by
    simp at hrun
    rw [← hrun]; exact h0
  | v :: backend, st, st', hQ, h0, hrun => by
    rw [List.foldlM_cons] at hrun
    cases hstep : calculateDistanceStep distance log query count st v with
    | none => rw [hstep] at hrun; simp at hrun
    | some st1 =>
      rw [hstep] at hrun
      refine foldlM_distances Q backend st1 st' (fun w hw => hQ w (by simp [hw])) ?_
        (by simpa using hrun)
      have hv := hQ v (by simp)
      unfold calculateDistanceStep at hstep
      simp only at hstep
      split_ifs at hstep with hc
      · cases hm : metric distance log query.Vector v.Vector with
        | none => rw [hm] at hstep; simp at hstep
        | some d =>
          rw [hm] at hstep
          simp at hstep
          rw [← hstep]
          intro e he
          rcases List.mem_or_eq_of_mem_set he with he | rfl
          · exact h0 e he
          · exact hv _ hm
      · cases hmax : maxIndexDistance st.distances with
        | none => rw [hmax] at hstep; simp at hstep
        | some r =>
          cases hm : metric distance log query.Vector v.Vector with
          | none => rw [hmax, hm] at hstep; simp at hstep
          | some d =>
            rw [hmax, hm] at hstep
            simp only at hstep
            split_ifs at hstep with hlt
            · simp at hstep
              rw [← hstep]
              intro e he
              rcases List.mem_or_eq_of_mem_set he with he | rfl
              · exact h0 e he
              · exact hv _ hm
            · simp at hstep
              rw [← hstep]; exact h0

/-- For every corpus whose vectors are at least as long as the query's and at
no NaN distance from it, `calculateDistance` returns: the buffers of `count+1`
entries, sorted by distance, holding the same (record, distance) pairs as the
selection loop left. -/
theorem calculateDistance_total_float64 (backend : List (theta (float64 α)))
    (hvec : ∀ v ∈ backend, query.Vector.length ≤ v.Vector.length)
    (hnan : ∀ v ∈ backend, ∀ d, metric distance log query.Vector v.Vector = some d →
      d ≠ float64.nan) :
    ∃ st ts ds,
      backend.foldlM (calculateDistanceStep distance log query count)
        ⟨List.replicate (count + 1) (theta.zero (float64 α)),
          List.replicate (count + 1) (0 : float64 α), 0⟩ = some st ∧
      calculateDistance distance log backend query count = some (ts, ds) ∧
      ts.length = count + 1 ∧ ds.length = count + 1 ∧
      List.Sorted (· ≤ ·) ds ∧
      (List.zip ts ds).Perm (List.zip st.thetas st.distances) := by
  obtain ⟨st, hst, h1, h2⟩ := foldlM_total distance log query count backend
    ⟨List.replicate (count + 1) (theta.zero (float64 α)),
      List.replicate (count + 1) (0 : float64 α), 0⟩ hvec (by simp) (by simp)
  have hbn : ∀ d ∈ st.distances, d ≠ float64.nan :=
    foldlM_distances distance log query count (fun d => d ≠ float64.nan) backend _ st hnan
      (by
        intro d hd
        rw [(List.mem_replicate.mp hd).2]
        exact float64.zero_ne_nan) hst
  obtain ⟨z1, z2, z3⟩ := sortSort_zip ⟨st.thetas, st.distances⟩ (h1.trans h2.symm)
  refine ⟨st, _, _, hst, by simp [calculateDistance, hst], ?_, ?_,
    sortSort_sorted_float64 (⟨st.thetas, st.distances⟩ : dataframe (float64 α)) hbn, z3⟩
  · rw [z1, z2]; exact h2
  · rw [z2]; exact h2

end SelectionFloat64

end Float64Lemmas

/-! ## The claims -/

/-- Claim C1 fails as stated: under `"jsd"`, on the corpus `a = [-1]`, `b = [2]`,
`c = [1]` with the query `c` and `count = 0`, the distance of `a` is NaN; it
fills the only slot and stays there, since no distance is below NaN, so the
function returns the pair of `a` and NaN although the record `c` is at
distance zero. -/
theorem calculateDistance_smallest_counterexample :
    calculateDistance "jsd" (float64.Log Real.log)
      [point ℝ "a" (-1), point ℝ "b" 2, point ℝ "c" 1] (point ℝ "c" 1) 0
      = some ([point ℝ "a" (-1)], [float64.nan]) ∧
    metric "jsd" (float64.Log Real.log) (point ℝ "c" 1).Vector (point ℝ "a" (-1)).Vector
      = some float64.nan ∧
    metric "jsd" (float64.Log Real.log) (point ℝ "c" 1).Vector (point ℝ "c" 1).Vector
      = some 0 ∧
    ¬ ((float64.nan : float64 ℝ) ≤ 0) := by
  have ha : metric "jsd" (float64.Log Real.log) [float64.fin (1 : ℝ)] [float64.fin (-1)]
      = some float64.nan := by
    simp [metric, jensenShannon, jensenShannonFrom, float64.zero_def, float64.ofScientific_def,
      float64.add_def, float64.sub_def, float64.mul_def, float64.add, float64.sub, float64.mul,
      float64.Log, float64.overflow, float64.mulInf, MaxFloat64]
    norm_num
  have hc : metric "jsd" (float64.Log Real.log) [float64.fin (1 : ℝ)] [float64.fin 1]
      = some 0 := by
    have := jensenShannonFrom_self_float64 Real.log [float64.fin (1 : ℝ)] []
      (by
        intro v hv
        simp at hv
        refine ⟨1, hv, by norm_num, ?_⟩
        unfold MaxFloat64
        norm_num)
    simpa [metric, jensenShannon] using this
  obtain ⟨d, hb⟩ := metric_returns "jsd" (float64.Log Real.log) [float64.fin (1 : ℝ)]
    [float64.fin 2] (by simp)
  refine ⟨?_, by simpa [point] using ha, by simpa [point] using hc, float64.not_nan_le _⟩
  simp [calculateDistance, calculateDistanceStep, point, ha, hb, hc, maxIndexDistance,
    maxIndexDistanceFrom, float64.not_lt_nan, float64.not_nan_lt, sortSort, dataframe.Len]

/-- Claim C1, amended: for a corpus of at least `count+1` records whose vectors
have the query's length and none of which is at a NaN distance from the query,
the in-memory branch of `calculateDistance` returns `count+1` (record,
distance) pairs; each record is a corpus record and each distance is the
configured metric between the query vector and that record's vector; and the
returned distances are the `count+1` smallest of the distances `all` from the
query to all corpus records: `all` is, up to order, the returned distances
followed by a rest that none of the returned ones exceeds, and the returned
distances are the first `count+1` entries of `all` put in order. -/
theorem calculateDistance_smallest {α : Type} [LinearOrderedField α] (distance : String)
    (log : float64 α → float64 α) (backend : List (theta (float64 α)))
    (query : theta (float64 α)) (count : Nat)
    (hN : count + 1 ≤ backend.length)
    (hvec : ∀ v ∈ backend, v.Vector.length = query.Vector.length)
    (hnan : ∀ v ∈ backend, ∀ d, metric distance log query.Vector v.Vector = some d →
      d ≠ float64.nan) :
    ∃ ts ds all,
      calculateDistance distance log backend query count = some (ts, ds) ∧
      ts.length = count + 1 ∧ ds.length = count + 1 ∧
      List.Forall₂ (fun v d => v ∈ backend ∧ metric distance log query.Vector v.Vector = some d)
        ts ds ∧
      List.Forall₂ (fun v d => metric distance log query.Vector v.Vector = some d) backend all ∧
      (∃ rest, (ds ++ rest).Perm all ∧ ∀ a ∈ ds, ∀ b ∈ rest, a ≤ b) ∧
      ds = (List.insertionSort (· ≤ ·) all).take (count + 1) ∧
      (ds : Multiset (float64 α))
        = ((List.insertionSort (· ≤ ·) all).take (count + 1) : List (float64 α)) := by
  obtain ⟨all, hall⟩ := exists_forall₂ (P := fun (v : theta (float64 α)) d =>
    metric distance log query.Vector v.Vector = some d) backend
    (fun v hv => metric_returns distance log _ _ (le_of_eq (hvec v hv).symm))
  have hall' : ∀ d ∈ all, d ≠ float64.nan := by
    intro d hd
    obtain ⟨v, hv, hvd⟩ := forall₂_mem_right hall d hd
    exact hnan v hv d hvd
  obtain ⟨st, ts, ds, _, h2, h3, h4, _, _, h7, h8, h9⟩ :=
    calculateDistance_run_float64 distance log query count backend all hall hall' hN
  exact ⟨ts, ds, all, h2, h3, h4, h7, hall, h8, h9, by rw [← h9]⟩

/-- Claim C1 amended, at the scenario of the specification with the corpus in
the order `d`, `c`, `b`, `a`: query `a`, `count = 2`, under `manhattan`, for
which no distance is NaN. -/
theorem calculateDistance_smallest_witness :
    ∃ ts ds all,
      calculateDistance "manhattan" (float64.Log Real.log) (shuffledCorpus ℝ) (shuffledQuery ℝ) 2
        = some (ts, ds) ∧
      ts.length = 2 + 1 ∧ ds.length = 2 + 1 ∧
      List.Forall₂ (fun v d => v ∈ shuffledCorpus ℝ ∧
        metric "manhattan" (float64.Log Real.log) (shuffledQuery ℝ).Vector v.Vector = some d)
        ts ds ∧
      List.Forall₂ (fun v d => metric "manhattan" (float64.Log Real.log)
        (shuffledQuery ℝ).Vector v.Vector = some d) (shuffledCorpus ℝ) all ∧
      (∃ rest, (ds ++ rest).Perm all ∧ ∀ a ∈ ds, ∀ b ∈ rest, a ≤ b) ∧
      ds = (List.insertionSort (· ≤ ·) all).take (2 + 1) ∧
      (ds : Multiset (float64 ℝ))
        = ((List.insertionSort (· ≤ ·) all).take (2 + 1) : List (float64 ℝ)) :=
  calculateDistance_smallest "manhattan" (float64.Log Real.log) (shuffledCorpus ℝ)
    (shuffledQuery ℝ) 2 (by decide) (by decide)
    (fun _ _ d h => metric_ne_nan "manhattan" _ _ _ d (by decide) h)

/-- Claim C2 fails as stated: under `"jsd"`, on the corpus `b = [2]`, `a = [-1]`,
`c = [1]` with the query `c` and `count = 2`, the returned distances are those
of `b`, `a`, `c` in corpus order, the second is NaN and the third is zero:
neither adjacent pair is in order, every comparison with NaN being false. -/
theorem calculateDistance_sorted_counterexample :
    ∃ d, metric "jsd" (float64.Log Real.log) (point ℝ "c" 1).Vector (point ℝ "b" 2).Vector
        = some d ∧
      calculateDistance "jsd" (float64.Log Real.log)
        [point ℝ "b" 2, point ℝ "a" (-1), point ℝ "c" 1] (point ℝ "c" 1) 2
        = some ([point ℝ "b" 2, point ℝ "a" (-1), point ℝ "c" 1], [d, float64.nan, 0]) ∧
      ¬ d ≤ float64.nan ∧ ¬ (float64.nan : float64 ℝ) ≤ 0 ∧
      ¬ List.Sorted (· ≤ ·) [d, float64.nan, 0] := by
  have ha : metric "jsd" (float64.Log Real.log) [float64.fin (1 : ℝ)] [float64.fin (-1)]
      = some float64.nan := by
    simp [metric, jensenShannon, jensenShannonFrom, float64.zero_def, float64.ofScientific_def,
      float64.add_def, float64.sub_def, float64.mul_def, float64.add, float64.sub, float64.mul,
      float64.Log, float64.overflow, float64.mulInf, MaxFloat64]
    norm_num
  have hc : metric "jsd" (float64.Log Real.log) [float64.fin (1 : ℝ)] [float64.fin 1]
      = some 0 := by
    have := jensenShannonFrom_self_float64 Real.log [float64.fin (1 : ℝ)] []
      (by
        intro v hv
        simp at hv
        refine ⟨1, hv, by norm_num, ?_⟩
        unfold MaxFloat64
        norm_num)
    simpa [metric, jensenShannon] using this
  obtain ⟨d, hb⟩ := metric_returns "jsd" (float64.Log Real.log) [float64.fin (1 : ℝ)]
    [float64.fin 2] (by simp)
  refine ⟨d, by simpa [point] using hb, ?_, float64.not_le_nan _, float64.not_nan_le _, ?_⟩
  · have hr : List.range' 1 2 = [1, 2] := rfl
    simp [calculateDistance, calculateDistanceStep, point, ha, hb, hc, sortSort, dataframe.Len,
      hr, insertionSortInner, dataframe.Less, float64.not_lt_nan, float64.not_nan_lt]
  · intro h
    exact float64.not_le_nan d (List.rel_of_sorted_cons h _ (by simp))

/-- Claim C2, amended: for every corpus none of whose records is at a NaN
distance from the query, whenever `calculateDistance` returns, which it does
exactly when no metric call panics (every corpus vector is at least as long as
the query's), the returned distances are sorted non-decreasing, each adjacent
pair included, and the (record, distance) pairs at the output positions are,
up to order, the pairs the selection loop left in its two buffers: `sort.Sort`
moved every record together with its distance. -/
theorem calculateDistance_sorted {α : Type} [LinearOrderedField α] (distance : String)
    (log : float64 α → float64 α) (backend : List (theta (float64 α)))
    (query : theta (float64 α)) (count : Nat)
    (hvec : ∀ v ∈ backend, query.Vector.length ≤ v.Vector.length)
    (hnan : ∀ v ∈ backend, ∀ d, metric distance log query.Vector v.Vector = some d →
      d ≠ float64.nan) :
    ∃ st ts ds,
      backend.foldlM (calculateDistanceStep distance log query count)
        ⟨List.replicate (count + 1) (theta.zero (float64 α)),
          List.replicate (count + 1) (0 : float64 α), 0⟩ = some st ∧
      calculateDistance distance log backend query count = some (ts, ds) ∧
      List.Sorted (· ≤ ·) ds ∧ List.Chain' (· ≤ ·) ds ∧
      ts.length = ds.length ∧
      (List.zip ts ds).Perm (List.zip st.thetas st.distances) := by
  obtain ⟨st, ts, ds, h1, h2, h3, h4, h5, h6⟩ :=
    calculateDistance_total_float64 distance log query count backend hvec hnan
  exact ⟨st, ts, ds, h1, h2, h5, List.Pairwise.chain' h5, h3.trans h4.symm, h6⟩

/-- Claim C2 amended, at the scenario of the specification under `"jsd"` with the
corpus in the order `d`, `c`, `b`, `a`, where the buffers are out of order
before the sort. -/
theorem calculateDistance_sorted_witness :
    ∃ st ts ds,
      (shuffledCorpus ℝ).foldlM
        (calculateDistanceStep "jsd" (float64.Log Real.log) (shuffledQuery ℝ) 2)
        ⟨List.replicate (2 + 1) (theta.zero (float64 ℝ)),
          List.replicate (2 + 1) (0 : float64 ℝ), 0⟩ = some st ∧
      calculateDistance "jsd" (float64.Log Real.log) (shuffledCorpus ℝ) (shuffledQuery ℝ) 2
        = some (ts, ds) ∧
      List.Sorted (· ≤ ·) ds ∧ List.Chain' (· ≤ ·) ds ∧
      ts.length = ds.length ∧
      (List.zip ts ds).Perm (List.zip st.thetas st.distances) :=
  calculateDistance_sorted "jsd" (float64.Log Real.log) (shuffledCorpus ℝ)
    (shuffledQuery ℝ) 2 (by decide)
    (fun v hv d h => metric_ne_nan_of_weights "jsd" _ _ d
      (by
        intro w hw
        simp only [shuffledQuery, List.mem_cons, List.mem_singleton, List.not_mem_nil,
          or_false] at hw
        rcases hw with rfl | rfl <;> exact ⟨_, rfl, Or.inr (by norm_num)⟩)
      (by
        intro w hw
        simp only [shuffledCorpus, List.mem_cons, List.mem_singleton, List.not_mem_nil,
          or_false] at hv
        rcases hv with rfl | rfl | rfl | rfl <;>
          simp only [List.mem_cons, List.mem_singleton, List.not_mem_nil, or_false] at hw <;>
          rcases hw with rfl | rfl <;> exact ⟨_, rfl, Or.inr (by norm_num)⟩) h)

/-- Claim C3 fails as stated: on a corpus of one record and `count = 2` the
function returns three pairs (the record and two zero-valued fillers), not
`min (2+1) 1 = 1`. -/
theorem calculateDistance_length_counterexample :
    calculateDistance "manhattan" (fun _ => 0) [exampleQuery] exampleQuery 2
      = some ([exampleQuery, theta.zero ℚ, theta.zero ℚ], [0, 0, 0]) ∧
    [exampleQuery, theta.zero ℚ, theta.zero ℚ].length ≠ min (2 + 1) [exampleQuery].length := by
  constructor
  · have hr : List.range' 1 2 = [1, 2] := rfl
    simp [calculateDistance, calculateDistanceStep, metric, manhattan, manhattanFrom, mpair,
      sortSort, insertionSortInner, dataframe.Less, dataframe.Len, exampleQuery,
      List.replicate, theta.zero, hr]
  · decide

/-- Claim C3, amended: the number of (record, distance) pairs `calculateDistance`
returns is `count+1` for every corpus size, both buffers being allocated with
`count+1` entries and never resized; this is `min (count+1) N` when the corpus
has at least `count+1` records. -/
theorem calculateDistance_length {α : Type} [LinearOrderedField α] (distance : String)
    (log : α → α) (backend : List (theta α)) (query : theta α) (count : Nat)
    (hvec : ∀ v ∈ backend, query.Vector.length ≤ v.Vector.length) :
    ∃ ts ds,
      calculateDistance distance log backend query count = some (ts, ds) ∧
      ts.length = count + 1 ∧ ds.length = count + 1 ∧
      (count + 1 ≤ backend.length → ts.length = min (count + 1) backend.length) := by
  obtain ⟨st, ts, ds, _, h2, h3, h4, _, _⟩ :=
    calculateDistance_total distance log backend query count hvec
  exact ⟨ts, ds, h2, h3, h4, fun h => by rw [h3, Nat.min_eq_left h]⟩

/-- Claim C3 amended, at the scenario of the specification. -/
theorem calculateDistance_length_witness :
    ∃ ts ds,
      calculateDistance "manhattan" (fun _ => 0) exampleCorpus exampleQuery 2 = some (ts, ds) ∧
      ts.length = 2 + 1 ∧ ds.length = 2 + 1 ∧
      (2 + 1 ≤ exampleCorpus.length → ts.length = min (2 + 1) exampleCorpus.length) :=
  calculateDistance_length "manhattan" (fun _ => 0) exampleCorpus exampleQuery 2 (by decide)

/-- Claim C4 fails on the code: a single worker on four records with distinct
identifiers, its one slice `[0, 4)` in bounds, and a threshold above every
score emits seven edges and not `4*3/2 = 6`; rows 2 and 3 are paired twice, as
`(2, 3)` and as `(3, 2)`, because the inner loop of `prepareCSVs` restarts at
`startInd + 1` for every source row. -/
theorem DivergenceCSV_repeats_pair :
    (DivergenceCSV (fun _ => 0) zeroCorpus 1 1 1).map
        (fun o => o.map fun shards =>
          (shards.flatMap fun p => p.2).map fun e => (e.SourceID, e.TargetID))
      = [some [("1", "2"), ("1", "3"), ("1", "4"), ("2", "3"), ("2", "4"), ("3", "2"),
          ("3", "4")]] ∧
    DivergenceCSVBounds zeroCorpus.length 1 = [(0, 4)] ∧
    7 ≠ 4 * (4 - 1) / 2 := by
  decide

/-- Claim C5: for a corpus whose vectors all have one length, `DivergenceJS`
returns exactly the edges `(ID of row i, ID of row j, jensenShannon of the two
vectors)` over the pairs `i < j < N` in lexicographic order whose score is
strictly below `DivMax` (`trianglePairs N` holds exactly those pairs, in
strictly increasing lexicographic order); there are `N*(N-1)/2` of them when `DivMax` exceeds
every score, and none when `N ≤ 1`. -/
theorem DivergenceJS_edges {α : Type} [LinearOrderedField α] (log : α → α)
    (backend : List (theta α)) (DivMax : α)
    (hvec : ∀ v ∈ backend, ∀ w ∈ backend, v.Vector.length = w.Vector.length) :
    DivergenceJS log backend DivMax = some (DivergenceJSSpec log backend DivMax) ∧
    (∀ i j, (i, j) ∈ trianglePairs backend.length ↔ i < j ∧ j < backend.length) ∧
    List.Sorted (Prod.Lex (· < ·) (· < ·)) (trianglePairs backend.length) ∧
    ((∀ v ∈ backend, ∀ w ∈ backend, ∀ d,
        jensenShannon log v.Vector w.Vector = some d → d < DivMax) →
      (DivergenceJSSpec log backend DivMax).length
        = backend.length * (backend.length - 1) / 2) ∧
    (backend.length ≤ 1 → DivergenceJSSpec log backend DivMax = []) := by
  refine ⟨DivergenceJS_eq_spec log backend DivMax (fun v hv w hw => le_of_eq (hvec v hv w hw)),
    fun i j => mem_trianglePairs _ i j, sorted_trianglePairs _, ?_, ?_⟩
  · intro hmax
    rw [DivergenceJSSpec, length_filterMap_of_isSome, length_trianglePairs]
    rintro ⟨i, j⟩ hp
    rw [mem_trianglePairs] at hp
    have hi : i < backend.length := by omega
    obtain ⟨d, hd⟩ := jensenShannon_isSome log backend[i].Vector backend[j].Vector
      (le_of_eq (hvec _ (List.getElem_mem hi) _ (List.getElem_mem hp.2)))
    have hlt := hmax _ (List.getElem_mem hi) _ (List.getElem_mem hp.2) d hd
    exact ⟨⟨backend[i].ID, backend[j].ID, d⟩, by
      simp [pairEdge, edgeJS, List.getElem?_eq_getElem hi, List.getElem?_eq_getElem hp.2, hd, hlt]⟩
  · intro h
    have : trianglePairs backend.length = [] := by
      have h' : backend.length = 0 ∨ backend.length = 1 := by omega
      rcases h' with h' | h' <;> rw [h'] <;> decide
    simp [DivergenceJSSpec, this]

/-- Claim C5 at four records with all-zero vectors. -/
theorem DivergenceJS_edges_witness :
    DivergenceJS (fun _ => 0) zeroCorpus 1 = some (DivergenceJSSpec (fun _ => 0) zeroCorpus 1) ∧
    (∀ i j, (i, j) ∈ trianglePairs zeroCorpus.length ↔ i < j ∧ j < zeroCorpus.length) ∧
    List.Sorted (Prod.Lex (· < ·) (· < ·)) (trianglePairs zeroCorpus.length) ∧
    ((∀ v ∈ zeroCorpus, ∀ w ∈ zeroCorpus, ∀ d,
        jensenShannon (fun _ => 0) v.Vector w.Vector = some d → d < 1) →
      (DivergenceJSSpec (fun _ => 0) zeroCorpus 1).length
        = zeroCorpus.length * (zeroCorpus.length - 1) / 2) ∧
    (zeroCorpus.length ≤ 1 → DivergenceJSSpec (fun _ => 0) zeroCorpus 1 = []) :=
  DivergenceJS_edges (fun _ => 0) zeroCorpus 1 (by decide)

/-- Claim C6 fails as stated: for four rows and two workers the first range is
`[0, 3)`, of size 3 and not `ceil(4/2) = 2`, and row 2 lies in both ranges. -/
theorem DivergenceCSVBounds_overlap_counterexample :
    DivergenceCSVBounds 4 2 = [(0, 3), (2, 4)] ∧
    (0 ≤ 2 ∧ 2 < 3) ∧ (2 ≤ 2 ∧ 2 < 4) ∧ 3 - 0 ≠ (4 + 2 - 1) / 2 := by
  decide

/-- Claim C6, amended: with `chunkSize = ceil(N/W)`, `DivergenceCSV` computes `W`
ranges; every range but the last is `[i*chunkSize, i*chunkSize+chunkSize+1)`,
of size `chunkSize+1`, and ends one row past the start of the next range, so
consecutive ranges are contiguous and overlap in that one row; the last range
is `[(W-1)*chunkSize, N)`; and every row of `[0, N)` lies in some range. -/
theorem DivergenceCSVBounds_ranges (n numCPU : Nat) (hW : 1 ≤ numCPU) :
    (n ≤ chunkSize n numCPU * numCPU ∧ chunkSize n numCPU * numCPU < n + numCPU) ∧
    (DivergenceCSVBounds n numCPU).length = numCPU ∧
    (∀ i, i + 1 < numCPU → (DivergenceCSVBounds n numCPU)[i]?
      = some (i * chunkSize n numCPU, i * chunkSize n numCPU + chunkSize n numCPU + 1)) ∧
    (DivergenceCSVBounds n numCPU)[numCPU - 1]? = some ((numCPU - 1) * chunkSize n numCPU, n) ∧
    (∀ i b b', i + 1 < numCPU → (DivergenceCSVBounds n numCPU)[i]? = some b →
      (DivergenceCSVBounds n numCPU)[i + 1]? = some b' →
      b.2 - b.1 = chunkSize n numCPU + 1 ∧ b.2 = b'.1 + 1) ∧
    (∀ r, r < n → ∃ b ∈ DivergenceCSVBounds n numCPU, b.1 ≤ r ∧ r < b.2) := by
  have hceil := chunkSize_ceil n numCPU hW
  have hget : ∀ i, i < numCPU → (DivergenceCSVBounds n numCPU)[i]? = some
      (if i ≥ numCPU - 1 then (i * chunkSize n numCPU, n)
        else (i * chunkSize n numCPU, i * chunkSize n numCPU + chunkSize n numCPU + 1)) := by
    intro i hi
    rw [bounds_eq, List.getElem?_map, List.getElem?_range hi]
    rfl
  have hmid : ∀ i, i + 1 < numCPU → (DivergenceCSVBounds n numCPU)[i]?
      = some (i * chunkSize n numCPU, i * chunkSize n numCPU + chunkSize n numCPU + 1) := by
    intro i hi
    rw [hget i (by omega), if_neg (by omega)]
  have hlast : (DivergenceCSVBounds n numCPU)[numCPU - 1]?
      = some ((numCPU - 1) * chunkSize n numCPU, n) := by
    rw [hget (numCPU - 1) (by omega), if_pos (le_refl _)]
  refine ⟨hceil, by simp [bounds_eq], hmid, hlast, ?_, ?_⟩
  · intro i b b' hi hb hb'
    rw [hmid i hi] at hb
    have hb1 := (Option.some.inj hb).symm
    subst hb1
    have hfst : b'.1 = (i + 1) * chunkSize n numCPU := by
      rw [hget (i + 1) (by omega)] at hb'
      have := (Option.some.inj hb').symm
      subst this
      split_ifs <;> rfl
    rw [hfst, Nat.add_mul]
    simp only
    omega
  · intro r hr
    have hc : 1 ≤ chunkSize n numCPU := by
      by_contra hc
      have : chunkSize n numCPU = 0 := by omega
      rw [this] at hceil
      omega
    by_cases hq : r / chunkSize n numCPU + 1 < numCPU
    · refine ⟨_, List.getElem?_mem (hmid _ hq), Nat.div_mul_le_self r _, ?_⟩
      have := Nat.lt_div_mul_add (a := r) hc
      simp only
      omega
    · refine ⟨_, List.getElem?_mem hlast, ?_, hr⟩
      have h1 : numCPU - 1 ≤ r / chunkSize n numCPU := by omega
      exact (Nat.mul_le_mul_right _ h1).trans (Nat.div_mul_le_self r _)

/-- Claim C6 amended, at four rows and two workers. -/
theorem DivergenceCSVBounds_ranges_witness :
    (4 ≤ chunkSize 4 2 * 2 ∧ chunkSize 4 2 * 2 < 4 + 2) ∧
    (DivergenceCSVBounds 4 2).length = 2 ∧
    (∀ i, i + 1 < 2 → (DivergenceCSVBounds 4 2)[i]?
      = some (i * chunkSize 4 2, i * chunkSize 4 2 + chunkSize 4 2 + 1)) ∧
    (DivergenceCSVBounds 4 2)[2 - 1]? = some ((2 - 1) * chunkSize 4 2, 4) ∧
    (∀ i b b', i + 1 < 2 → (DivergenceCSVBounds 4 2)[i]? = some b →
      (DivergenceCSVBounds 4 2)[i + 1]? = some b' →
      b.2 - b.1 = chunkSize 4 2 + 1 ∧ b.2 = b'.1 + 1) ∧
    (∀ r, r < 4 → ∃ b ∈ DivergenceCSVBounds 4 2, b.1 ≤ r ∧ r < b.2) :=
  DivergenceCSVBounds_ranges 4 2 (by decide)

/-- Claim C7: for every worker slice, start index, threshold and capacity of any
sign, `prepareCSVs` returns (no metric call panicking) with at least one shard
written, and the rows of its shards, concatenated in write order, are exactly
the edges that passed the threshold, in the order they were computed: none is
dropped and none is written twice. -/
theorem prepareCSVs_shards {α : Type} [LinearOrderedField α] (log : α → α)
    (backend : List (theta α)) (DivMax : α) (FileLimit : Int) (temptheta : List (theta α))
    (startInd : Nat)
    (hvec : ∀ v ∈ temptheta, ∀ w ∈ backend, v.Vector.length ≤ w.Vector.length) :
    ∃ shards, prepareCSVs log backend DivMax FileLimit temptheta startInd = some shards ∧
      1 ≤ shards.length ∧
      shards.flatMap (fun p => p.2) = prepareCSVsEdges log backend DivMax temptheta startInd := by
  obtain ⟨shards, h1, h2, h3⟩ :=
    prepareCSVs_rows log backend DivMax FileLimit temptheta startInd hvec
  exact ⟨shards, h1, List.length_pos.mpr h2, h3⟩

/-- Claim C7 at four records, one worker and a negative capacity. -/
theorem prepareCSVs_shards_witness :
    ∃ shards, prepareCSVs (fun _ => 0) zeroCorpus 1 (-1) zeroCorpus 0 = some shards ∧
      1 ≤ shards.length ∧
      shards.flatMap (fun p => p.2) = prepareCSVsEdges (fun _ => 0) zeroCorpus 1 zeroCorpus 0 :=
  prepareCSVs_shards (fun _ => 0) zeroCorpus 1 (-1) zeroCorpus 0 (by decide)

/-- Claim C8: every edge in a shard of a worker run on `backend[startInd:stop]`
with that `startInd` has as source and target the decimal renderings of row
numbers `s` and `t` between 1 and `N`, its score is `jensenShannon` of the
vectors of rows `s-1` and `t-1`, and the ID map, whose record 0 is the header
and whose record `k` is `(k, ID of row k-1)` for the `N` rows, sends `s` and `t`
to the identifiers of those two records. -/
theorem prepareCSVs_row_indices {α : Type} [LinearOrderedField α] (log : α → α)
    (backend : List (theta α)) (DivMax : α) (FileLimit : Int) (startInd stop : Nat)
    (temptheta : List (theta α))
    (hslice : slice backend startInd stop = some temptheta)
    (hvec : ∀ v ∈ backend, ∀ w ∈ backend, v.Vector.length = w.Vector.length) :
    ∃ shards, prepareCSVs log backend DivMax FileLimit temptheta startInd = some shards ∧
      (∀ shard ∈ shards, ∀ edge ∈ shard.2, ∃ s t v w,
        1 ≤ s ∧ s ≤ backend.length ∧ 1 ≤ t ∧ t ≤ backend.length ∧
        edge.SourceID = Itoa s ∧ edge.TargetID = Itoa t ∧
        backend[s - 1]? = some v ∧ backend[t - 1]? = some w ∧
        jensenShannon log v.Vector w.Vector = some edge.JSDivergence ∧
        (writeIDMap backend)[s]? = some [edge.SourceID, v.ID] ∧
        (writeIDMap backend)[t]? = some [edge.TargetID, w.ID]) ∧
      (writeIDMap backend).length = backend.length + 1 ∧
      (writeIDMap backend)[0]? = some ["MetalloID", "OriginalID"] ∧
      (∀ k v, backend[k]? = some v →
        (writeIDMap backend)[k + 1]? = some [Itoa (k + 1), v.ID]) := by
  have hsub : ∀ v ∈ temptheta, v ∈ backend := by
    intro v hv
    obtain ⟨i, hi⟩ := List.mem_iff_getElem?.mp hv
    exact List.getElem?_mem (slice_getElem? backend temptheta startInd stop i v hslice hi).1
  obtain ⟨shards, h1, _, h3⟩ := prepareCSVs_rows log backend DivMax FileLimit temptheta startInd
    (fun v hv w hw => le_of_eq (hvec v (hsub v hv) w hw))
  obtain ⟨m1, m2, m3⟩ := writeIDMap_rows backend
  refine ⟨shards, h1, ?_, m1, m2, m3⟩
  intro shard hshard edge hedge
  have hmem : edge ∈ prepareCSVsEdges log backend DivMax temptheta startInd := by
    rw [← h3, List.mem_flatMap]
    exact ⟨shard, hshard, hedge⟩
  obtain ⟨i, j, v, w, hv, hw, hjs, hs, ht⟩ :=
    mem_prepareCSVsEdges log backend DivMax temptheta startInd edge hmem
  obtain ⟨hv', hlt, hle⟩ := slice_getElem? backend temptheta startInd stop i v hslice hv
  have hj : j < backend.length := by
    by_contra hc
    rw [List.getElem?_eq_none (by omega)] at hw
    cases hw
  refine ⟨startInd + (i + 1), j + 1, v, w, by omega, by omega, by omega, by omega, hs, ht,
    by simpa [← Nat.add_assoc] using hv', by simpa using hw, hjs, ?_, ?_⟩
  · rw [hs]; exact m3 (startInd + i) v hv'
  · rw [ht]; exact m3 j w hw

/-- Claim C8 at the first of two workers on four records. -/
theorem prepareCSVs_row_indices_witness :
    ∃ shards, prepareCSVs (fun _ => 0) zeroCorpus 1 1 (zeroCorpus.take 3) 0 = some shards ∧
      (∀ shard ∈ shards, ∀ edge ∈ shard.2, ∃ s t v w,
        1 ≤ s ∧ s ≤ zeroCorpus.length ∧ 1 ≤ t ∧ t ≤ zeroCorpus.length ∧
        edge.SourceID = Itoa s ∧ edge.TargetID = Itoa t ∧
        zeroCorpus[s - 1]? = some v ∧ zeroCorpus[t - 1]? = some w ∧
        jensenShannon (fun _ => 0) v.Vector w.Vector = some edge.JSDivergence ∧
        (writeIDMap zeroCorpus)[s]? = some [edge.SourceID, v.ID] ∧
        (writeIDMap zeroCorpus)[t]? = some [edge.TargetID, w.ID]) ∧
      (writeIDMap zeroCorpus).length = zeroCorpus.length + 1 ∧
      (writeIDMap zeroCorpus)[0]? = some ["MetalloID", "OriginalID"] ∧
      (∀ k v, zeroCorpus[k]? = some v →
        (writeIDMap zeroCorpus)[k + 1]? = some [Itoa (k + 1), v.ID]) :=
  prepareCSVs_row_indices (fun _ => 0) zeroCorpus 1 1 0 3 (zeroCorpus.take 3) rfl (by decide)

/-- Claim C9: over the reals, for vectors of equal length `manhattan` returns a
non-negative number, and for vectors of equal length with non-negative entries
`jensenShannon` with the natural logarithm returns a non-negative number, the
sum of the contributions of the dimensions, each of which is non-negative. -/
theorem metrics_nonneg (x y : List ℝ) (h : x.length = y.length) :
    (∃ d, manhattan x y = some d ∧ 0 ≤ d) ∧
    ((∀ a ∈ x, 0 ≤ a) → (∀ b ∈ y, 0 ≤ b) →
      ∃ d, jensenShannon Real.log x y = some d ∧ 0 ≤ d ∧
        d = (List.zipWith (jsTerm Real.log) x y).sum ∧
        ∀ c ∈ List.zipWith (jsTerm Real.log) x y, 0 ≤ c) := by
  constructor
  · refine ⟨_, manhattan_eq x y (le_of_eq h), List.sum_nonneg ?_⟩
    exact zipWith_forall mpair (fun c => 0 ≤ c) x y (fun a _ b _ => mpair_nonneg a b)
  · intro hx hy
    have hterms : ∀ c ∈ List.zipWith (jsTerm Real.log) x y, 0 ≤ c :=
      zipWith_forall (jsTerm Real.log) (fun c => 0 ≤ c) x y
        (fun a ha b hb => jsTerm_nonneg a b (hx a ha) (hy b hb))
    exact ⟨_, jensenShannon_eq Real.log x y (le_of_eq h), List.sum_nonneg hterms, rfl, hterms⟩

/-- Claim C9 at two vectors of length two, one with a zero entry. -/
theorem metrics_nonneg_witness :
    (∃ d, manhattan [(1 : ℝ) / 2, 0] [3 / 10, 7 / 10] = some d ∧ 0 ≤ d) ∧
    (∃ d, jensenShannon Real.log [(1 : ℝ) / 2, 0] [3 / 10, 7 / 10] = some d ∧ 0 ≤ d ∧
        d = (List.zipWith (jsTerm Real.log) [(1 : ℝ) / 2, 0] [3 / 10, 7 / 10]).sum ∧
        ∀ c ∈ List.zipWith (jsTerm Real.log) [(1 : ℝ) / 2, 0] [3 / 10, 7 / 10], 0 ≤ c) :=
  ⟨(metrics_nonneg [(1 : ℝ) / 2, 0] [3 / 10, 7 / 10] rfl).1,
    (metrics_nonneg [(1 : ℝ) / 2, 0] [3 / 10, 7 / 10] rfl).2
      (by intro a ha; simp at ha; rcases ha with rfl | rfl <;> norm_num)
      (by intro b hb; simp at hb; rcases hb with rfl | rfl <;> norm_num)⟩

/-- Claim C10: for vectors of equal length, over any ordered field and so over
the reals with the natural logarithm, `manhattan` and `jensenShannon` return
the same number with the arguments exchanged. -/
theorem metrics_symm {α : Type} [LinearOrderedField α] (log : α → α) (x y : List α)
    (h : x.length = y.length) :
    (∃ d, manhattan x y = some d ∧ manhattan y x = some d) ∧
    (∃ d, jensenShannon log x y = some d ∧ jensenShannon log y x = some d) := by
  constructor
  · refine ⟨_, manhattan_eq x y (le_of_eq h), ?_⟩
    rw [manhattan_eq y x (le_of_eq h.symm), zipWith_comm_of mpair mpair_comm]
  · refine ⟨_, jensenShannon_eq log x y (le_of_eq h), ?_⟩
    rw [jensenShannon_eq log y x (le_of_eq h.symm), zipWith_comm_of (jsTerm log) (jsTerm_comm log)]

/-- Claim C10 over the reals with the natural logarithm. -/
theorem metrics_symm_witness :
    (∃ d, manhattan [(1 : ℝ) / 2, 0] [3 / 10, 7 / 10] = some d ∧
      manhattan [3 / 10, 7 / 10] [(1 : ℝ) / 2, 0] = some d) ∧
    (∃ d, jensenShannon Real.log [(1 : ℝ) / 2, 0] [3 / 10, 7 / 10] = some d ∧
      jensenShannon Real.log [3 / 10, 7 / 10] [(1 : ℝ) / 2, 0] = some d) :=
  metrics_symm Real.log [(1 : ℝ) / 2, 0] [3 / 10, 7 / 10] rfl

/-- Claim C11 fails as stated: `jensenShannon` of the vector `[-1]` with itself
is NaN, and so it is of the vector `[+Inf]`; of the vector `[1.2e308]`, whose
double is beyond the finite range, it is minus infinity. -/
theorem metrics_self_counterexample :
    jensenShannon (float64.Log Real.log) [float64.fin (-1)] [float64.fin (-1)]
      = some float64.nan ∧
    jensenShannon (float64.Log Real.log) [float64.posInf] [float64.posInf]
      = some float64.nan ∧
    jensenShannon (float64.Log Real.log) [float64.fin 1.2e308] [float64.fin 1.2e308]
      = some float64.negInf := by
  refine ⟨?_, ?_, ?_⟩
  · simp [jensenShannon, jensenShannonFrom, float64.zero_def, float64.ofScientific_def,
      float64.add_def, float64.sub_def, float64.mul_def, float64.add, float64.sub, float64.mul,
      float64.Log, float64.overflow, float64.mulInf, MaxFloat64]
  · simp [jensenShannon, jensenShannonFrom, float64.zero_def, float64.ofScientific_def,
      float64.add_def, float64.sub_def, float64.mul_def, float64.add, float64.sub, float64.mul,
      float64.Log, float64.overflow, float64.mulInf, MaxFloat64]
    norm_num
  · simp [jensenShannon, jensenShannonFrom, float64.zero_def, float64.ofScientific_def,
      float64.add_def, float64.sub_def, float64.mul_def, float64.add, float64.sub, float64.mul,
      float64.Log, float64.overflow, float64.mulInf, MaxFloat64]
    norm_num

/-- Claim C11, amended: for every vector of `float64` values, of any length and
with any entries, zero, NaN and the infinities included, `manhattan` of the
vector with itself returns zero; and for every vector whose entries are finite,
not negative (zero included) and small enough for their double to stay in the
finite range, `jensenShannon` of the vector with itself returns zero. -/
theorem metrics_self {α : Type} [LinearOrderedField α] (log : α → α) (x : List (float64 α)) :
    manhattan x x = some 0 ∧
    ((∀ v ∈ x, ∃ t, v = float64.fin t ∧ 0 ≤ t ∧ t + t ≤ MaxFloat64 α) →
      jensenShannon (float64.Log log) x x = some 0) :=
  ⟨by simpa [manhattan] using manhattanFrom_self_float64 x [],
    fun h => by simpa [jensenShannon] using jensenShannonFrom_self_float64 log x [] h⟩

/-- Claim C11 amended, at a vector with a zero entry. -/
theorem metrics_self_witness :
    manhattan [float64.fin ((1 : ℝ) / 2), float64.fin 0, float64.fin (1 / 2)]
      [float64.fin ((1 : ℝ) / 2), float64.fin 0, float64.fin (1 / 2)] = some 0 ∧
    jensenShannon (float64.Log Real.log)
      [float64.fin ((1 : ℝ) / 2), float64.fin 0, float64.fin (1 / 2)]
      [float64.fin ((1 : ℝ) / 2), float64.fin 0, float64.fin (1 / 2)] = some 0 :=
  ⟨(metrics_self Real.log _).1, (metrics_self Real.log _).2 (by
    intro v hv
    simp only [List.mem_cons, List.mem_singleton, List.not_mem_nil, or_false] at hv
    unfold MaxFloat64
    rcases hv with rfl | rfl | rfl
    · exact ⟨1 / 2, rfl, by norm_num, by norm_num⟩
    · exact ⟨0, rfl, by norm_num, by norm_num⟩
    · exact ⟨1 / 2, rfl, by norm_num, by norm_num⟩)⟩

/-- Claim C12 fails on the code: on four records with positive weights,
coordinate 1 and `count = 2`, `ViewTopic` lists four entries and not two: the
two records with the largest weight, in order, and then two entries of the
zero-valued placeholder, because `resultsorted` is made with `count` zero
values before the `count` buffered records are appended to it. -/
theorem ViewTopic_lists_twice :
    (ViewTopic weightCorpus 1 1 2).map (fun l => l.map fun e => (e.Rank, e.ID))
      = some [(1, "c"), (2, "a"), (3, ""), (4, "")] ∧
    [(1, "c"), (2, "a"), (3, ""), (4, "")].length ≠ 2 := by
  decide

/-- Claim C13 fails as stated: when no corpus record has the requested
identifier, the first item is the first corpus record, and when a record with
the same vector stands before the requested one, the first item is that
record. -/
theorem JsonResponse_rank0_counterexample :
    (JsonResponse "manhattan" (fun _ => 0) exampleCorpus "zzz" 0).map
        (fun r => r.Items.map fun e => (e.Id, e.Rank)) = some [("a", 0)] ∧
    (JsonResponse "manhattan" (fun _ => 0) twinCorpus "a" 0).map
        (fun r => r.Items.map fun e => (e.Id, e.Rank)) = some [("b", 0)] ∧
    "a" ≠ "zzz" ∧ "b" ≠ "a" := by
  refine ⟨by decide, ?_, by decide, by decide⟩
  simp [JsonResponse, JsonResponseQuery, JsonResponseStep, JsonResponseItem, twinCorpus,
    calculateDistance, calculateDistanceStep, metric, manhattan, manhattanFrom, mpair,
    maxIndexDistance, maxIndexDistanceFrom, sortSort, insertionSortInner, dataframe.Less,
    dataframe.Swap, dataframe.Len, swapAt, List.replicate, List.range, List.range.loop]

/-- Claim C13, amended: whenever `JsonResponse` builds a response, which it does
when the corpus vectors are at least as long as the query's, its first item
has rank 0 and the distance string `"0"`; the id of that item equals the
requested urn when the corpus has at least `count+1` records, one of them
carries the requested identifier, and every record with another identifier is
at a strictly positive distance from the query. -/
theorem JsonResponse_rank0 {α : Type} [LinearOrderedField α] (distance : String) (log : α → α)
    (backend : List (theta α)) (urn : String) (count : Nat)
    (hvec : ∀ v ∈ backend,
      (JsonResponseQuery urn backend (theta.zero α)).Vector.length ≤ v.Vector.length) :
    ∃ resp item, JsonResponse distance log backend urn count = some resp ∧
      resp.Items[0]? = some item ∧ item.Rank = 0 ∧ item.Distance = Rendered.literal "0" ∧
      (count + 1 ≤ backend.length → (∃ v ∈ backend, v.ID = urn) →
        (∀ v ∈ backend, v.ID ≠ urn → ∀ d,
          metric distance log (JsonResponseQuery urn backend (theta.zero α)).Vector v.Vector
            = some d → 0 < d) →
        item.Id = urn) := by
  obtain ⟨st, ts, ds, _, hcd, h3, h4, _, _⟩ := calculateDistance_total distance log backend
    (JsonResponseQuery urn backend (theta.zero α)) count hvec
  obtain ⟨resp, hresp, _, hitems⟩ :=
    JsonResponse_items distance log backend urn count ts ds hcd (h3.trans h4.symm)
  cases ts with
  | nil => simp at h3
  | cons t ts =>
    cases ds with
    | nil => simp at h4
    | cons d ds =>
      refine ⟨resp, itemAt 0 t d, hresp, hitems 0 t d (by simp) (by simp), rfl, rfl, ?_⟩
      intro hN hurn hpos
      obtain ⟨hq, hqid⟩ := JsonResponseQuery_mem urn backend (theta.zero α) hurn
      obtain ⟨t', ht', hid⟩ := calculateDistance_first distance log backend _ count _ _ hN hvec hq
        (by rw [hqid]; exact hpos) hcd
      simp at ht'
      subst ht'
      exact hid.trans hqid

/-- Claim C13 amended, at the scenario of the specification. -/
theorem JsonResponse_rank0_witness :
    ∃ resp item, JsonResponse "manhattan" (fun _ => 0) exampleCorpus "a" 2 = some resp ∧
      resp.Items[0]? = some item ∧ item.Rank = 0 ∧ item.Distance = Rendered.literal "0" ∧
      item.Id = "a" := by
  obtain ⟨resp, item, h1, h2, h3, h4, h5⟩ :=
    JsonResponse_rank0 "manhattan" (fun _ => 0) exampleCorpus "a" 2 (by decide)
  refine ⟨resp, item, h1, h2, h3, h4, h5 (by decide) ⟨exampleQuery, by simp [exampleCorpus, exampleQuery], rfl⟩ ?_⟩
  rw [exampleQuery_found]
  simp [exampleCorpus, exampleQuery, metric, manhattan, manhattanFrom, mpair]
  norm_num

/-- Claim C14 fails as stated: at the scenario of the specification the item of
rank 1 has the score `2/5`, and the number handed to the formatter is `40`. -/
theorem JsonResponse_distance_counterexample :
    ∃ ts resp, calculateDistance "manhattan" (fun _ => 0) exampleCorpus
        (JsonResponseQuery "a" exampleCorpus (theta.zero ℚ)) 2 = some (ts, [0, 2 / 5, 1 / 2]) ∧
      JsonResponse "manhattan" (fun _ => 0) exampleCorpus "a" 2 = some resp ∧
      (resp.Items[1]?).map (fun e => e.Distance) = some (Rendered.FormatFloat 40 2) ∧
      (40 : ℚ) ≠ 2 / 5 := by
  obtain ⟨ts, hcd⟩ := calculateDistance_scenario_distances
  rw [← exampleQuery_found] at hcd
  have hlen : ts.length = 3 := by
    obtain ⟨_, ts', ds', _, h2, h3, _, _, _⟩ := calculateDistance_total "manhattan" (fun _ => 0)
      exampleCorpus (JsonResponseQuery "a" exampleCorpus (theta.zero ℚ)) 2 (by decide)
    rw [hcd] at h2
    obtain ⟨rfl, _⟩ := Prod.mk.inj (Option.some.inj h2)
    exact h3
  obtain ⟨resp, hresp, _, hitems⟩ := JsonResponse_items "manhattan" (fun _ => 0) exampleCorpus
    "a" 2 ts [0, 2 / 5, 1 / 2] hcd (by simp [hlen])
  have h1 : (1 : Nat) < ts.length := by omega
  refine ⟨ts, resp, hcd, hresp, ?_, by norm_num⟩
  rw [hitems 1 ts[1] (2 / 5) (List.getElem?_eq_getElem h1) (by simp)]
  simp [itemAt]
  norm_num

/-- Claim C14, amended: for every item of rank `i ≥ 1` of the response built by
`JsonResponse` the distance field is the rendering with 2 fractional digits of
100 times the item's score: the number handed to `strconv.FormatFloat` is
`distances[i] * 100`, with `distances[i]` as returned by `calculateDistance`,
and the id and the text of the item are those of `thetas[i]`. -/
theorem JsonResponse_distance {α : Type} [LinearOrderedField α] (distance : String)
    (log : α → α) (backend : List (theta α)) (urn : String) (count : Nat)
    (hvec : ∀ v ∈ backend,
      (JsonResponseQuery urn backend (theta.zero α)).Vector.length ≤ v.Vector.length) :
    ∃ ts ds resp,
      calculateDistance distance log backend (JsonResponseQuery urn backend (theta.zero α)) count
        = some (ts, ds) ∧
      JsonResponse distance log backend urn count = some resp ∧
      resp.Items.length = count + 1 ∧
      ∀ i, 1 ≤ i → i < count + 1 → ∃ t d, ts[i]? = some t ∧ ds[i]? = some d ∧
        resp.Items[i]? = some ⟨t.ID, i, Rendered.FormatFloat (d * 100) 2, t.Text⟩ := by
  obtain ⟨st, ts, ds, _, hcd, h3, h4, _, _⟩ := calculateDistance_total distance log backend
    (JsonResponseQuery urn backend (theta.zero α)) count hvec
  obtain ⟨resp, hresp, hl, hitems⟩ :=
    JsonResponse_items distance log backend urn count ts ds hcd (h3.trans h4.symm)
  refine ⟨ts, ds, resp, hcd, hresp, hl.trans h3, ?_⟩
  intro i hi1 hi2
  have ht : i < ts.length := by omega
  have hd : i < ds.length := by omega
  refine ⟨ts[i], ds[i], List.getElem?_eq_getElem ht, List.getElem?_eq_getElem hd, ?_⟩
  rw [hitems i ts[i] ds[i] (List.getElem?_eq_getElem ht) (List.getElem?_eq_getElem hd)]
  simp [itemAt]
  omega

/-- Claim C14 amended, at the scenario of the specification. -/
theorem JsonResponse_distance_witness :
    ∃ ts ds resp,
      calculateDistance "manhattan" (fun _ => 0) exampleCorpus
        (JsonResponseQuery "a" exampleCorpus (theta.zero ℚ)) 2 = some (ts, ds) ∧
      JsonResponse "manhattan" (fun _ => 0) exampleCorpus "a" 2 = some resp ∧
      resp.Items.length = 2 + 1 ∧
      ∀ i, 1 ≤ i → i < 2 + 1 → ∃ t d, ts[i]? = some t ∧ ds[i]? = some d ∧
        resp.Items[i]? = some ⟨t.ID, i, Rendered.FormatFloat (d * 100) 2, t.Text⟩ :=
  JsonResponse_distance "manhattan" (fun _ => 0) exampleCorpus "a" 2 (by decide)

/-- Claim C15 fails on the code: for four rows and three workers `chunkSize` is
2 and the range of the second worker is `[2, 5)`, past the four rows, so that
slicing the corpus panics in that worker; for five rows and four workers the
last worker starts at row 6. -/
theorem DivergenceCSVBounds_out_of_range :
    chunkSize 4 3 = 2 ∧ DivergenceCSVBounds 4 3 = [(0, 3), (2, 5), (4, 4)] ∧
    ¬ (1 * chunkSize 4 3 + chunkSize 4 3 + 1 ≤ 4) ∧
    (DivergenceCSV (fun _ => 0) zeroCorpus 1 1 3).map Option.isSome = [true, false, true] ∧
    DivergenceCSVBounds 5 4 = [(0, 3), (2, 5), (4, 7), (6, 5)] ∧
    ¬ ((4 - 1) * chunkSize 5 4 ≤ 5) := by
  decide

end Metallo
